import Mathlib

/-!
The program culator: a shallow embedding of the lexer and the recursive-descent evaluator

The development follows `culator.c`.  The interpreter's globals (`token`,
`stream`, the static argument buffer of `parse_expr4`) and the two output
streams are gathered in one explicit `State`; every C function becomes a
function from states to outcomes.

Host-dependent parts are parameters, grouped in `Host`: the arithmetic of the
`real` type (`long double`), the library routine `pow`, the conversion of a
scanned literal to a `real`, the `real` read from the token's union while it
holds a routine, and the table generated from `functions.c`.
-/

namespace Culator

/-! ## The host -/

/-- The arithmetic of the C type `real` and the contents of the function table
    produced by including `functions.c`.  `ofRat q` is the `real` that the host
    produces for a literal whose exact value is `q`.  `val_of_func n f` is the
    `real` that a read of `token.as.val` yields while the union holds the arity
    `n` and the routine `f`: the bytes of the other member, which C leaves to
    the implementation. -/
structure Host (R : Type) where
  ofRat : ℚ → R
  val_of_func : Nat → (List R → R) → R
  add : R → R → R
  sub : R → R → R
  mul : R → R → R
  div : R → R → R
  neg : R → R
  pow : R → R → R
  functions_c : List (String × Nat × (List R → R))

/-- The constant of `#define MAX_FUNC_ARGS 256`. -/
def MAX_FUNC_ARGS : Nat := 256

/-! ## Tokens -/

/-- The enumeration `enum TokenKind` (without the counter `NUM_TOKENS`). -/
inductive TokenKind where
  | TOKEN_VAL
  | TOKEN_ADD
  | TOKEN_SUB
  | TOKEN_MUL
  | TOKEN_DIV
  | TOKEN_POW
  | TOKEN_FUNC
  | TOKEN_CONST
  | TOKEN_LPARAM
  | TOKEN_RPARAM
  | TOKEN_COMMA
  | TOKEN_EOF
  deriving DecidableEq, Repr

open TokenKind

/-- A `char const *` into the expression being read.  The string is the list of
    its characters followed by one terminator; `to rest` points at the first
    character of `rest` (at the terminator when `rest` is empty), `off` points
    one past the terminator, and `null` is the null pointer. -/
inductive Ptr where
  | null
  | to (rest : List Char)
  | off
  deriving DecidableEq, Repr

/-- The union `as` of `struct Token`: either a value or an arity with a
    routine. -/
inductive TokenAs (R : Type) where
  | val (v : R)
  | func (nargs : Nat) (func : List R → R)

/-- The record `struct Token`. -/
structure Token (R : Type) where
  kind : TokenKind
  start : Ptr
  end_ : Ptr
  as_ : TokenAs R

/-- The globals of the program together with its two output streams:
    `token`, `stream`, the static buffer `args` of `parse_expr4`, the values
    printed on standard output (one per line) and the lines written to the
    diagnostic stream.  The field `calls` is not a variable of the program: it
    counts the calls `func(args)` of native routines made so far. -/
structure State (R : Type) where
  token : Token R
  stream : Ptr
  args : List R
  stdout : List R
  stderr : List String
  calls : Nat

/-- The ways a call can fail to return: `exit(EXIT_FAILURE)`, an operation
    whose behaviour C leaves undefined, or exhausted recursion fuel. -/
inductive Halt where
  | exit_failure
  | undefined
  | out_of_fuel
  deriving DecidableEq, Repr

/-- The result of running a C function on a state. -/
inductive Outcome (R : Type) (α : Type) where
  | ok (v : α) (s : State R)
  | halt (h : Halt) (s : State R)

/-! ## The tables -/

/-- The table `constants`, each value given by the exact decimal written in the
    source. -/
def constants : List (String × ℚ) :=
  [ ("pi", 3.141592653589793238462643383279502884),
    ("e", 2.718281828459045235360287471352662498),
    ("M_E", 2.718281828459045235360287471352662498),
    ("M_LOG2E", 1.442695040888963407359924681001892137),
    ("M_LOG10E", 0.434294481903251827651128918916605082),
    ("M_LN2", 0.693147180559945309417232121458176568),
    ("M_LN10", 2.302585092994045684017991454684364208),
    ("M_PI", 3.141592653589793238462643383279502884),
    ("M_PI_2", 1.570796326794896619231321691639751442),
    ("M_PI_4", 0.785398163397448309615660845819875721),
    ("M_1_PI", 0.318309886183790671537767526745028724),
    ("M_2_PI", 0.636619772367581343075535053490057448),
    ("M_2_SQRTPI", 1.128379167095512573896158903121545172),
    ("M_SQRT2", 1.414213562373095048801688724209698079),
    ("M_SQRT1_2", 0.707106781186547524400844362104849039) ]

/-- The custom routine `torad`: `x[0] * M_PI / 180.0L`. -/
def torad {R : Type} (H : Host R) (x : List R) : R :=
  H.div (H.mul (x.getD 0 (H.ofRat 0)) (H.ofRat 3.14159265358979323846)) (H.ofRat 180)

/-- The table `functions`: the entries of `functions.c`, then `torad`. -/
def functions {R : Type} (H : Host R) : List (String × Nat × (List R → R)) :=
  H.functions_c ++ [("torad", 1, torad H)]

/-- The table `tokenToNames`. -/
def tokenToNames : TokenKind → String
  | TOKEN_VAL => "Val"
  | TOKEN_ADD => "+"
  | TOKEN_SUB => "-"
  | TOKEN_MUL => "*"
  | TOKEN_DIV => "/"
  | TOKEN_POW => "^"
  | TOKEN_FUNC => "Func"
  | TOKEN_CONST => "Const"
  | TOKEN_LPARAM => "("
  | TOKEN_RPARAM => ")"
  | TOKEN_COMMA => ","
  | TOKEN_EOF => "EOF"

/-! ## Character classes of `<ctype.h>` in the C locale -/

/-- The library predicate `isspace`. -/
def isspace (c : Char) : Bool :=
  c == ' ' || c == '\t' || c == '\n' || c == '\x0b' || c == '\x0c' || c == '\r'

/-- The library predicate `isdigit`. -/
def isdigit (c : Char) : Bool := 48 ≤ c.toNat && c.toNat ≤ 57

/-- The library predicate `isalpha`. -/
def isalpha (c : Char) : Bool :=
  (65 ≤ c.toNat && c.toNat ≤ 90) || (97 ≤ c.toNat && c.toNat ≤ 122)

/-- The library predicate `isalnum`. -/
def isalnum (c : Char) : Bool := isalpha c || isdigit c

/-- The loop condition `isalnum(*stream) || *stream == '_'`. -/
def isname (c : Char) : Bool := isalnum c || c == '_'

/-- The case labels of the blank branch of `next_token`: space, newline,
    carriage return, tab, vertical tab. -/
def is_blank_case (c : Char) : Bool :=
  c == ' ' || c == '\n' || c == '\r' || c == '\t' || c == '\x0b'

/-- The case labels of the name branch of `next_token`: a letter or `_`. -/
def is_name_case (c : Char) : Bool := isalpha c || c == '_'

/-! ## The conversion `sscanf(token.start, "%Lg", &token.as.val)` -/

/-- The value of a decimal or hexadecimal digit. -/
def digit_value (c : Char) : Nat :=
  if isdigit c then c.toNat - 48
  else if 97 ≤ c.toNat && c.toNat ≤ 102 then c.toNat - 87
  else c.toNat - 55

/-- The library predicate `isxdigit`. -/
def isxdigit (c : Char) : Bool :=
  isdigit c || (65 ≤ c.toNat && c.toNat ≤ 70) || (97 ≤ c.toNat && c.toNat ≤ 102)

/-- The number written by a list of digits in the given base. -/
def digits_value (base : Nat) (ds : List Char) : Nat :=
  ds.foldl (fun acc c => acc * base + digit_value c) 0

/-- The exact value `m * b ^ e`. -/
def scale (m b : Nat) (e : Int) : ℚ :=
  if 0 ≤ e then ((m * b ^ e.toNat : Nat) : ℚ) else (m : ℚ) / ((b ^ (-e).toNat : Nat) : ℚ)

/-- The optional exponent part of a floating literal, introduced by the letter
    `e` (decimal) or `p` (hexadecimal) in either case: `some 0` when the text
    has no exponent part, `some x` for a complete one, and `none` when the
    letter (and an optional sign) is not followed by a digit, which is an input
    item that is only a proper beginning of a number. -/
def scan_exponent (lower upper : Char) (text : List Char) : Option Int :=
  match text with
  | [] => some 0
  | c :: rest =>
    if c == lower || c == upper then
      let neg := rest.head? == some '-'
      let body := if rest.head? == some '-' || rest.head? == some '+' then rest.tail else rest
      let es := body.takeWhile isdigit
      if es.isEmpty then none
      else some (if neg then - (digits_value 10 es : Int) else (digits_value 10 es : Int))
    else some 0

/-- The value of a decimal floating literal at the start of the text: digits,
    an optional point with more digits, an optional exponent part. -/
def scan_decimal (text : List Char) : Option ℚ :=
  let ds := text.takeWhile isdigit
  let r1 := text.dropWhile isdigit
  let fs := if r1.head? == some '.' then r1.tail.takeWhile isdigit else []
  let r2 := if r1.head? == some '.' then r1.tail.dropWhile isdigit else r1
  (scan_exponent 'e' 'E' r2).map (fun e => scale (digits_value 10 (ds ++ fs)) 10 (e - fs.length))

/-- The value of a hexadecimal floating literal whose marker `0x` has been
    read: hexadecimal digits with an optional point, at least one digit in all,
    and an optional binary exponent part. -/
def scan_hex (text : List Char) : Option ℚ :=
  let hs := text.takeWhile isxdigit
  let r1 := text.dropWhile isxdigit
  let fs := if r1.head? == some '.' then r1.tail.takeWhile isxdigit else []
  let r2 := if r1.head? == some '.' then r1.tail.dropWhile isxdigit else r1
  if hs.isEmpty && fs.isEmpty then none
  else (scan_exponent 'p' 'P' r2).map
    (fun e => scale (digits_value 16 (hs ++ fs)) 2 (e - 4 * fs.length))

/-- The directive `%Lg` of `sscanf` applied to a text that begins with a digit,
    after the C standard: the input item is the longest beginning of the text
    that is, or begins, a decimal or hexadecimal floating literal; the result
    is its exact value, or `none` when the item is not a complete literal (the
    conversion then fails and stores nothing). -/
def sscanf_Lg (text : List Char) : Option ℚ :=
  match text with
  | c :: x :: rest =>
    if c == '0' && (x == 'x' || x == 'X') then scan_hex rest else scan_decimal text
  | _ => scan_decimal text

/-! ## Diagnostics -/

/-- The function `warning`: one line on the diagnostic stream. -/
def warning {R : Type} (msg : String) (s : State R) : State R :=
  { s with stderr := s.stderr ++ ["WARNING: " ++ msg] }

/-- The function `error`: one line on the diagnostic stream, then
    `exit(EXIT_FAILURE)`. -/
def error {R α : Type} (msg : String) (s : State R) : Outcome R α :=
  .halt .exit_failure { s with stderr := s.stderr ++ ["ERROR: " ++ msg] }

/-! ## The lexer -/

/-- The first loop over `constants` in the name branch: the value of the first
    entry whose name is the given text. -/
def find_constant (name : List Char) : Option ℚ :=
  (constants.find? (fun entry => entry.1.toList == name)).map (fun entry => entry.2)

/-- The second loop of the name branch, over `functions`. -/
def find_function {R : Type} (H : Host R) (name : List Char) : Option (Nat × (List R → R)) :=
  ((functions H).find? (fun entry => entry.1.toList == name)).map (fun entry => entry.2)

/-- The label `end:` of `next_token`: `token.end = stream`, reached with the
    given kind, payload and cursor. -/
def token_end {R : Type} (s : State R) (kind : TokenKind) (as_ : TokenAs R) (stream : Ptr) :
    Outcome R Unit :=
  .ok () { s with stream := stream,
                  token := { kind := kind, start := s.token.start, end_ := stream, as_ := as_ } }

/-- The body of `next_token` from the label `repeat:` on, with the cursor at
    the first character of `text`.  Each `goto repeat` spends one unit of
    fuel. -/
def repeat_ {R : Type} (H : Host R) : Nat → List Char → State R → Outcome R Unit
  | 0, _, s => .halt .out_of_fuel s
  | fuel + 1, text, s0 =>
    let s : State R := { s0 with stream := .to text, token := { s0.token with start := .to text } }
    let c := text.headD '\x00'
    if is_blank_case c then
      repeat_ H fuel (text.dropWhile isspace) s
    else if isdigit c then
      let r1 := text.dropWhile isdigit
      let r2 := if r1.head? == some '.' then r1.tail else r1
      let r3 := r2.dropWhile isdigit
      match sscanf_Lg text with
      | some q => token_end s TOKEN_VAL (.val (H.ofRat q)) (.to r3)
      | none => token_end s TOKEN_VAL s.token.as_ (.to r3)
    else if is_name_case c then
      let name := text.takeWhile isname
      let rest := text.dropWhile isname
      match find_constant name with
      | some q => token_end s TOKEN_CONST (.val (H.ofRat q)) (.to rest)
      | none =>
        match find_function H name with
        | some (nargs, func) => token_end s TOKEN_FUNC (.func nargs func) (.to rest)
        | none =>
          token_end (warning ("Unknown name \x27" ++ String.mk name ++ "\x27, skipping") s)
            s.token.kind s.token.as_ (.to rest)
    else if c == '*' then
      if text.tail.head? == some '*' then token_end s TOKEN_POW s.token.as_ (.to text.tail.tail)
      else token_end s TOKEN_MUL s.token.as_ (.to text.tail)
    else if c == '^' then token_end s TOKEN_POW s.token.as_ (.to text.tail)
    else if c == '+' then token_end s TOKEN_ADD s.token.as_ (.to text.tail)
    else if c == '-' then token_end s TOKEN_SUB s.token.as_ (.to text.tail)
    else if c == '/' then token_end s TOKEN_DIV s.token.as_ (.to text.tail)
    else if c == '(' then token_end s TOKEN_LPARAM s.token.as_ (.to text.tail)
    else if c == ')' then token_end s TOKEN_RPARAM s.token.as_ (.to text.tail)
    else if c == ',' then token_end s TOKEN_COMMA s.token.as_ (.to text.tail)
    else if c == '\x00' then
      match text with
      | [] => token_end s TOKEN_EOF s.token.as_ .off
      | _ :: rest => token_end s TOKEN_EOF s.token.as_ (.to rest)
    else
      repeat_ H fuel text.tail
        (warning ("Invalid \x27" ++ String.singleton c ++ "\x27 token, skipping") s)

/-- The function `next_token`.  Reading through a cursor that does not point
    into the string is undefined. -/
def next_token {R : Type} (H : Host R) (s : State R) : Outcome R Unit :=
  match s.stream with
  | .to text => repeat_ H (text.length + 1) text s
  | _ => .halt .undefined s

/-- The macro `is_token`. -/
def is_token {R : Type} (s : State R) (k : TokenKind) : Bool := s.token.kind == k

/-- The macro `match_token`. -/
def match_token {R : Type} (H : Host R) (k : TokenKind) (s : State R) : Outcome R Bool :=
  if is_token s k then
    match next_token H s with
    | .ok _ s1 => .ok true s1
    | .halt h s1 => .halt h s1
  else .ok false s

/-- The macro `expect_token`. -/
def expect_token {R : Type} (H : Host R) (k : TokenKind) (s : State R) : Outcome R Unit :=
  if is_token s k then next_token H s
  else error ("Expected token \x27" ++ tokenToNames k ++ "\x27, got \x27"
              ++ tokenToNames s.token.kind ++ "\x27") s

/-! ## The evaluator -/

/-- The read `token.as.val`: the value the union holds, or what the host
    reads from the bytes of an arity and a routine. -/
def as_val {R : Type} (H : Host R) : TokenAs R → R
  | .val v => v
  | .func nargs func => H.val_of_func nargs func

/-- The statements `real val = token.as.val; next_token(); return val;` shared
    by the first two branches of `parse_expr4`. -/
def take_val {R : Type} (H : Host R) (s : State R) : Outcome R R :=
  match next_token H s with
  | .halt h s1 => .halt h s1
  | .ok _ s1 => .ok (as_val H s.token.as_) s1

/-- The loop `for (i = 0; i < nargs-1; ++i)` of `parse_expr4`, with `count`
    iterations left and the index at `i`.  A store outside the buffer is
    undefined. -/
def parse_args {R : Type} (H : Host R) (parse_expr : State R → Outcome R R) :
    Nat → Nat → State R → Outcome R Unit
  | 0, _, s => .ok () s
  | count + 1, i, s =>
    match parse_expr s with
    | .halt h s1 => .halt h s1
    | .ok v s1 =>
      if i < MAX_FUNC_ARGS then
        match expect_token H TOKEN_COMMA { s1 with args := s1.args.set i v } with
        | .halt h s2 => .halt h s2
        | .ok _ s2 => parse_args H parse_expr count (i + 1) s2
      else .halt .undefined s1

/-- The function `parse_expr4`, with the recursive call to `parse_expr` as a
    parameter. -/
def parse_expr4 {R : Type} (H : Host R) (parse_expr : State R → Outcome R R) (s : State R) :
    Outcome R R :=
  if is_token s TOKEN_VAL then take_val H s
  else if is_token s TOKEN_CONST then take_val H s
  else if is_token s TOKEN_FUNC then
    match s.token.as_ with
    | .val _ => .halt .undefined s
    | .func nargs func =>
      match next_token H s with
      | .halt h s1 => .halt h s1
      | .ok _ s1 =>
        match expect_token H TOKEN_LPARAM s1 with
        | .halt h s2 => .halt h s2
        | .ok _ s2 =>
          match parse_args H parse_expr (nargs - 1) 0 s2 with
          | .halt h s3 => .halt h s3
          | .ok _ s3 =>
            match parse_expr s3 with
            | .halt h s4 => .halt h s4
            | .ok v s4 =>
              if 0 < nargs ∧ nargs ≤ MAX_FUNC_ARGS then
                match expect_token H TOKEN_RPARAM { s4 with args := s4.args.set (nargs - 1) v } with
                | .halt h s5 => .halt h s5
                | .ok _ s5 => .ok (func s5.args) { s5 with calls := s5.calls + 1 }
              else .halt .undefined s4
  else
    match match_token H TOKEN_LPARAM s with
    | .halt h s1 => .halt h s1
    | .ok true s1 =>
      match parse_expr s1 with
      | .halt h s2 => .halt h s2
      | .ok val s2 =>
        match expect_token H TOKEN_RPARAM s2 with
        | .halt h s3 => .halt h s3
        | .ok _ s3 => .ok val s3
    | .ok false s1 => error "Unexpected token" s1

/-- The function `parse_expr3`; its self-recursion spends fuel. -/
def parse_expr3 {R : Type} (H : Host R) (parse_expr : State R → Outcome R R) :
    Nat → State R → Outcome R R
  | 0, s => .halt .out_of_fuel s
  | fuel + 1, s =>
    match match_token H TOKEN_SUB s with
    | .halt h s1 => .halt h s1
    | .ok true s1 =>
      match parse_expr3 H parse_expr fuel s1 with
      | .halt h s2 => .halt h s2
      | .ok v s2 => .ok (H.neg v) s2
    | .ok false s1 =>
      match match_token H TOKEN_ADD s1 with
      | .halt h s2 => .halt h s2
      | .ok true s2 => parse_expr3 H parse_expr fuel s2
      | .ok false s2 => parse_expr4 H parse_expr s2

/-- The loop `while (is_token(TOKEN_POW))` of `parse_expr2`, entered with the
    accumulated `val`; each iteration spends one unit of `loops`. -/
def parse_expr2_loop {R : Type} (H : Host R) (parse_expr : State R → Outcome R R) (fuel : Nat) :
    Nat → R → State R → Outcome R R
  | 0, _, s => .halt .out_of_fuel s
  | loops + 1, val, s =>
    if is_token s TOKEN_POW then
      match next_token H s with
      | .halt h s1 => .halt h s1
      | .ok _ s1 =>
        match parse_expr3 H parse_expr fuel s1 with
        | .halt h s2 => .halt h s2
        | .ok v s2 => parse_expr2_loop H parse_expr fuel loops (H.pow val v) s2
    else .ok val s

/-- The function `parse_expr2`. -/
def parse_expr2 {R : Type} (H : Host R) (parse_expr : State R → Outcome R R) (fuel : Nat)
    (s : State R) : Outcome R R :=
  match parse_expr3 H parse_expr fuel s with
  | .halt h s1 => .halt h s1
  | .ok val s1 => parse_expr2_loop H parse_expr fuel fuel val s1

/-- The loop `while (is_token(TOKEN_MUL) || is_token(TOKEN_DIV))` of
    `parse_expr1`. -/
def parse_expr1_loop {R : Type} (H : Host R) (parse_expr : State R → Outcome R R) (fuel : Nat) :
    Nat → R → State R → Outcome R R
  | 0, _, s => .halt .out_of_fuel s
  | loops + 1, val, s =>
    if is_token s TOKEN_MUL || is_token s TOKEN_DIV then
      let op := s.token.kind
      match next_token H s with
      | .halt h s1 => .halt h s1
      | .ok _ s1 =>
        match parse_expr2 H parse_expr fuel s1 with
        | .halt h s2 => .halt h s2
        | .ok v s2 =>
          if op == TOKEN_MUL then parse_expr1_loop H parse_expr fuel loops (H.mul val v) s2
          else parse_expr1_loop H parse_expr fuel loops (H.div val v) s2
    else .ok val s

/-- The function `parse_expr1`. -/
def parse_expr1 {R : Type} (H : Host R) (parse_expr : State R → Outcome R R) (fuel : Nat)
    (s : State R) : Outcome R R :=
  match parse_expr2 H parse_expr fuel s with
  | .halt h s1 => .halt h s1
  | .ok val s1 => parse_expr1_loop H parse_expr fuel fuel val s1

/-- The loop `while (is_token(TOKEN_ADD) || is_token(TOKEN_SUB))` of
    `parse_expr`. -/
def parse_expr_loop {R : Type} (H : Host R) (parse_expr : State R → Outcome R R) (fuel : Nat) :
    Nat → R → State R → Outcome R R
  | 0, _, s => .halt .out_of_fuel s
  | loops + 1, val, s =>
    if is_token s TOKEN_ADD || is_token s TOKEN_SUB then
      let op := s.token.kind
      match next_token H s with
      | .halt h s1 => .halt h s1
      | .ok _ s1 =>
        match parse_expr1 H parse_expr fuel s1 with
        | .halt h s2 => .halt h s2
        | .ok v s2 =>
          if op == TOKEN_ADD then parse_expr_loop H parse_expr fuel loops (H.add val v) s2
          else parse_expr_loop H parse_expr fuel loops (H.sub val v) s2
    else .ok val s

/-- The function `parse_expr`.  The fuel bounds the depth of the calls that
    re-enter `parse_expr` through `parse_expr4`, and at each depth the length
    of the sign recursion and of the three loops. -/
def parse_expr {R : Type} (H : Host R) : Nat → State R → Outcome R R
  | 0, s => .halt .out_of_fuel s
  | fuel + 1, s =>
    match parse_expr1 H (parse_expr H fuel) (fuel + 1) s with
    | .halt h s1 => .halt h s1
    | .ok val s1 => parse_expr_loop H (parse_expr H fuel) (fuel + 1) (fuel + 1) val s1

/-! ## The line driver -/

/-- The zero-initialised `static struct Token nul = {0}`. -/
def nul {R : Type} (H : Host R) : Token R :=
  { kind := TOKEN_VAL, start := .null, end_ := .null, as_ := .val (H.ofRat 0) }

/-- The state of a process that has evaluated nothing yet: `token = {0}`,
    `stream` null, `args = {0}`, both output streams empty, no routine
    called. -/
def State.init {R : Type} (H : Host R) : State R :=
  { token := nul H, stream := .null, args := List.replicate MAX_FUNC_ARGS (H.ofRat 0),
    stdout := [], stderr := [], calls := 0 }

/-- The function `parse_str`; `printf` appends the value to standard output.
    The recursion fuel is taken from the length of the string. -/
def parse_str {R : Type} (H : Host R) (str : List Char) (s : State R) : Outcome R Unit :=
  match next_token H { s with token := nul H, stream := .to str } with
  | .halt h s1 => .halt h s1
  | .ok _ s1 =>
    if !is_token s1 TOKEN_EOF then
      match parse_expr H (str.length + 1) s1 with
      | .halt h s2 => .halt h s2
      | .ok val s2 => .ok () { s2 with stdout := s2.stdout ++ [val] }
    else .ok () s1

/-- The loop `for (i = 0; i < argc; ++i) parse_str(argv[i]);` of `main`. -/
def parse_argv {R : Type} (H : Host R) : List (List Char) → State R → Outcome R Unit
  | [], s => .ok () s
  | str :: rest, s =>
    match parse_str H str s with
    | .halt h s1 => .halt h s1
    | .ok _ s1 => parse_argv H rest s1

/-- The loop `while (parse_expr_stdin());` of `main`: every line that ends in a
    newline is evaluated, a last line without one is dropped. -/
def parse_stdin {R : Type} (H : Host R) : List (List Char) → State R → Outcome R Unit
  | [], s => .ok () s
  | [_], s => .ok () s
  | line :: rest, s =>
    match parse_str H line s with
    | .halt h s1 => .halt h s1
    | .ok _ s1 => parse_stdin H rest s1

/-- The function `main` after option processing, run on the positional
    arguments and on the text of standard input.  The outcome `ok` stands for
    `return EXIT_SUCCESS`. -/
def main {R : Type} (H : Host R) (argv : List (List Char)) (stdin : List Char) : Outcome R Unit :=
  if 0 < argv.length then parse_argv H argv (State.init H)
  else parse_stdin H (stdin.splitOn '\n') (State.init H)

/-! ## An exact host -/

/-- The number of binary digits of `n`, counted with `fuel` halvings. -/
def bit_length_aux : Nat → Nat → Nat
  | 0, _ => 0
  | fuel + 1, n => if n = 0 then 0 else bit_length_aux fuel (n / 2) + 1

/-- The number of binary digits of `n`. -/
def bit_length (n : Nat) : Nat := bit_length_aux n n

/-- The integer square root, by bisection on the binary digits. -/
def isqrt (n : Nat) : Nat :=
  (List.range (bit_length n / 2 + 1)).reverse.foldl
    (fun r i => if (r + 2 ^ i) * (r + 2 ^ i) ≤ n then r + 2 ^ i else r) 0

/-- Exponentiation of exact numbers, for integral exponents. -/
def rat_pow (a b : ℚ) : ℚ :=
  if b.den = 1 then (if 0 ≤ b.num then a ^ b.num.toNat else (a ^ (-b.num).toNat)⁻¹) else 0

/-- The square root of an exact number, exact on ratios of squares and
    truncated to fifteen decimals otherwise. -/
def rat_sqrt (a : ℚ) : ℚ :=
  (isqrt (a.num.toNat * a.den * 10 ^ 30) : ℚ) / ((a.den * 10 ^ 15 : Nat) : ℚ)

/-- Modelled from the spec: `functions.c` is not part of the sources; these
    are the built-ins named in the spec that exact arithmetic can compute
    (`sqrt`, `floor`, `ceil`, `abs`, `min`, `max`, `pow`), each reading its
    arguments from the front of the buffer. -/
def rat_functions_c : List (String × Nat × (List ℚ → ℚ)) :=
  [ ("sqrt", 1, fun x => rat_sqrt (x.getD 0 0)),
    ("floor", 1, fun x => ((Rat.floor (x.getD 0 0) : Int) : ℚ)),
    ("ceil", 1, fun x => ((Rat.ceil (x.getD 0 0) : Int) : ℚ)),
    ("abs", 1, fun x => |x.getD 0 0|),
    ("min", 2, fun x => min (x.getD 0 0) (x.getD 1 0)),
    ("max", 2, fun x => max (x.getD 0 0) (x.getD 1 0)),
    ("pow", 2, fun x => rat_pow (x.getD 0 0) (x.getD 1 0)) ]

/-- The host whose `real` is the field of rational numbers with exact
    arithmetic (division by zero yields zero); a read of `token.as.val` from a
    union that holds a routine yields zero. -/
def rat_host : Host ℚ :=
  { ofRat := fun q => q, val_of_func := fun _ _ => 0, add := fun a b => a + b,
    sub := fun a b => a - b,
    mul := fun a b => a * b, div := fun a b => a / b, neg := fun a => -a,
    pow := rat_pow, functions_c := rat_functions_c }

/-! ## The expressions the evaluator accepts

The syntax below has one type per function of the evaluator, in the shape of
the loops and branches of the code.  `text` writes an expression without
blanks; `eval` is the value together with the final contents of the static
argument buffer. -/

mutual
/-- What `parse_expr4` reads: a number, a constant, a call or a parenthesis. -/
inductive Atom where
  | num (ds : List Char) (frac : Option (List Char))
  | const (name : List Char)
  | call (name : List Char) (args : Args)
  | paren (e : Expr)
/-- The arguments of a call, separated by commas. -/
inductive Args where
  | last (e : Expr)
  | more (e : Expr) (rest : Args)
/-- What `parse_expr3` reads: signs before an atom. -/
inductive Unary where
  | neg (u : Unary)
  | pos (u : Unary)
  | atom (a : Atom)
/-- What `parse_expr2` reads: operands joined by the power operator, spelled
    with two stars when `stars` is set and with the caret otherwise. -/
inductive Power where
  | unary (u : Unary)
  | pow (p : Power) (stars : Bool) (u : Unary)
/-- What `parse_expr1` reads. -/
inductive Term where
  | power (p : Power)
  | mul (t : Term) (p : Power)
  | div (t : Term) (p : Power)
/-- What `parse_expr` reads. -/
inductive Expr where
  | term (t : Term)
  | add (e : Expr) (t : Term)
  | sub (e : Expr) (t : Term)
end

/-- The characters of a literal: the integer digits, then a point and the
    fraction digits when there is a fraction. -/
def num_text (ds : List Char) (frac : Option (List Char)) : List Char :=
  match frac with
  | none => ds
  | some fs => ds ++ '.' :: fs

/-- The decimal value of a literal. -/
def num_value (ds : List Char) (frac : Option (List Char)) : ℚ :=
  match frac with
  | none => (digits_value 10 ds : ℚ)
  | some fs => (digits_value 10 (ds ++ fs) : ℚ) / ((10 ^ fs.length : Nat) : ℚ)

mutual
/-- The expression as written, without blanks. -/
def Atom.text : Atom → List Char
  | .num ds frac => num_text ds frac
  | .const name => name
  | .call name args => name ++ '(' :: (args.text ++ [')'])
  | .paren e => '(' :: (e.text ++ [')'])
/-- The arguments as written. -/
def Args.text : Args → List Char
  | .last e => e.text
  | .more e rest => e.text ++ ',' :: rest.text
/-- The signed atom as written. -/
def Unary.text : Unary → List Char
  | .neg u => '-' :: u.text
  | .pos u => '+' :: u.text
  | .atom a => a.text
/-- The chain of powers as written. -/
def Power.text : Power → List Char
  | .unary u => u.text
  | .pow p stars u => p.text ++ ((if stars then ['*', '*'] else ['^']) ++ u.text)
/-- The chain of products and quotients as written. -/
def Term.text : Term → List Char
  | .power p => p.text
  | .mul t p => t.text ++ '*' :: p.text
  | .div t p => t.text ++ '/' :: p.text
/-- The chain of sums and differences as written. -/
def Expr.text : Expr → List Char
  | .term t => t.text
  | .add e t => e.text ++ '+' :: t.text
  | .sub e t => e.text ++ '-' :: t.text
end

/-- The number of arguments. -/
def Args.length : Args → Nat
  | .last _ => 1
  | .more _ rest => rest.length + 1

mutual
/-- The number of syntax nodes, counting a call or a parenthesis twice. -/
def Atom.size : Atom → Nat
  | .num _ _ => 1
  | .const _ => 1
  | .call _ args => args.size + 2
  | .paren e => e.size + 2
/-- The size of an argument list. -/
def Args.size : Args → Nat
  | .last e => e.size
  | .more e rest => e.size + rest.size + 1
/-- The size of a signed atom. -/
def Unary.size : Unary → Nat
  | .neg u => u.size + 1
  | .pos u => u.size + 1
  | .atom a => a.size
/-- The size of a chain of powers. -/
def Power.size : Power → Nat
  | .unary u => u.size
  | .pow p _ u => p.size + u.size + 1
/-- The size of a chain of products. -/
def Term.size : Term → Nat
  | .power p => p.size
  | .mul t p => t.size + p.size + 1
  | .div t p => t.size + p.size + 1
/-- The size of a chain of sums. -/
def Expr.size : Expr → Nat
  | .term t => t.size
  | .add e t => e.size + t.size + 1
  | .sub e t => e.size + t.size + 1
end

/-- The number of power operators at the top of a chain. -/
def Power.ops : Power → Nat
  | .unary _ => 0
  | .pow p _ _ => p.ops + 1

/-- The number of `*` and `/` at the top of a chain. -/
def Term.ops : Term → Nat
  | .power _ => 0
  | .mul t _ => t.ops + 1
  | .div t _ => t.ops + 1

/-- The number of `+` and `-` at the top of a chain. -/
def Expr.ops : Expr → Nat
  | .term _ => 0
  | .add e _ => e.ops + 1
  | .sub e _ => e.ops + 1

/-- A name as the lexer reads one: a letter or `_`, then letters, digits
    and `_`. -/
def is_identifier (name : List Char) : Prop :=
  (∃ c rest, name = c :: rest ∧ is_name_case c = true) ∧ ∀ c ∈ name, isname c = true

mutual
/-- Well-formed atoms: literals made of digits with a non-empty integer part,
    names of the table of constants, and calls of a registered function of
    arity between 1 and `MAX_FUNC_ARGS` with that many arguments. -/
def Atom.wf {R : Type} (H : Host R) : Atom → Prop
  | .num ds frac =>
    ds ≠ [] ∧ (∀ c ∈ ds, isdigit c = true) ∧ ∀ fs, frac = some fs → ∀ c ∈ fs, isdigit c = true
  | .const name => is_identifier name ∧ ∃ q, find_constant name = some q
  | .call name args =>
    is_identifier name ∧ find_constant name = none ∧
    (∃ func, find_function H name = some (args.length, func)) ∧
    args.length ≤ MAX_FUNC_ARGS ∧ args.wf H
  | .paren e => e.wf H
/-- Well-formed argument lists. -/
def Args.wf {R : Type} (H : Host R) : Args → Prop
  | .last e => e.wf H
  | .more e rest => e.wf H ∧ rest.wf H
/-- Well-formed signed atoms. -/
def Unary.wf {R : Type} (H : Host R) : Unary → Prop
  | .neg u => u.wf H
  | .pos u => u.wf H
  | .atom a => a.wf H
/-- Well-formed chains of powers. -/
def Power.wf {R : Type} (H : Host R) : Power → Prop
  | .unary u => u.wf H
  | .pow p _ u => p.wf H ∧ u.wf H
/-- Well-formed chains of products. -/
def Term.wf {R : Type} (H : Host R) : Term → Prop
  | .power p => p.wf H
  | .mul t p => t.wf H ∧ p.wf H
  | .div t p => t.wf H ∧ p.wf H
/-- Well-formed chains of sums. -/
def Expr.wf {R : Type} (H : Host R) : Expr → Prop
  | .term t => t.wf H
  | .add e t => e.wf H ∧ t.wf H
  | .sub e t => e.wf H ∧ t.wf H
end

mutual
/-- The value of an atom and the argument buffer it leaves, given the buffer
    it finds.  A call stores its arguments from index 0 in the one static
    buffer, the last one when all have been evaluated, and applies the routine
    to that buffer. -/
def Atom.eval {R : Type} (H : Host R) : Atom → List R → R × List R
  | .num ds frac, buf => (H.ofRat (num_value ds frac), buf)
  | .const name, buf => (H.ofRat ((find_constant name).getD 0), buf)
  | .call name args, buf =>
    match find_function H name with
    | some (_, func) =>
      (func (((args.run H 0 buf).2).set (args.length - 1) (args.run H 0 buf).1),
        ((args.run H 0 buf).2).set (args.length - 1) (args.run H 0 buf).1)
    | none => (H.ofRat 0, buf)
  | .paren e, buf => e.eval H buf
/-- The value of the last argument and the buffer it leaves, the arguments
    before it having been evaluated in order and stored from index `i`. -/
def Args.run {R : Type} (H : Host R) : Args → Nat → List R → R × List R
  | .last e, _, buf => e.eval H buf
  | .more e rest, i, buf => rest.run H (i + 1) (((e.eval H buf).2).set i (e.eval H buf).1)
/-- The value of a signed atom. -/
def Unary.eval {R : Type} (H : Host R) : Unary → List R → R × List R
  | .neg u, buf => (H.neg (u.eval H buf).1, (u.eval H buf).2)
  | .pos u, buf => u.eval H buf
  | .atom a, buf => a.eval H buf
/-- The value of a chain of powers: the operands are combined from the
    left. -/
def Power.eval {R : Type} (H : Host R) : Power → List R → R × List R
  | .unary u, buf => u.eval H buf
  | .pow p _ u, buf =>
    (H.pow (p.eval H buf).1 (u.eval H (p.eval H buf).2).1, (u.eval H (p.eval H buf).2).2)
/-- The value of a chain of products and quotients, combined from the left. -/
def Term.eval {R : Type} (H : Host R) : Term → List R → R × List R
  | .power p, buf => p.eval H buf
  | .mul t p, buf =>
    (H.mul (t.eval H buf).1 (p.eval H (t.eval H buf).2).1, (p.eval H (t.eval H buf).2).2)
  | .div t p, buf =>
    (H.div (t.eval H buf).1 (p.eval H (t.eval H buf).2).1, (p.eval H (t.eval H buf).2).2)
/-- The value of a chain of sums and differences, combined from the left. -/
def Expr.eval {R : Type} (H : Host R) : Expr → List R → R × List R
  | .term t, buf => t.eval H buf
  | .add e t, buf =>
    (H.add (e.eval H buf).1 (t.eval H (e.eval H buf).2).1, (t.eval H (e.eval H buf).2).2)
  | .sub e t, buf =>
    (H.sub (e.eval H buf).1 (t.eval H (e.eval H buf).2).1, (t.eval H (e.eval H buf).2).2)
end

mutual
/-- The value of an atom as arithmetic defines it: a literal or constant
    stands for its number, a call for the routine applied to the values of
    its arguments in order, a parenthesis for the value inside. -/
def Atom.value {R : Type} (H : Host R) : Atom → R
  | .num ds frac => H.ofRat (num_value ds frac)
  | .const name => H.ofRat ((find_constant name).getD 0)
  | .call name args =>
    match find_function H name with
    | some (_, func) => func (args.values H)
    | none => H.ofRat 0
  | .paren e => e.value H
/-- The values of the arguments, in order. -/
def Args.values {R : Type} (H : Host R) : Args → List R
  | .last e => [e.value H]
  | .more e rest => e.value H :: rest.values H
/-- The value of a signed atom: each `-` negates. -/
def Unary.value {R : Type} (H : Host R) : Unary → R
  | .neg u => H.neg (u.value H)
  | .pos u => u.value H
  | .atom a => a.value H
/-- The value of a chain of powers, grouped from the left. -/
def Power.value {R : Type} (H : Host R) : Power → R
  | .unary u => u.value H
  | .pow p _ u => H.pow (p.value H) (u.value H)
/-- The value of a chain of products and quotients, grouped from the left. -/
def Term.value {R : Type} (H : Host R) : Term → R
  | .power p => p.value H
  | .mul t p => H.mul (t.value H) (p.value H)
  | .div t p => H.div (t.value H) (p.value H)
/-- The value of a chain of sums and differences, grouped from the left. -/
def Expr.value {R : Type} (H : Host R) : Expr → R
  | .term t => t.value H
  | .add e t => H.add (e.value H) (t.value H)
  | .sub e t => H.sub (e.value H) (t.value H)
end

mutual
/-- The atom contains no call. -/
def Atom.callfree : Atom → Prop
  | .num _ _ => True
  | .const _ => True
  | .call _ _ => False
  | .paren e => e.callfree
/-- The signed atom contains no call. -/
def Unary.callfree : Unary → Prop
  | .neg u => u.callfree
  | .pos u => u.callfree
  | .atom a => a.callfree
/-- The chain of powers contains no call. -/
def Power.callfree : Power → Prop
  | .unary u => u.callfree
  | .pow p _ u => p.callfree ∧ u.callfree
/-- The chain of products contains no call. -/
def Term.callfree : Term → Prop
  | .power p => p.callfree
  | .mul t p => t.callfree ∧ p.callfree
  | .div t p => t.callfree ∧ p.callfree
/-- The chain of sums contains no call. -/
def Expr.callfree : Expr → Prop
  | .term t => t.callfree
  | .add e t => e.callfree ∧ t.callfree
  | .sub e t => e.callfree ∧ t.callfree
end

mutual
/-- The atom is built from number literals, the binary operators `+ - * /`
    and parentheses only. -/
def Atom.arith : Atom → Prop
  | .num _ _ => True
  | .const _ => False
  | .call _ _ => False
  | .paren e => e.arith
/-- No sign, and an atom of that sort. -/
def Unary.arith : Unary → Prop
  | .neg _ => False
  | .pos _ => False
  | .atom a => a.arith
/-- No power, and an operand of that sort. -/
def Power.arith : Power → Prop
  | .unary u => u.arith
  | .pow _ _ _ => False
/-- Products and quotients of operands of that sort. -/
def Term.arith : Term → Prop
  | .power p => p.arith
  | .mul t p => t.arith ∧ p.arith
  | .div t p => t.arith ∧ p.arith
/-- Sums and differences of operands of that sort. -/
def Expr.arith : Expr → Prop
  | .term t => t.arith
  | .add e t => e.arith ∧ t.arith
  | .sub e t => e.arith ∧ t.arith
end

mutual
/-- The number of calls in an atom. -/
def Atom.ncalls : Atom → Nat
  | .num _ _ => 0
  | .const _ => 0
  | .call _ args => args.ncalls + 1
  | .paren e => e.ncalls
/-- The number of calls in an argument list. -/
def Args.ncalls : Args → Nat
  | .last e => e.ncalls
  | .more e rest => e.ncalls + rest.ncalls
/-- The number of calls in a signed atom. -/
def Unary.ncalls : Unary → Nat
  | .neg u => u.ncalls
  | .pos u => u.ncalls
  | .atom a => a.ncalls
/-- The number of calls in a chain of powers. -/
def Power.ncalls : Power → Nat
  | .unary u => u.ncalls
  | .pow p _ u => p.ncalls + u.ncalls
/-- The number of calls in a chain of products. -/
def Term.ncalls : Term → Nat
  | .power p => p.ncalls
  | .mul t p => t.ncalls + p.ncalls
  | .div t p => t.ncalls + p.ncalls
/-- The number of calls in a chain of sums. -/
def Expr.ncalls : Expr → Nat
  | .term t => t.ncalls
  | .add e t => e.ncalls + t.ncalls
  | .sub e t => e.ncalls + t.ncalls
end

/-! ## Definitions used in the statements and proofs -/

/-- The kind of the tokens that are one character long and carry no payload,
    the star excepted. -/
def simple_kind (c : Char) : Option TokenKind :=
  if c = '^' then some TOKEN_POW
  else if c = '+' then some TOKEN_ADD
  else if c = '-' then some TOKEN_SUB
  else if c = '/' then some TOKEN_DIV
  else if c = '(' then some TOKEN_LPARAM
  else if c = ')' then some TOKEN_RPARAM
  else if c = ',' then some TOKEN_COMMA
  else none

/-- The state that `next_token` leaves after a token of the given kind and
    payload that starts at `text` and ends before `rest`. -/
def State.lexed {R : Type} (s : State R) (kind : TokenKind) (as_ : TokenAs R)
    (text rest : List Char) : State R :=
  { s with stream := .to rest,
           token := { kind := kind, start := .to text, end_ := .to rest, as_ := as_ } }

/-- The text `k` cannot prolong a number or a name that ends just before it:
    its first character, if any, is neither a letter, a digit, `_` nor a
    point. -/
def no_ext (k : List Char) : Prop :=
  ∀ c, k.head? = some c → isname c = false ∧ c ≠ '.'

/-- The state that `next_token` leaves at the end of the text. -/
def State.at_eof {R : Type} (s : State R) : State R :=
  { s with stream := .off,
           token := { kind := TOKEN_EOF, start := .to [], end_ := .off, as_ := s.token.as_ } }

/-- Sequencing: run the continuation on the value and state of a call that
    returned; a halt is passed on. -/
def Outcome.bind {R α β : Type} (o : Outcome R α) (f : α → State R → Outcome R β) :
    Outcome R β :=
  match o with
  | .ok v s => f v s
  | .halt h s => .halt h s

/-- The function `parse_expr2` with the fuel of its loop made explicit. -/
def body2 {R : Type} (H : Host R) (pe : State R → Outcome R R) (fuel loops : Nat) (s : State R) :
    Outcome R R :=
  (parse_expr3 H pe fuel s).bind (fun val s1 => parse_expr2_loop H pe fuel loops val s1)

/-- The function `parse_expr1` with the fuel of its loop made explicit. -/
def body1 {R : Type} (H : Host R) (pe : State R → Outcome R R) (fuel loops : Nat) (s : State R) :
    Outcome R R :=
  (parse_expr2 H pe fuel s).bind (fun val s1 => parse_expr1_loop H pe fuel loops val s1)

/-- The function `parse_expr` with the fuel of its loop made explicit. -/
def body0 {R : Type} (H : Host R) (pe : State R → Outcome R R) (fuel loops : Nat) (s : State R) :
    Outcome R R :=
  (parse_expr1 H pe fuel s).bind (fun val s1 => parse_expr_loop H pe fuel loops val s1)

/-- The state in which a call ended. -/
def Outcome.state {R α : Type} : Outcome R α → State R
  | .ok _ s => s
  | .halt _ s => s

/-- The outcome `o` of a call started in `s` has left the argument buffer, the
    printed values and the count of calls as they were. -/
def Keeps {R α : Type} (s : State R) (o : Outcome R α) : Prop :=
  o.state.args = s.args ∧ o.state.stdout = s.stdout ∧ o.state.calls = s.calls

/-- The state `s2` from which the token after a parsed text `k` is requested:
    its cursor is at `k`, its current token is the last one of the parsed
    text, the buffer is `buf`, `n` routines were called and nothing was printed
    or reported since `s`. -/
structure Reaches {R : Type} (s s2 : State R) (k : List Char) (buf : List R) (n : Nat) :
    Prop where
  stream : s2.stream = .to k
  args : s2.args = buf
  calls : s2.calls = s.calls + n
  stdout : s2.stdout = s.stdout
  stderr : s2.stderr = s.stderr
  kind : s2.token.kind = TOKEN_VAL ∨ s2.token.kind = TOKEN_CONST ∨ s2.token.kind = TOKEN_RPARAM

/-- The text `k` does not go on with a token of one of the kinds `ks`: the
    token that `next_token` yields at `k`, after a value or a closing
    parenthesis, has another kind. -/
def stops {R : Type} (H : Host R) (ks : List TokenKind) (k : List Char) : Prop :=
  ∀ s s1 : State R, s.stream = .to k →
    (s.token.kind = TOKEN_VAL ∨ s.token.kind = TOKEN_CONST ∨ s.token.kind = TOKEN_RPARAM) →
    next_token H s = .ok () s1 → s1.token.kind ∉ ks

/-- The kinds of the tokens an expression can begin with. -/
def start_kinds : List TokenKind :=
  [TOKEN_VAL, TOKEN_CONST, TOKEN_FUNC, TOKEN_LPARAM, TOKEN_SUB, TOKEN_ADD]

/-- The binary operators. -/
def op_kinds : List TokenKind := [TOKEN_POW, TOKEN_MUL, TOKEN_DIV, TOKEN_ADD, TOKEN_SUB]

/-- The kinds of the tokens an atom can begin with. -/
def atom_kinds : List TokenKind := [TOKEN_VAL, TOKEN_CONST, TOKEN_FUNC, TOKEN_LPARAM]

/-- The call `f`, started on the first token of `text`, reads exactly `text`
    and goes on as `g` on the value `(ev buf).1`, leaving the buffer
    `(ev buf).2` after `n` calls of routines: for every continuation `k` of
    the text that cannot prolong its last token and does not go on with a
    token of the kinds `ks`, the first token has a kind among `st` and the
    result of `f` is the result of requesting the token at `k` and running `g`
    with the value.  Nothing is printed or reported on the way. -/
def Runs {R : Type} (H : Host R) (st : List TokenKind) (f : State R → Outcome R R)
    (g : R → State R → Outcome R R) (text : List Char) (ev : List R → R × List R) (n : Nat)
    (ks : List TokenKind) : Prop :=
  ∀ (k : List Char) (s : State R), no_ext k → stops H ks k → s.stream = .to (text ++ k) →
    ∃ s1 s2, next_token H s = .ok () s1 ∧ s1.token.kind ∈ st ∧
      Reaches s s2 k (ev s.args).2 n ∧
      f s1 = (next_token H s2).bind (fun _ s3 => g (ev s.args).1 s3)

/-- The calls of `parse_expr4` that read the arguments of a function: the loop
    over all arguments but the last, then the call for the last. -/
def parse_args_last {R : Type} (H : Host R) (pe : State R → Outcome R R) (count i : Nat)
    (s : State R) : Outcome R R :=
  (parse_args H pe count i s).bind (fun _ s1 => pe s1)

/-- The values on standard output after `parse_str` has evaluated `str` in a
    fresh process, or `none` when the call does not return. -/
def printed {R : Type} (H : Host R) (str : List Char) : Option (List R) :=
  match parse_str H str (State.init H) with
  | .ok _ s => some s.stdout
  | .halt _ _ => none

/-- The diagnostic lines after `parse_str` has evaluated `str` in a fresh
    process, and whether the call returned. -/
def reported {R : Type} (H : Host R) (str : List Char) : Bool × List String :=
  match parse_str H str (State.init H) with
  | .ok _ s => (true, s.stderr)
  | .halt _ s => (false, s.stderr)

/-- A run of unary signs as written: `-` for `true`, `+` for `false`. -/
def sign_text : List Bool → List Char
  | [] => []
  | true :: rest => '-' :: sign_text rest
  | false :: rest => '+' :: sign_text rest

/-- An atom with a run of unary signs in front. -/
def signed : List Bool → Atom → Unary
  | [], a => .atom a
  | true :: rest, a => .neg (signed rest a)
  | false :: rest, a => .pos (signed rest a)

/-- The literal with the given integer digits, as an operand. -/
def lit (ds : String) : Unary := .atom (.num ds.toList none)

/-- An operand as a chain of powers of length one. -/
def Unary.power (u : Unary) : Power := .unary u

/-- An operand as a term. -/
def Unary.term (u : Unary) : Term := .power (.unary u)

/-- An operand as an expression. -/
def Unary.expr (u : Unary) : Expr := .term (.power (.unary u))

/-- The expression `1-2-3`. -/
def ex_1m2m3 : Expr := .sub (.sub (lit "1").expr (lit "2").term) (lit "3").term

/-- The expression `8/4/2`. -/
def ex_8d4d2 : Expr := .term (.div (.div (lit "8").term (lit "4").power) (lit "2").power)

/-- The expression `1+2*3`. -/
def ex_1p2t3 : Expr := .add (lit "1").expr (.mul (lit "2").term (lit "3").power)

/-- The outcome `o` of a call started in `s` has printed nothing. -/
def KeepsOut {R α : Type} (s : State R) (o : Outcome R α) : Prop :=
  o.state.stdout = s.stdout

/-- Two outcomes of the lexer agree on what the evaluator can see of them:
    both returned, with the same token and cursor, or both halted in the same
    way. -/
def SameTok {R : Type} (o o1 : Outcome R Unit) : Prop :=
  match o, o1 with
  | .ok _ a, .ok _ b => a.token = b.token ∧ a.stream = b.stream
  | .halt h _, .halt h1 _ => h = h1
  | _, _ => False

/-- The input unit is empty: its first token is the end of the text. -/
def is_empty_unit {R : Type} (H : Host R) (str : List Char) : Bool :=
  match next_token H { State.init H with stream := .to str } with
  | .ok _ s1 => is_token s1 TOKEN_EOF
  | .halt _ _ => false

/-- Whether the call returned. -/
def Outcome.returned {R α : Type} : Outcome R α → Bool
  | .ok _ _ => true
  | .halt _ _ => false

/-- The way the call halted, if it did. -/
def Outcome.halted {R α : Type} : Outcome R α → Option Halt
  | .ok _ _ => none
  | .halt h _ => some h

/-- The value a token carries, when its union holds a value. -/
def Token.val? {R : Type} (t : Token R) : Option R :=
  match t.as_ with
  | .val v => some v
  | .func _ _ => none

/-- The call `max(1+1,sqrt(9))`. -/
def ex_max_nested : Atom :=
  .call "max".toList (.more (.add (lit "1").expr (lit "1").term)
    (.last (Unary.atom (.call "sqrt".toList (.last (lit "9").expr))).expr))

/-- The outcome with the count of calls of its state replaced. -/
def Outcome.with_calls {R α : Type} (c : Nat) : Outcome R α → Outcome R α
  | .ok v s => .ok v { s with calls := c }
  | .halt h s => .halt h { s with calls := c }

/-! ## Definitions for the claims on the lexer and on whole inputs -/

/-- The character starts no token and is not skipped as a blank: `next_token`
    reaches its `default` label on it. -/
def is_garbage (c : Char) : Bool :=
  !is_blank_case c && !isdigit c && !is_name_case c && c != '*' && c != '^' && c != '+' &&
    c != '-' && c != '/' && c != '(' && c != ')' && c != ',' && c != '\x00'

/-- What one call of `next_token` does, apart from the state it runs in: the
    lines it writes to the diagnostic stream, the text at which the token
    starts (`token.start`), the kind and payload of the token, and the cursor
    after it (also `token.end`). -/
structure Scan (R : Type) where
  warns : List String
  start : List Char
  kind : TokenKind
  as_ : TokenAs R
  rest : Ptr

/-- The arms of the `switch` of `next_token` that end at the label `end:`,
    taken at a text whose first character is neither a blank nor garbage.  The
    kind and payload before the call are those the token keeps when the arm
    does not set them. -/
def scan_arm {R : Type} (H : Host R) (text : List Char) (kind : TokenKind) (as_ : TokenAs R) :
    Scan R :=
  let c := text.headD '\x00'
  if isdigit c then
    let r1 := text.dropWhile isdigit
    let r2 := if r1.head? == some '.' then r1.tail else r1
    let r3 := r2.dropWhile isdigit
    match sscanf_Lg text with
    | some q => ⟨[], text, TOKEN_VAL, .val (H.ofRat q), .to r3⟩
    | none => ⟨[], text, TOKEN_VAL, as_, .to r3⟩
  else if is_name_case c then
    let name := text.takeWhile isname
    let rest := text.dropWhile isname
    match find_constant name with
    | some q => ⟨[], text, TOKEN_CONST, .val (H.ofRat q), .to rest⟩
    | none =>
      match find_function H name with
      | some (nargs, func) => ⟨[], text, TOKEN_FUNC, .func nargs func, .to rest⟩
      | none =>
        ⟨["WARNING: " ++ ("Unknown name \x27" ++ String.mk name ++ "\x27, skipping")], text, kind,
          as_, .to rest⟩
  else if c == '*' then
    if text.tail.head? == some '*' then ⟨[], text, TOKEN_POW, as_, .to text.tail.tail⟩
    else ⟨[], text, TOKEN_MUL, as_, .to text.tail⟩
  else if c == '^' then ⟨[], text, TOKEN_POW, as_, .to text.tail⟩
  else if c == '+' then ⟨[], text, TOKEN_ADD, as_, .to text.tail⟩
  else if c == '-' then ⟨[], text, TOKEN_SUB, as_, .to text.tail⟩
  else if c == '/' then ⟨[], text, TOKEN_DIV, as_, .to text.tail⟩
  else if c == '(' then ⟨[], text, TOKEN_LPARAM, as_, .to text.tail⟩
  else if c == ')' then ⟨[], text, TOKEN_RPARAM, as_, .to text.tail⟩
  else if c == ',' then ⟨[], text, TOKEN_COMMA, as_, .to text.tail⟩
  else
    match text with
    | [] => ⟨[], text, TOKEN_EOF, as_, .off⟩
    | _ :: rest => ⟨[], text, TOKEN_EOF, as_, .to rest⟩

/-- The call of `next_token` at `text`, apart from the state: blanks are
    skipped, each garbage character adds a warning, and the first character
    that starts a token selects the arm.  Each `goto repeat` spends one unit
    of fuel, as in `repeat_`. -/
def scan {R : Type} (H : Host R) : Nat → List Char → TokenKind → TokenAs R → Option (Scan R)
  | 0, _, _, _ => none
  | fuel + 1, text, kind, as_ =>
    if is_blank_case (text.headD '\x00') then scan H fuel (text.dropWhile isspace) kind as_
    else if is_garbage (text.headD '\x00') then
      (scan H fuel text.tail kind as_).map (fun r =>
        { r with warns := ("WARNING: " ++ ("Invalid \x27" ++ String.singleton (text.headD '\x00')
            ++ "\x27 token, skipping")) :: r.warns })
    else some (scan_arm H text kind as_)

/-- The state after a call of `next_token` that did what `r` records. -/
def State.scanned {R : Type} (s : State R) (r : Scan R) : State R :=
  { s with stream := r.rest, stderr := s.stderr ++ r.warns,
           token := { kind := r.kind, start := .to r.start, end_ := r.rest, as_ := r.as_ } }

/-- What is left to read from a cursor: the characters up to the terminator
    and the terminator itself; nothing from a cursor outside the text. -/
def Ptr.room : Ptr → Nat
  | .to text => text.length + 1
  | _ => 0

/-- Two outcomes correspond: both calls returned, with the same value, in
    states related by `Q` whose cursors have at most `m` and `m'` left to read
    after paying `cost` for the value; or both halted in the same way, in
    states related by `E`. -/
def RelOut {R α : Type} (E : Halt → State R → State R → Prop) (Q : State R → State R → Prop)
    (cost : α → Nat) (m m' : Nat) (o o' : Outcome R α) : Prop :=
  match o, o' with
  | .ok v t, .ok v' t' =>
    v = v' ∧ Q t t' ∧ t.stream.room + cost v ≤ m ∧ t'.stream.room + cost v ≤ m'
  | .halt h t, .halt h' t' => h = h' ∧ E h t t'
  | _, _ => False

/-- A relation between states that the evaluator preserves: related states
    show the same token kind and payload, `next_token` (requested while the
    token is not the end of the input) takes related states to related ones,
    and so do the stores into the argument buffer, the count of a call, a
    diagnostic line and a printed value.  The index `A` is a set of positions
    of the argument buffer; a routine of arity `n` yields the same value on
    related buffers once the positions below `n` are in `A`.  The relation `E`
    holds between the states of two runs that halt alike. -/
structure Sim {R : Type} (H : Host R) (E : Halt → State R → State R → Prop)
    (Rel : (Nat → Prop) → State R → State R → Prop) : Prop where
  mono : ∀ (A B : Nat → Prop) (s s' : State R), (∀ i, B i → A i) → Rel A s s' → Rel B s s'
  kind : ∀ (A : Nat → Prop) (s s' : State R), Rel A s s' → s.token.kind = s'.token.kind
  as_ : ∀ (A : Nat → Prop) (s s' : State R), Rel A s s' → s.token.as_ = s'.token.as_
  next : ∀ (A : Nat → Prop) (s s' : State R), Rel A s s' → s.token.kind ≠ TOKEN_EOF →
    RelOut E (Rel A) (fun _ => 1) s.stream.room s'.stream.room (next_token H s) (next_token H s')
  store : ∀ (A : Nat → Prop) (s s' : State R) (i : Nat) (v : R), Rel A s s' →
    Rel (fun j => A j ∨ j = i) { s with args := s.args.set i v }
      { s' with args := s'.args.set i v }
  call : ∀ (A B : Nat → Prop) (s s' t t' : State R) (n : Nat) (f : List R → R), Rel B t t' →
    t.token.kind = TOKEN_FUNC → t.token.as_ = .func n f → Rel A s s' → (∀ i, i < n → A i) →
    f s.args = f s'.args
  count : ∀ (A : Nat → Prop) (s s' : State R), Rel A s s' →
    Rel A { s with calls := s.calls + 1 } { s' with calls := s'.calls + 1 }
  print : ∀ (A : Nat → Prop) (s s' : State R) (v : R), Rel A s s' →
    Rel A { s with stdout := s.stdout ++ [v] } { s' with stdout := s'.stdout ++ [v] }
  fail : ∀ (A : Nat → Prop) (s s' : State R) (line : String), Rel A s s' →
    E .exit_failure { s with stderr := s.stderr ++ [line] }
      { s' with stderr := s'.stderr ++ [line] }
  junk_func : ∀ (A : Nat → Prop) (s s' : State R) (v : R), Rel A s s' →
    s.token.kind = TOKEN_FUNC → s.token.as_ = .val v → E .undefined s s'
  arity : ∀ (A : Nat → Prop) (s s' : State R) (n : Nat) (f : List R → R), Rel A s s' →
    s.token.kind = TOKEN_FUNC → s.token.as_ = .func n f →
    (0 < n ∧ n ≤ MAX_FUNC_ARGS) ∨ ∀ (B : Nat → Prop) (t t' : State R), Rel B t t' → E .undefined t t'

/-- The payload of a token, when it is a routine with its arity `n`, yields
    the same value on two buffers that hold the same `n` first entries. -/
def TokenAs.reads_own {R : Type} : TokenAs R → Prop
  | .val _ => True
  | .func n f => ∀ a b : List R, (∀ i, i < n → a[i]? = b[i]?) → f a = f b

/-- Modelled from the spec: `functions.c` is not part of the sources.  The
    spec describes an entry of the registry of functions as a name, an arity
    that is a fixed positive integer of at most 256, and a routine
    `f(args: sequence of N reals) -> real`; a table is regular when each entry
    has such an arity and its routine reads only its own arguments. -/
def Host.regular {R : Type} (H : Host R) : Prop :=
  ∀ entry ∈ H.functions_c, 0 < entry.2.1 ∧ entry.2.1 ≤ MAX_FUNC_ARGS ∧
    (TokenAs.func entry.2.1 entry.2.2).reads_own

/-- What `next_token` can leave in the token, given the kind and payload
    before the call: a registered routine under the kind `Func`, a value under
    the kind `Const`, a value or the payload as it was under the kind `Val`
    (the latter when the conversion stored nothing), kind and payload as they
    were (after an unknown name), or the payload as it was under the kind of
    an operator, a parenthesis, a comma or the end of the input. -/
def Scan.sound {R : Type} (H : Host R) (kind : TokenKind) (as_ : TokenAs R) (r : Scan R) : Prop :=
  (r.kind = TOKEN_FUNC ∧ ∃ name n f, find_function H name = some (n, f) ∧ r.as_ = .func n f) ∨
  (r.kind = TOKEN_CONST ∧ ∃ q, r.as_ = .val (H.ofRat q)) ∨
  (r.kind = TOKEN_VAL ∧ ((∃ q, r.as_ = .val (H.ofRat q)) ∨ r.as_ = as_)) ∨
  (r.kind = kind ∧ r.as_ = as_) ∨
  (r.kind ≠ TOKEN_VAL ∧ r.kind ≠ TOKEN_CONST ∧ r.kind ≠ TOKEN_FUNC ∧ r.as_ = as_)

/-- Two states that differ at most in the spans of their tokens, in the
    entries of the argument buffer outside `A`, in the count of calls, and in
    what had been written to the two output streams before (`p`, `q` in the
    one, `p'`, `q'` in the other). -/
structure Alike {R : Type} (p p' : List R) (q q' : List String) (A : Nat → Prop)
    (s s' : State R) : Prop where
  kind : s.token.kind = s'.token.kind
  as_ : s.token.as_ = s'.token.as_
  stream : s.stream = s'.stream
  len : s.args.length = MAX_FUNC_ARGS
  len' : s'.args.length = MAX_FUNC_ARGS
  args : ∀ i, A i → s.args[i]? = s'.args[i]?
  stdout : ∃ d, s.stdout = p ++ d ∧ s'.stdout = p' ++ d
  stderr : ∃ e, s.stderr = q ++ e ∧ s'.stderr = q' ++ e
  own : s.token.as_.reads_own

/-- The run from `s` to `t` and the run from `s'` to `t'` appended the same
    values to standard output and the same lines to the diagnostic stream. -/
def SameOutput {R : Type} (s t s' t' : State R) : Prop :=
  (∃ d, t.stdout = s.stdout ++ d ∧ t'.stdout = s'.stdout ++ d) ∧
  (∃ e, t.stderr = s.stderr ++ e ∧ t'.stderr = s'.stderr ++ e)

/-- Two calls, started in the states `s` and `s'`, did the same: both returned
    or both halted in the same way, with the same output. -/
def SameRun {R : Type} (s s' : State R) (o o' : Outcome R Unit) : Prop :=
  match o, o' with
  | .ok _ t, .ok _ t' => SameOutput s t s' t'
  | .halt h t, .halt h' t' => h = h' ∧ SameOutput s t s' t'
  | _, _ => False

/-- Two states with the same token kind and payload, the same argument
    buffer, cursors at texts related by `C` (as long as the token is not the
    end of the input), and the same output since `p`, `q` in the one and
    `p'`, `q'` in the other. -/
structure Twin {R : Type} (C : List Char → List Char → Prop) (p p' : List R)
    (q q' : List String) (s s' : State R) : Prop where
  kind : s.token.kind = s'.token.kind
  as_ : s.token.as_ = s'.token.as_
  args : s.args = s'.args
  stdout : ∃ d, s.stdout = p ++ d ∧ s'.stdout = p' ++ d
  stderr : ∃ e, s.stderr = q ++ e ∧ s'.stderr = q' ++ e
  cursor : s.token.kind ≠ TOKEN_EOF → ∃ t t', s.stream = .to t ∧ s'.stream = .to t' ∧ C t t'

/-- The output of two states since `p`, `q` in the one and `p'`, `q'` in the
    other is the same. -/
def TwinOut {R : Type} (p p' : List R) (q q' : List String) (s s' : State R) : Prop :=
  (∃ d, s.stdout = p ++ d ∧ s'.stdout = p' ++ d) ∧ (∃ e, s.stderr = q ++ e ∧ s'.stderr = q' ++ e)

/-- The lexer respects the relation `C` between texts: at related texts it
    writes the same warnings and makes tokens of the same kind and payload,
    and unless that token is the end of the input it leaves the cursors at
    related texts. -/
def LexCompat {R : Type} (H : Host R) (C : List Char → List Char → Prop) : Prop :=
  ∀ (t t' : List Char) (kind : TokenKind) (as_ : TokenAs R) (r : Scan R), C t t' →
    scan H (t.length + 1) t kind as_ = some r →
    ∃ r', scan H (t'.length + 1) t' kind as_ = some r' ∧ r'.kind = r.kind ∧ r'.as_ = r.as_ ∧
      r'.warns = r.warns ∧
      (r.kind ≠ TOKEN_EOF → ∃ u u', r.rest = .to u ∧ r'.rest = .to u' ∧ C u u')

/-- The text is the content of a C string: no terminator occurs in it. -/
def nul_free (text : List Char) : Prop := ∀ c ∈ text, c ≠ '\x00'

/-- The cursor is in the text as long as the token is not the end of the
    input and just past the terminator once it is, and a token of the kind
    `Func` carries a routine with an arity between 1 and `MAX_FUNC_ARGS`. -/
structure Sane {R : Type} (s : State R) : Prop where
  cursor : s.token.kind ≠ TOKEN_EOF → ∃ t, s.stream = .to t ∧ nul_free t
  eof : s.token.kind = TOKEN_EOF → s.stream = .off
  func : s.token.kind = TOKEN_FUNC →
    ∃ n f, s.token.as_ = .func n f ∧ 0 < n ∧ n ≤ MAX_FUNC_ARGS

/-- The call did not end by reading through a cursor outside the text, nor
    in any other undefined operation, nor for want of fuel: it returned, or it
    exited with failure. -/
def Outcome.in_text {R α : Type} (o : Outcome R α) : Prop :=
  match o with
  | .ok _ _ => True
  | .halt h _ => h = .exit_failure

/-- The text with every operator `**` written `^`: the stars of a run are
    paired from the left, as `next_token` pairs them. -/
def caret : List Char → List Char
  | [] => []
  | [c] => [c]
  | c :: d :: rest => if c = '*' ∧ d = '*' then '^' :: caret rest else c :: caret (d :: rest)

/-- A cursor into the respelled text. -/
def Ptr.caret : Ptr → Ptr
  | .to text => .to (Culator.caret text)
  | p => p

/-- What `next_token` does at the respelled text, given what it does at the
    text. -/
def Scan.caret {R : Type} (r : Scan R) : Scan R :=
  { r with start := Culator.caret r.start, rest := r.rest.caret }

/-- Reading the stars in pairs from the left, as `next_token` does, the text
    ends in a star without a partner. -/
def lone_star : List Char → Bool
  | [] => false
  | [c] => c == '*'
  | c :: d :: rest => if c == '*' && d == '*' then lone_star rest else lone_star (d :: rest)

/-- The kinds of the tokens that successive calls of `next_token` leave in
    the state, up to the first `TOKEN_EOF`, which is the last entry. -/
def token_kinds {R : Type} (H : Host R) : Nat → State R → List TokenKind
  | 0, _ => []
  | fuel + 1, s =>
    match next_token H s with
    | .ok _ t => t.token.kind :: (if t.token.kind = TOKEN_EOF then [] else token_kinds H fuel t)
    | .halt _ _ => []

/-- The kinds of the tokens of a text, read from the start as `parse_str`
    starts: `token = nul; stream = str`. -/
def kinds_of {R : Type} (H : Host R) (text : List Char) : List TokenKind :=
  token_kinds H (text.length + 2) { State.init H with token := nul H, stream := .to text }

/-- What can be seen of a call from outside: how it halted, if it did, the
    values on standard output and the lines on the diagnostic stream. -/
def Outcome.seen {R α : Type} (o : Outcome R α) : Option Halt × List R × List String :=
  match o with
  | .ok _ t => (none, t.stdout, t.stderr)
  | .halt h t => (some h, t.stdout, t.stderr)

/-! ## Facts about the lexer and the sequencing of calls -/

theorem isname_of_isdigit {c : Char} (h : isdigit c = true) : isname c = true := by
  simp [isname, isalnum, h]

theorem isname_of_is_name_case {c : Char} (h : is_name_case c = true) : isname c = true := by
  simp only [is_name_case, isname, isalnum, Bool.or_eq_true] at *
  rcases h with h | h
  · exact Or.inl (Or.inl h)
  · exact Or.inr h

theorem char_toNat_of_beq {c d : Char} (h : (c == d) = true) : c.toNat = d.toNat := by
  rw [beq_iff_eq] at h; rw [h]

theorem not_blank_of_isname {c : Char} (h : isname c = true) : is_blank_case c = false := by
  cases hb : is_blank_case c with
  | false => rfl
  | true =>
    exfalso
    simp only [is_blank_case, Bool.or_eq_true, beq_iff_eq] at hb
    rcases hb with (((rfl | rfl) | rfl) | rfl) | rfl <;> revert h <;> decide

theorem not_digit_of_is_name_case {c : Char} (h : is_name_case c = true) : isdigit c = false := by
  cases hd : isdigit c with
  | false => rfl
  | true =>
    exfalso
    simp only [is_name_case, isalpha, isdigit, Bool.or_eq_true, Bool.and_eq_true,
      decide_eq_true_eq, beq_iff_eq] at h hd
    rcases h with (h | h) | h
    · omega
    · omega
    · subst h; revert hd; decide

theorem next_token_simple {R : Type} (H : Host R) {s : State R} {c : Char} {rest : List Char}
    {k : TokenKind} (hs : s.stream = .to (c :: rest)) (hk : simple_kind c = some k) :
    next_token H s = .ok () (s.lexed k s.token.as_ (c :: rest) rest) := by
  unfold simple_kind at hk
  simp only [next_token, hs, List.length_cons]
  split_ifs at hk with h1 h2 h3 h4 h5 h6 h7 <;> subst_vars <;>
    simp only [Option.some.injEq] at hk <;> subst hk <;>
    simp [repeat_, is_blank_case, isdigit, is_name_case, isalpha, token_end, State.lexed]

theorem takeWhile_append_stop (p : Char → Bool) (l k : List Char) (hl : ∀ c ∈ l, p c = true)
    (hk : ∀ c, k.head? = some c → p c = false) : (l ++ k).takeWhile p = l := by
  induction l with
  | nil =>
    cases k with
    | nil => rfl
    | cons c k => simp [List.takeWhile, hk c rfl]
  | cons a l ih =>
    rw [List.cons_append, List.takeWhile_cons, hl a (List.mem_cons_self a l), if_pos rfl,
      ih (fun c hc => hl c (List.mem_cons_of_mem a hc))]

theorem dropWhile_append_stop (p : Char → Bool) (l k : List Char) (hl : ∀ c ∈ l, p c = true)
    (hk : ∀ c, k.head? = some c → p c = false) : (l ++ k).dropWhile p = k := by
  induction l with
  | nil =>
    cases k with
    | nil => rfl
    | cons c k => simp [List.dropWhile, hk c rfl]
  | cons a l ih =>
    rw [List.cons_append, List.dropWhile_cons, hl a (List.mem_cons_self a l), if_pos rfl,
      ih (fun c hc => hl c (List.mem_cons_of_mem a hc))]

theorem no_ext_digit {k : List Char} (hk : no_ext k) : ∀ c, k.head? = some c → isdigit c = false := by
  intro c hc
  cases hd : isdigit c with
  | false => rfl
  | true => have := (hk c hc).1; rw [isname_of_isdigit hd] at this; cases this

theorem no_ext_point {k : List Char} (hk : no_ext k) : (k.head? == some '.') = false := by
  cases k with
  | nil => rfl
  | cons c k =>
    have := (hk c rfl).2
    simp [this]

theorem scan_exponent_stop (lower upper : Char) (k : List Char)
    (hl : isname lower = true) (hu : isname upper = true) (hk : no_ext k) :
    scan_exponent lower upper k = some 0 := by
  cases k with
  | nil => rfl
  | cons c k =>
    have hc := (hk c rfl).1
    have h1 : (c == lower) = false := by
      cases h : c == lower with
      | false => rfl
      | true => rw [beq_iff_eq] at h; subst h; rw [hl] at hc; cases hc
    have h2 : (c == upper) = false := by
      cases h : c == upper with
      | false => rfl
      | true => rw [beq_iff_eq] at h; subst h; rw [hu] at hc; cases hc
    simp [scan_exponent, h1, h2]

theorem scale_zero (m b : Nat) : scale m b 0 = (m : ℚ) := by
  simp [scale]

theorem scale_neg (m b n : Nat) : scale m b (0 - (n : Int)) = (m : ℚ) / ((b ^ n : Nat) : ℚ) := by
  cases n with
  | zero => simp [scale]
  | succ n =>
    have h : ¬ (0 : Int) ≤ 0 - ((n + 1 : Nat) : Int) := by omega
    have h2 : (-(0 - ((n + 1 : Nat) : Int))).toNat = n + 1 := by omega
    simp only [scale, h, if_false, h2]

theorem scan_decimal_num (ds : List Char) (frac : Option (List Char)) (k : List Char)
    (hds : ∀ c ∈ ds, isdigit c = true) (hfs : ∀ fs, frac = some fs → ∀ c ∈ fs, isdigit c = true)
    (hk : no_ext k) : scan_decimal (num_text ds frac ++ k) = some (num_value ds frac) := by
  cases frac with
  | none =>
    simp only [num_text, num_value, scan_decimal]
    rw [takeWhile_append_stop _ _ _ hds (no_ext_digit hk),
      dropWhile_append_stop _ _ _ hds (no_ext_digit hk)]
    simp only [no_ext_point hk, Bool.false_eq_true, if_false]
    rw [scan_exponent_stop _ _ _ (by decide) (by decide) hk]
    simp [scale_zero]
  | some fs =>
    have hp : ∀ c, ('.' :: (fs ++ k)).head? = some c → isdigit c = false := by
      intro c hc; simp at hc; subst hc; decide
    simp only [num_text, num_value, scan_decimal, List.append_assoc, List.cons_append]
    rw [takeWhile_append_stop _ _ _ hds hp, dropWhile_append_stop _ _ _ hds hp]
    simp only [List.head?_cons, beq_self_eq_true, if_true, List.tail_cons]
    rw [takeWhile_append_stop _ _ _ (hfs fs rfl) (no_ext_digit hk),
      dropWhile_append_stop _ _ _ (hfs fs rfl) (no_ext_digit hk)]
    rw [scan_exponent_stop _ _ _ (by decide) (by decide) hk]
    simp only [Option.map_some']
    rw [scale_neg]

theorem not_marker_of_isdigit {x : Char} (h : isdigit x = true) :
    (x == 'x' || x == 'X') = false := by
  cases hx : (x == 'x' || x == 'X') with
  | false => rfl
  | true =>
    exfalso
    simp only [Bool.or_eq_true, beq_iff_eq] at hx
    rcases hx with rfl | rfl <;> revert h <;> decide

theorem not_marker_of_not_isname {x : Char} (h : isname x = false) :
    (x == 'x' || x == 'X') = false := by
  cases hx : (x == 'x' || x == 'X') with
  | false => rfl
  | true =>
    exfalso
    simp only [Bool.or_eq_true, beq_iff_eq] at hx
    rcases hx with rfl | rfl <;> revert h <;> decide

theorem sscanf_Lg_num (ds : List Char) (frac : Option (List Char)) (k : List Char)
    (hne : ds ≠ []) (hds : ∀ c ∈ ds, isdigit c = true)
    (hfs : ∀ fs, frac = some fs → ∀ c ∈ fs, isdigit c = true) (hk : no_ext k) :
    sscanf_Lg (num_text ds frac ++ k) = some (num_value ds frac) := by
  rw [← scan_decimal_num ds frac k hds hfs hk]
  have key : ∀ c x rest, num_text ds frac ++ k = c :: x :: rest →
      (x == 'x' || x == 'X') = false := by
    intro c x rest h
    cases ds with
    | nil => exact absurd rfl hne
    | cons d ds =>
      cases ds with
      | cons d2 ds =>
        have : x = d2 := by cases frac <;> simp [num_text] at h <;> exact h.2.1.symm
        subst this
        exact not_marker_of_isdigit (hds _ (by simp))
      | nil =>
        cases frac with
        | some fs =>
          have : x = '.' := by simp [num_text] at h; exact h.2.1.symm
          subst this; decide
        | none =>
          have hx : k.head? = some x := by simp [num_text] at h; rw [h.2]; rfl
          exact not_marker_of_not_isname (hk x hx).1
  generalize htext : num_text ds frac ++ k = text at key
  match text, key with
  | [], _ => rfl
  | [_], _ => rfl
  | c :: x :: rest, key => simp [sscanf_Lg, key c x rest rfl]

theorem next_token_num {R : Type} (H : Host R) {s : State R} (ds : List Char)
    (frac : Option (List Char)) (k : List Char)
    (hs : s.stream = .to (num_text ds frac ++ k))
    (hne : ds ≠ []) (hds : ∀ c ∈ ds, isdigit c = true)
    (hfs : ∀ fs, frac = some fs → ∀ c ∈ fs, isdigit c = true) (hk : no_ext k) :
    next_token H s = .ok () (s.lexed TOKEN_VAL (.val (H.ofRat (num_value ds frac)))
      (num_text ds frac ++ k) k) := by
  have hscan := sscanf_Lg_num ds frac k hne hds hfs hk
  obtain ⟨d, ds1, rfl⟩ := List.exists_cons_of_ne_nil hne
  have hd : isdigit d = true := hds d (by simp)
  have hhead : (num_text (d :: ds1) frac ++ k).headD '\x00' = d := by
    cases frac <;> rfl
  have hdrop : ((if ((num_text (d :: ds1) frac ++ k).dropWhile isdigit).head? == some '.' then
        ((num_text (d :: ds1) frac ++ k).dropWhile isdigit).tail
      else (num_text (d :: ds1) frac ++ k).dropWhile isdigit).dropWhile isdigit) = k := by
    cases frac with
    | none =>
      simp only [num_text]
      rw [dropWhile_append_stop _ _ _ hds (no_ext_digit hk)]
      simp only [no_ext_point hk, Bool.false_eq_true, if_false]
      exact dropWhile_append_stop isdigit [] k (by simp) (no_ext_digit hk)
    | some fs =>
      have hp : ∀ c, ('.' :: (fs ++ k)).head? = some c → isdigit c = false := by
        intro c hc; simp at hc; subst hc; decide
      simp only [num_text, List.append_assoc, List.cons_append]
      rw [← List.cons_append, dropWhile_append_stop _ _ _ hds hp]
      simp only [List.head?_cons, beq_self_eq_true, if_true, List.tail_cons]
      exact dropWhile_append_stop _ _ _ (hfs fs rfl) (no_ext_digit hk)
  simp only [next_token, hs]
  generalize htext : num_text (d :: ds1) frac ++ k = text at *
  simp only [repeat_, hhead, not_blank_of_isname (isname_of_isdigit hd), hd, hscan, hdrop, if_true,
    Bool.false_eq_true, if_false, token_end, State.lexed]

theorem no_ext_name {k : List Char} (hk : no_ext k) : ∀ c, k.head? = some c → isname c = false :=
  fun c hc => (hk c hc).1

theorem next_token_const {R : Type} (H : Host R) {s : State R} (name k : List Char) (q : ℚ)
    (hs : s.stream = .to (name ++ k)) (hid : is_identifier name)
    (hq : find_constant name = some q) (hk : no_ext k) :
    next_token H s = .ok () (s.lexed TOKEN_CONST (.val (H.ofRat q)) (name ++ k) k) := by
  obtain ⟨⟨c, cs, rfl, hc⟩, hall⟩ := hid
  have htake := takeWhile_append_stop isname (c :: cs) k hall (no_ext_name hk)
  have hdrop := dropWhile_append_stop isname (c :: cs) k hall (no_ext_name hk)
  have hhead : (c :: cs ++ k).headD '\x00' = c := rfl
  simp only [next_token, hs]
  generalize c :: cs ++ k = text at *
  simp only [repeat_, hhead, not_blank_of_isname (isname_of_is_name_case hc),
    not_digit_of_is_name_case hc, hc, htake, hdrop, hq, if_true, Bool.false_eq_true, if_false,
    token_end, State.lexed]

theorem next_token_func {R : Type} (H : Host R) {s : State R} (name k : List Char) (nargs : Nat)
    (func : List R → R) (hs : s.stream = .to (name ++ k)) (hid : is_identifier name)
    (hq : find_constant name = none) (hf : find_function H name = some (nargs, func))
    (hk : no_ext k) :
    next_token H s = .ok () (s.lexed TOKEN_FUNC (.func nargs func) (name ++ k) k) := by
  obtain ⟨⟨c, cs, rfl, hc⟩, hall⟩ := hid
  have htake := takeWhile_append_stop isname (c :: cs) k hall (no_ext_name hk)
  have hdrop := dropWhile_append_stop isname (c :: cs) k hall (no_ext_name hk)
  have hhead : (c :: cs ++ k).headD '\x00' = c := rfl
  simp only [next_token, hs]
  generalize c :: cs ++ k = text at *
  simp only [repeat_, hhead, not_blank_of_isname (isname_of_is_name_case hc),
    not_digit_of_is_name_case hc, hc, htake, hdrop, hq, hf, if_true, Bool.false_eq_true, if_false,
    token_end, State.lexed]

theorem next_token_star {R : Type} (H : Host R) {s : State R} (rest : List Char)
    (hs : s.stream = .to ('*' :: rest)) (hr : rest.head? ≠ some '*') :
    next_token H s = .ok () (s.lexed TOKEN_MUL s.token.as_ ('*' :: rest) rest) := by
  simp only [next_token, hs, List.length_cons]
  simp [repeat_, is_blank_case, isdigit, is_name_case, isalpha, token_end, State.lexed, hr]

theorem next_token_stars {R : Type} (H : Host R) {s : State R} (rest : List Char)
    (hs : s.stream = .to ('*' :: '*' :: rest)) :
    next_token H s = .ok () (s.lexed TOKEN_POW s.token.as_ ('*' :: '*' :: rest) rest) := by
  simp only [next_token, hs, List.length_cons]
  simp [repeat_, is_blank_case, isdigit, is_name_case, isalpha, token_end, State.lexed]

theorem next_token_nil {R : Type} (H : Host R) {s : State R} (hs : s.stream = .to []) :
    next_token H s = .ok () s.at_eof := by
  simp only [next_token, hs, List.length_nil]
  simp [repeat_, is_blank_case, isdigit, is_name_case, isalpha, token_end, State.at_eof]

theorem bind_ok {R α β : Type} (v : α) (s : State R) (f : α → State R → Outcome R β) :
    (Outcome.ok v s).bind f = f v s := rfl

theorem bind_halt {R α β : Type} (h : Halt) (s : State R) (f : α → State R → Outcome R β) :
    (Outcome.halt h s : Outcome R α).bind f = .halt h s := rfl

theorem bind_bind {R α β γ : Type} (o : Outcome R α) (f : α → State R → Outcome R β)
    (g : β → State R → Outcome R γ) :
    (o.bind f).bind g = o.bind (fun v s => (f v s).bind g) := by
  cases o <;> rfl

theorem bind_pure {R α : Type} (o : Outcome R α) : o.bind (fun v s => .ok v s) = o := by
  cases o <;> rfl

theorem take_val_eq {R : Type} (H : Host R) (s : State R) (v : R)
    (h : s.token.as_ = .val v) :
    take_val H s = (next_token H s).bind (fun _ s1 => .ok v s1) := by
  unfold take_val
  rw [h]
  cases next_token H s <;> rfl

theorem match_token_true {R : Type} (H : Host R) (k : TokenKind) (s : State R)
    (h : s.token.kind = k) :
    match_token H k s = (next_token H s).bind (fun _ s1 => .ok true s1) := by
  unfold match_token is_token
  simp only [h, beq_self_eq_true, if_true]
  cases next_token H s <;> rfl

theorem match_token_false {R : Type} (H : Host R) (k : TokenKind) (s : State R)
    (h : s.token.kind ≠ k) : match_token H k s = .ok false s := by
  unfold match_token is_token
  simp [h]

theorem expect_token_true {R : Type} (H : Host R) (k : TokenKind) (s : State R)
    (h : s.token.kind = k) : expect_token H k s = next_token H s := by
  unfold expect_token is_token
  simp [h]

theorem expect_token_false {R : Type} (H : Host R) (k : TokenKind) (s : State R)
    (h : s.token.kind ≠ k) :
    expect_token H k s = error ("Expected token \x27" ++ tokenToNames k ++ "\x27, got \x27"
              ++ tokenToNames s.token.kind ++ "\x27") s := by
  unfold expect_token is_token
  simp [h]

theorem parse_expr2_eq {R : Type} (H : Host R) (pe : State R → Outcome R R) (fuel : Nat)
    (s : State R) : parse_expr2 H pe fuel s = body2 H pe fuel fuel s := by
  unfold parse_expr2 body2
  cases parse_expr3 H pe fuel s <;> rfl

theorem parse_expr1_eq {R : Type} (H : Host R) (pe : State R → Outcome R R) (fuel : Nat)
    (s : State R) : parse_expr1 H pe fuel s = body1 H pe fuel fuel s := by
  unfold parse_expr1 body1
  cases parse_expr2 H pe fuel s <;> rfl

theorem parse_expr_succ {R : Type} (H : Host R) (fuel : Nat) (s : State R) :
    parse_expr H (fuel + 1) s = body0 H (parse_expr H fuel) (fuel + 1) (fuel + 1) s := by
  rw [parse_expr]
  unfold body0
  cases parse_expr1 H (parse_expr H fuel) (fuel + 1) s <;> rfl

theorem parse_expr2_loop_stop {R : Type} (H : Host R) (pe : State R → Outcome R R)
    (fuel loops : Nat) (val : R) (s : State R) (h : s.token.kind ≠ TOKEN_POW) :
    parse_expr2_loop H pe fuel (loops + 1) val s = .ok val s := by
  simp [parse_expr2_loop, is_token, h]

theorem parse_expr2_loop_step {R : Type} (H : Host R) (pe : State R → Outcome R R)
    (fuel loops : Nat) (val : R) (s : State R) (h : s.token.kind = TOKEN_POW) :
    parse_expr2_loop H pe fuel (loops + 1) val s =
      (next_token H s).bind (fun _ s1 => (parse_expr3 H pe fuel s1).bind
        (fun v s2 => parse_expr2_loop H pe fuel loops (H.pow val v) s2)) := by
  simp only [parse_expr2_loop, is_token, h, beq_self_eq_true, if_true]
  cases next_token H s with
  | halt h s1 => rfl
  | ok u s1 =>
    simp only [bind_ok]
    cases parse_expr3 H pe fuel s1 <;> rfl

theorem parse_expr1_loop_stop {R : Type} (H : Host R) (pe : State R → Outcome R R)
    (fuel loops : Nat) (val : R) (s : State R)
    (h1 : s.token.kind ≠ TOKEN_MUL) (h2 : s.token.kind ≠ TOKEN_DIV) :
    parse_expr1_loop H pe fuel (loops + 1) val s = .ok val s := by
  simp [parse_expr1_loop, is_token, h1, h2]

theorem parse_expr1_loop_mul {R : Type} (H : Host R) (pe : State R → Outcome R R)
    (fuel loops : Nat) (val : R) (s : State R) (h : s.token.kind = TOKEN_MUL) :
    parse_expr1_loop H pe fuel (loops + 1) val s =
      (next_token H s).bind (fun _ s1 => (parse_expr2 H pe fuel s1).bind
        (fun v s2 => parse_expr1_loop H pe fuel loops (H.mul val v) s2)) := by
  simp only [parse_expr1_loop, is_token, h, beq_self_eq_true, Bool.true_or, if_true]
  cases next_token H s with
  | halt h s1 => rfl
  | ok u s1 =>
    simp only [bind_ok]
    cases parse_expr2 H pe fuel s1 <;> rfl

theorem parse_expr1_loop_div {R : Type} (H : Host R) (pe : State R → Outcome R R)
    (fuel loops : Nat) (val : R) (s : State R) (h : s.token.kind = TOKEN_DIV) :
    parse_expr1_loop H pe fuel (loops + 1) val s =
      (next_token H s).bind (fun _ s1 => (parse_expr2 H pe fuel s1).bind
        (fun v s2 => parse_expr1_loop H pe fuel loops (H.div val v) s2)) := by
  simp only [parse_expr1_loop, is_token, h, beq_self_eq_true, Bool.or_true, if_true]
  cases next_token H s with
  | halt h s1 => rfl
  | ok u s1 =>
    simp only [bind_ok]
    cases parse_expr2 H pe fuel s1 <;> simp <;> rfl

theorem parse_expr_loop_stop {R : Type} (H : Host R) (pe : State R → Outcome R R)
    (fuel loops : Nat) (val : R) (s : State R)
    (h1 : s.token.kind ≠ TOKEN_ADD) (h2 : s.token.kind ≠ TOKEN_SUB) :
    parse_expr_loop H pe fuel (loops + 1) val s = .ok val s := by
  simp [parse_expr_loop, is_token, h1, h2]

theorem parse_expr_loop_add {R : Type} (H : Host R) (pe : State R → Outcome R R)
    (fuel loops : Nat) (val : R) (s : State R) (h : s.token.kind = TOKEN_ADD) :
    parse_expr_loop H pe fuel (loops + 1) val s =
      (next_token H s).bind (fun _ s1 => (parse_expr1 H pe fuel s1).bind
        (fun v s2 => parse_expr_loop H pe fuel loops (H.add val v) s2)) := by
  simp only [parse_expr_loop, is_token, h, beq_self_eq_true, Bool.true_or, if_true]
  cases next_token H s with
  | halt h s1 => rfl
  | ok u s1 =>
    simp only [bind_ok]
    cases parse_expr1 H pe fuel s1 <;> rfl

theorem parse_expr_loop_sub {R : Type} (H : Host R) (pe : State R → Outcome R R)
    (fuel loops : Nat) (val : R) (s : State R) (h : s.token.kind = TOKEN_SUB) :
    parse_expr_loop H pe fuel (loops + 1) val s =
      (next_token H s).bind (fun _ s1 => (parse_expr1 H pe fuel s1).bind
        (fun v s2 => parse_expr_loop H pe fuel loops (H.sub val v) s2)) := by
  simp only [parse_expr_loop, is_token, h, beq_self_eq_true, Bool.or_true, if_true]
  cases next_token H s with
  | halt h s1 => rfl
  | ok u s1 =>
    simp only [bind_ok]
    cases parse_expr1 H pe fuel s1 <;> simp <;> rfl

theorem keeps_ite {R α : Type} {s : State R} {c : Prop} [Decidable c] {a b : Outcome R α}
    (ha : Keeps s a) (hb : Keeps s b) : Keeps s (if c then a else b) := by
  split <;> assumption

theorem repeat_frame {R : Type} (H : Host R) (n : Nat) (text : List Char) (s : State R) :
    Keeps s (repeat_ H n text s) := by
  induction n generalizing text s with
  | zero => exact ⟨rfl, rfl, rfl⟩
  | succ n ih =>
    simp only [repeat_]
    refine keeps_ite ⟨(ih _ _).1, (ih _ _).2.1, (ih _ _).2.2⟩ (keeps_ite ?_ (keeps_ite ?_
      (keeps_ite (keeps_ite ⟨rfl, rfl, rfl⟩ ⟨rfl, rfl, rfl⟩) (keeps_ite ⟨rfl, rfl, rfl⟩
      (keeps_ite ⟨rfl, rfl, rfl⟩ (keeps_ite ⟨rfl, rfl, rfl⟩ (keeps_ite ⟨rfl, rfl, rfl⟩
      (keeps_ite ⟨rfl, rfl, rfl⟩ (keeps_ite ⟨rfl, rfl, rfl⟩ (keeps_ite ⟨rfl, rfl, rfl⟩
      (keeps_ite ?_ ⟨(ih _ _).1, (ih _ _).2.1, (ih _ _).2.2⟩)))))))))))
    · split <;> exact ⟨rfl, rfl, rfl⟩
    · split
      · exact ⟨rfl, rfl, rfl⟩
      · split <;> exact ⟨rfl, rfl, rfl⟩
    · split <;> exact ⟨rfl, rfl, rfl⟩

theorem next_token_frame {R : Type} (H : Host R) (s : State R) :
    Keeps s (next_token H s) := by
  unfold next_token
  split
  · exact repeat_frame H _ _ s
  · exact ⟨rfl, rfl, rfl⟩

theorem next_token_args {R : Type} (H : Host R) {s s1 : State R}
    (h : next_token H s = .ok () s1) : s1.args = s.args := by
  have := (next_token_frame H s).1; rw [h] at this; exact this

theorem next_token_stdout {R : Type} (H : Host R) {s s1 : State R}
    (h : next_token H s = .ok () s1) : s1.stdout = s.stdout := by
  have := (next_token_frame H s).2.1; rw [h] at this; exact this

theorem next_token_calls {R : Type} (H : Host R) {s s1 : State R}
    (h : next_token H s = .ok () s1) : s1.calls = s.calls := by
  have := (next_token_frame H s).2.2; rw [h] at this; exact this

theorem with_calls_ite {R : Type} {c : Prop} [Decidable c] {n : Nat} {a b a1 b1 : Outcome R Unit}
    (ha : a1 = a.with_calls n) (hb : b1 = b.with_calls n) :
    (if c then a1 else b1) = (if c then a else b).with_calls n := by
  split
  · exact ha
  · exact hb

theorem repeat_with_calls {R : Type} (H : Host R) (c n : Nat) (text : List Char) (s : State R) :
    repeat_ H n text { s with calls := c } = (repeat_ H n text s).with_calls c := by
  induction n generalizing text s with
  | zero => rfl
  | succ n ih =>
    simp only [repeat_]
    refine with_calls_ite
      (ih _ { s with stream := .to text, token := { s.token with start := .to text } })
      (with_calls_ite ?_ (with_calls_ite ?_
      (with_calls_ite (with_calls_ite rfl rfl) (with_calls_ite rfl
      (with_calls_ite rfl (with_calls_ite rfl (with_calls_ite rfl
      (with_calls_ite rfl (with_calls_ite rfl (with_calls_ite rfl
      (with_calls_ite ?_ ?_)))))))))))
    · split <;> rfl
    · split
      · rfl
      · split <;> rfl
    · split <;> rfl
    · exact ih _ (warning _ { s with stream := .to text, token := { s.token with start := .to text } })

theorem next_token_at {R : Type} (H : Host R) (s : State R) (text : List Char)
    (hs : s.stream = .to text) : next_token H s = repeat_ H (text.length + 1) text s := by
  simp only [next_token, hs]

theorem next_token_not_at {R : Type} (H : Host R) (s : State R)
    (hs : ∀ text, s.stream ≠ .to text) : next_token H s = .halt .undefined s := by
  unfold next_token
  split
  · exact absurd (by assumption) (hs _)
  · rfl

theorem next_token_with_calls {R : Type} (H : Host R) (c : Nat) (s : State R) :
    next_token H { s with calls := c } = (next_token H s).with_calls c := by
  have key : ∀ p, s.stream = p →
      next_token H { s with calls := c } = (next_token H s).with_calls c := by
    intro p hs
    cases p with
    | null =>
      rw [next_token_not_at H s (by simp [hs]),
        next_token_not_at H { s with calls := c } (by simp [hs])]; rfl
    | off =>
      rw [next_token_not_at H s (by simp [hs]),
        next_token_not_at H { s with calls := c } (by simp [hs])]; rfl
    | «to» text =>
      rw [next_token_at H s text hs, next_token_at H { s with calls := c } text hs]
      exact repeat_with_calls H c _ _ s
  exact key _ rfl

theorem isspace_of_is_blank_case {c : Char} (h : is_blank_case c = true) : isspace c = true := by
  simp only [is_blank_case, isspace, Bool.or_eq_true] at h ⊢
  tauto

theorem returns_ite {R : Type} {c : Prop} [Decidable c] {a b : Outcome R Unit}
    (ha : c → ∃ s1, a = .ok () s1) (hb : ¬ c → ∃ s1, b = .ok () s1) :
    ∃ s1, (if c then a else b) = .ok () s1 := by
  split
  · exact ha (by assumption)
  · exact hb (by assumption)

theorem dropWhile_length_lt (text : List Char) (h : is_blank_case (text.headD '\x00') = true) :
    (text.dropWhile isspace).length < text.length := by
  cases text with
  | nil => exact absurd h (by decide)
  | cons c rest =>
    have hc : isspace c = true := isspace_of_is_blank_case h
    rw [List.dropWhile_cons_of_pos hc]
    exact Nat.lt_succ_of_le (List.Sublist.length_le (List.dropWhile_sublist _))

theorem repeat_returns {R : Type} (H : Host R) (n : Nat) (text : List Char) (s : State R)
    (h : text.length < n) : ∃ s1, repeat_ H n text s = .ok () s1 := by
  induction n generalizing text s with
  | zero => omega
  | succ n ih =>
    simp only [repeat_]
    refine returns_ite (fun hc => ih _ _ (by have := dropWhile_length_lt text hc; omega))
      (fun _ => returns_ite (fun _ => ?_) (fun _ => returns_ite (fun _ => ?_) (fun _ =>
      returns_ite (fun _ => returns_ite (fun _ => ⟨_, rfl⟩) (fun _ => ⟨_, rfl⟩)) (fun _ =>
      returns_ite (fun _ => ⟨_, rfl⟩) (fun _ => returns_ite (fun _ => ⟨_, rfl⟩) (fun _ =>
      returns_ite (fun _ => ⟨_, rfl⟩) (fun _ => returns_ite (fun _ => ⟨_, rfl⟩) (fun _ =>
      returns_ite (fun _ => ⟨_, rfl⟩) (fun _ => returns_ite (fun _ => ⟨_, rfl⟩) (fun _ =>
      returns_ite (fun _ => ⟨_, rfl⟩) (fun _ => returns_ite (fun _ => ?_) (fun hz => ?_))))))))))))
    · split <;> exact ⟨_, rfl⟩
    · split
      · exact ⟨_, rfl⟩
      · split <;> exact ⟨_, rfl⟩
    · split <;> exact ⟨_, rfl⟩
    · refine ih _ _ ?_
      cases text with
      | nil => exact absurd rfl hz
      | cons c rest => simpa using h

theorem next_token_returns {R : Type} (H : Host R) (s : State R) (text : List Char)
    (hs : s.stream = .to text) : ∃ s1, next_token H s = .ok () s1 := by
  rw [next_token_at H s text hs]
  exact repeat_returns H _ _ _ (Nat.lt_succ_self _)

theorem bind_next_token_call {R : Type} (H : Host R) (s : State R) (g : List R → R)
    (text : List Char) (hs : s.stream = .to text) :
    (next_token H s).bind (fun _ s1 => .ok (g s1.args) { s1 with calls := s1.calls + 1 }) =
      (next_token H { s with calls := s.calls + 1 }).bind (fun _ s1 => .ok (g s.args) s1) := by
  rw [next_token_with_calls H (s.calls + 1) s]
  obtain ⟨s1, h⟩ := next_token_returns H s text hs
  have h1 := next_token_args H h
  have h2 := next_token_calls H h
  rw [h]
  simp only [bind_ok, Outcome.with_calls, h1, h2]

theorem stops_nil {R : Type} (H : Host R) (k : List Char) : stops H [] k := by
  intro s s1 _ _ _ h; cases h

theorem stops_mono {R : Type} (H : Host R) {ks ks1 : List TokenKind} {k : List Char}
    (h : stops H ks k) (hsub : ∀ x ∈ ks1, x ∈ ks) : stops H ks1 k :=
  fun s s1 hs hkind hn hin => h s s1 hs hkind hn (hsub _ hin)

theorem no_ext_cons {c : Char} (k : List Char) (h1 : isname c = false) (h2 : c ≠ '.') :
    no_ext (c :: k) := by
  intro d hd
  simp only [List.head?_cons, Option.some.injEq] at hd
  subst hd
  exact ⟨h1, h2⟩

theorem runs_num {R : Type} (H : Host R) (pe : State R → Outcome R R) (ds : List Char)
    (frac : Option (List Char)) (hwf : (Atom.num ds frac).wf H) :
    Runs H atom_kinds (parse_expr4 H pe) (fun v s => .ok v s) (Atom.num ds frac).text
      ((Atom.num ds frac).eval H) (Atom.num ds frac).ncalls [] := by
  intro k s hk _ hs
  simp only [Atom.wf] at hwf
  obtain ⟨hne, hds, hfs⟩ := hwf
  simp only [Atom.text] at hs
  have hlex := next_token_num H ds frac k hs hne hds hfs hk
  refine ⟨_, s.lexed TOKEN_VAL (.val (H.ofRat (num_value ds frac))) (num_text ds frac ++ k) k,
    hlex, by simp [State.lexed, atom_kinds], ⟨rfl, rfl, rfl, rfl, rfl, Or.inl rfl⟩, ?_⟩
  simp only [Atom.eval]
  rw [← take_val_eq H _ _ rfl]
  simp [parse_expr4, is_token, State.lexed]

theorem runs_const {R : Type} (H : Host R) (pe : State R → Outcome R R) (name : List Char)
    (hwf : (Atom.const name).wf H) :
    Runs H atom_kinds (parse_expr4 H pe) (fun v s => .ok v s) (Atom.const name).text
      ((Atom.const name).eval H) (Atom.const name).ncalls [] := by
  intro k s hk _ hs
  simp only [Atom.wf] at hwf
  obtain ⟨hid, q, hq⟩ := hwf
  simp only [Atom.text] at hs
  have hlex := next_token_const H name k q hs hid hq hk
  refine ⟨_, s.lexed TOKEN_CONST (.val (H.ofRat q)) (name ++ k) k,
    hlex, by simp [State.lexed, atom_kinds], ⟨rfl, rfl, rfl, rfl, rfl, Or.inr (Or.inl rfl)⟩, ?_⟩
  simp only [Atom.eval, hq, Option.getD_some]
  rw [← take_val_eq H _ _ rfl]
  simp [parse_expr4, is_token, State.lexed]

theorem parse_expr4_paren {R : Type} (H : Host R) (pe : State R → Outcome R R) (s : State R)
    (h : s.token.kind = TOKEN_LPARAM) :
    parse_expr4 H pe s = (next_token H s).bind (fun _ s1 => (pe s1).bind
      (fun v s2 => (expect_token H TOKEN_RPARAM s2).bind (fun _ s3 => .ok v s3))) := by
  simp only [parse_expr4, is_token, h, match_token, beq_self_eq_true, if_true]
  simp only [show (TOKEN_LPARAM == TOKEN_VAL) = false from rfl,
    show (TOKEN_LPARAM == TOKEN_CONST) = false from rfl,
    show (TOKEN_LPARAM == TOKEN_FUNC) = false from rfl, Bool.false_eq_true, if_false]
  cases next_token H s with
  | halt h s1 => rfl
  | ok u s1 =>
    simp only [bind_ok]
    cases pe s1 with
    | halt h s2 => rfl
    | ok v s2 =>
      simp only [bind_ok]
      cases expect_token H TOKEN_RPARAM s2 <;> rfl

theorem parse_expr4_func {R : Type} (H : Host R) (pe : State R → Outcome R R) (s : State R)
    (nargs : Nat) (func : List R → R)
    (h : s.token.kind = TOKEN_FUNC) (ha : s.token.as_ = .func nargs func) :
    parse_expr4 H pe s = (next_token H s).bind (fun _ s1 =>
      (expect_token H TOKEN_LPARAM s1).bind (fun _ s2 =>
        (parse_args_last H pe (nargs - 1) 0 s2).bind (fun v s4 =>
          if 0 < nargs ∧ nargs ≤ MAX_FUNC_ARGS then
            (expect_token H TOKEN_RPARAM { s4 with args := s4.args.set (nargs - 1) v }).bind
              (fun _ s5 => .ok (func s5.args) { s5 with calls := s5.calls + 1 })
          else .halt .undefined s4))) := by
  simp only [parse_expr4, is_token, h, ha, beq_self_eq_true, if_true]
  simp only [show (TOKEN_FUNC == TOKEN_VAL) = false from rfl,
    show (TOKEN_FUNC == TOKEN_CONST) = false from rfl, Bool.false_eq_true, if_false]
  cases next_token H s with
  | halt h s1 => rfl
  | ok u s1 =>
    simp only [bind_ok]
    cases expect_token H TOKEN_LPARAM s1 with
    | halt h s2 => rfl
    | ok u2 s2 =>
      simp only [bind_ok, parse_args_last]
      cases parse_args H pe (nargs - 1) 0 s2 with
      | halt h s3 => rfl
      | ok u3 s3 =>
        simp only [bind_ok]
        cases pe s3 with
        | halt h s4 => rfl
        | ok v s4 =>
          simp only [bind_ok]
          split
          · cases expect_token H TOKEN_RPARAM { s4 with args := s4.args.set (nargs - 1) v } <;> rfl
          · rfl

theorem parse_expr4_other {R : Type} (H : Host R) (pe : State R → Outcome R R) (s : State R)
    (h1 : s.token.kind ≠ TOKEN_VAL) (h2 : s.token.kind ≠ TOKEN_CONST)
    (h3 : s.token.kind ≠ TOKEN_FUNC) (h4 : s.token.kind ≠ TOKEN_LPARAM) :
    parse_expr4 H pe s = error "Unexpected token" s := by
  simp [parse_expr4, is_token, h1, h2, h3, h4, match_token]

theorem parse_args_zero {R : Type} (H : Host R) (pe : State R → Outcome R R) (i : Nat)
    (s : State R) : parse_args_last H pe 0 i s = pe s := rfl

theorem parse_args_succ {R : Type} (H : Host R) (pe : State R → Outcome R R) (count i : Nat)
    (s : State R) (hi : i < MAX_FUNC_ARGS) :
    parse_args_last H pe (count + 1) i s = (pe s).bind (fun v s1 =>
      (expect_token H TOKEN_COMMA { s1 with args := s1.args.set i v }).bind
        (fun _ s2 => parse_args_last H pe count (i + 1) s2)) := by
  simp only [parse_args_last, parse_args, hi, if_true]
  cases pe s with
  | halt h s1 => rfl
  | ok v s1 =>
    simp only [bind_ok]
    cases expect_token H TOKEN_COMMA { s1 with args := s1.args.set i v } <;> rfl

theorem parse_expr3_sub {R : Type} (H : Host R) (pe : State R → Outcome R R) (fuel : Nat)
    (s : State R) (h : s.token.kind = TOKEN_SUB) :
    parse_expr3 H pe (fuel + 1) s = (next_token H s).bind (fun _ s1 =>
      (parse_expr3 H pe fuel s1).bind (fun v s2 => .ok (H.neg v) s2)) := by
  simp only [parse_expr3, match_token, is_token, h, beq_self_eq_true, if_true]
  cases next_token H s with
  | halt h s1 => rfl
  | ok u s1 =>
    simp only [bind_ok]
    cases parse_expr3 H pe fuel s1 <;> rfl

theorem parse_expr3_add {R : Type} (H : Host R) (pe : State R → Outcome R R) (fuel : Nat)
    (s : State R) (h : s.token.kind = TOKEN_ADD) :
    parse_expr3 H pe (fuel + 1) s = (next_token H s).bind (fun _ s1 =>
      parse_expr3 H pe fuel s1) := by
  simp only [parse_expr3, match_token, is_token, h, beq_self_eq_true, if_true,
    show (TOKEN_ADD == TOKEN_SUB) = false from rfl, Bool.false_eq_true, if_false]
  cases next_token H s <;> rfl

theorem parse_expr3_atom {R : Type} (H : Host R) (pe : State R → Outcome R R) (fuel : Nat)
    (s : State R) (h1 : s.token.kind ≠ TOKEN_SUB) (h2 : s.token.kind ≠ TOKEN_ADD) :
    parse_expr3 H pe (fuel + 1) s = parse_expr4 H pe s := by
  simp [parse_expr3, match_token, is_token, h1, h2]

theorem stops_simple {R : Type} (H : Host R) {c : Char} (kind : TokenKind) (k : List Char)
    (ks : List TokenKind) (hc : simple_kind c = some kind) (hk : kind ∉ ks) :
    stops H ks (c :: k) := by
  intro s s1 hs _ hn
  rw [next_token_simple H hs hc] at hn
  cases hn
  exact hk

theorem stops_eof {R : Type} (H : Host R) (ks : List TokenKind) (hk : TOKEN_EOF ∉ ks) :
    stops H ks [] := by
  intro s s1 hs _ hn
  rw [next_token_nil H hs] at hn
  cases hn
  exact hk

theorem runs_paren {R : Type} (H : Host R) (pe : State R → Outcome R R) (e : Expr)
    (he : Runs H start_kinds pe (fun v s => .ok v s) e.text (e.eval H) e.ncalls op_kinds) :
    Runs H atom_kinds (parse_expr4 H pe) (fun v s => .ok v s) (Atom.paren e).text
      ((Atom.paren e).eval H) (Atom.paren e).ncalls [] := by
  intro k s hk _ hs
  have hs1 : s.stream = .to ('(' :: (e.text ++ ')' :: k)) := by
    simpa [Atom.text] using hs
  have h1 := next_token_simple H hs1 (k := TOKEN_LPARAM) (by decide)
  obtain ⟨t1, t2, hn1, -, hr, hpe⟩ := he (')' :: k)
    (s.lexed TOKEN_LPARAM s.token.as_ ('(' :: (e.text ++ ')' :: k)) (e.text ++ ')' :: k))
    (no_ext_cons k (by decide) (by decide))
    (stops_simple H TOKEN_RPARAM k op_kinds (by decide) (by decide)) rfl
  have h3 := next_token_simple H hr.stream (k := TOKEN_RPARAM) (by decide)
  refine ⟨_, t2.lexed TOKEN_RPARAM t2.token.as_ (')' :: k) k, h1, by simp [State.lexed, atom_kinds],
    ⟨rfl, hr.args, hr.calls, hr.stdout, hr.stderr, Or.inr (Or.inr rfl)⟩, ?_⟩
  rw [parse_expr4_paren H pe _ rfl, hn1, bind_ok, hpe, h3, bind_ok, bind_ok,
    expect_token_true H TOKEN_RPARAM _ rfl]
  rfl

theorem bind_next_token_args {R : Type} (H : Host R) (s : State R) (g : List R → R) :
    (next_token H s).bind (fun _ s1 => .ok (g s1.args) s1) =
      (next_token H s).bind (fun _ s1 => .ok (g s.args) s1) := by
  cases h : next_token H s with
  | halt h s1 => rfl
  | ok u s1 => simp only [bind_ok, next_token_args H h]

theorem runs_args_last {R : Type} (H : Host R) (pe : State R → Outcome R R) (e : Expr) (i : Nat)
    (he : Runs H start_kinds pe (fun v s => .ok v s) e.text (e.eval H) e.ncalls op_kinds) :
    Runs H start_kinds (parse_args_last H pe 0 i) (fun v s => .ok v s) (Args.last e).text
      ((Args.last e).run H i) (Args.last e).ncalls op_kinds := he

theorem runs_args_more {R : Type} (H : Host R) (pe : State R → Outcome R R) (e : Expr)
    (rest : Args) (count i : Nat) (hi : i < MAX_FUNC_ARGS)
    (he : Runs H start_kinds pe (fun v s => .ok v s) e.text (e.eval H) e.ncalls op_kinds)
    (hrest : Runs H start_kinds (parse_args_last H pe count (i + 1)) (fun v s => .ok v s)
      rest.text (rest.run H (i + 1)) rest.ncalls op_kinds) :
    Runs H start_kinds (parse_args_last H pe (count + 1) i) (fun v s => .ok v s)
      (Args.more e rest).text ((Args.more e rest).run H i) (Args.more e rest).ncalls op_kinds := by
  intro k s hk hst hs
  have hs1 : s.stream = .to (e.text ++ ',' :: (rest.text ++ k)) := by
    simpa [Args.text] using hs
  obtain ⟨t1, t2, hn1, hk1, hr, hpe⟩ := he (',' :: (rest.text ++ k)) s
    (no_ext_cons _ (by decide) (by decide))
    (stops_simple H TOKEN_COMMA _ op_kinds (by decide) (by decide)) hs1
  have h3 := next_token_simple H hr.stream (k := TOKEN_COMMA) (by decide)
  obtain ⟨u1, u2, hn2, -, hr2, hrun⟩ := hrest k
    { (t2.lexed TOKEN_COMMA t2.token.as_ (',' :: (rest.text ++ k)) (rest.text ++ k)) with
      args := (t2.lexed TOKEN_COMMA t2.token.as_ (',' :: (rest.text ++ k))
        (rest.text ++ k)).args.set i (e.eval H s.args).1 } hk hst rfl
  refine ⟨t1, u2, hn1, hk1, ⟨hr2.stream, ?_, ?_, hr2.stdout.trans hr.stdout,
    hr2.stderr.trans hr.stderr, hr2.kind⟩, ?_⟩
  · rw [hr2.args]
    simp only [Args.run, State.lexed, hr.args]
  · rw [hr2.calls]
    simp only [Args.ncalls, State.lexed, hr.calls]
    omega
  · rw [parse_args_succ H pe count i t1 hi, hpe, h3, bind_ok, bind_ok,
      expect_token_true H TOKEN_COMMA _ rfl, hn2, bind_ok, hrun]
    simp only [Args.run, State.lexed, hr.args]

theorem runs_call {R : Type} (H : Host R) (pe : State R → Outcome R R) (name : List Char)
    (args : Args) (hwf : (Atom.call name args).wf H)
    (hargs : Runs H start_kinds (parse_args_last H pe (args.length - 1) 0) (fun v s => .ok v s)
      args.text (args.run H 0) args.ncalls op_kinds) :
    Runs H atom_kinds (parse_expr4 H pe) (fun v s => .ok v s) (Atom.call name args).text
      ((Atom.call name args).eval H) (Atom.call name args).ncalls [] := by
  intro k s hk _ hs
  simp only [Atom.wf] at hwf
  obtain ⟨hid, hq, ⟨func, hf⟩, hmax, -⟩ := hwf
  have hpos : 0 < args.length := by cases args <;> simp [Args.length]
  have hs1 : s.stream = .to (name ++ '(' :: (args.text ++ ')' :: k)) := by
    simpa [Atom.text] using hs
  have h1 := next_token_func H name _ _ func hs1 hid hq hf (no_ext_cons _ (by decide) (by decide))
  generalize hsA : s.lexed TOKEN_FUNC (.func args.length func)
    (name ++ '(' :: (args.text ++ ')' :: k)) ('(' :: (args.text ++ ')' :: k)) = sA at h1
  have hA1 : sA.stream = .to ('(' :: (args.text ++ ')' :: k)) := by rw [← hsA]; rfl
  have hA2 : sA.token.kind = TOKEN_FUNC := by rw [← hsA]; rfl
  have hA3 : sA.token.as_ = .func args.length func := by rw [← hsA]; rfl
  have hA4 : sA.args = s.args ∧ sA.stdout = s.stdout ∧ sA.stderr = s.stderr := by
    rw [← hsA]; exact ⟨rfl, rfl, rfl⟩
  have hA5 : sA.calls = s.calls := by rw [← hsA]; rfl
  have h2 := next_token_simple H hA1 (k := TOKEN_LPARAM) (by decide)
  obtain ⟨t1, t2, hn1, -, hr, hrun⟩ := hargs (')' :: k)
    (sA.lexed TOKEN_LPARAM sA.token.as_ ('(' :: (args.text ++ ')' :: k)) (args.text ++ ')' :: k))
    (no_ext_cons k (by decide) (by decide))
    (stops_simple H TOKEN_RPARAM k op_kinds (by decide) (by decide)) rfl
  have h3 := next_token_simple H hr.stream (k := TOKEN_RPARAM) (by decide)
  have hbuf : t2.args = (args.run H 0 s.args).2 := by rw [hr.args]; simp only [State.lexed, hA4.1]
  refine ⟨sA, { (t2.lexed TOKEN_RPARAM t2.token.as_ (')' :: k) k) with
      args := t2.args.set (args.length - 1) (args.run H 0 s.args).1, calls := t2.calls + 1 },
    h1, by simp [hA2, atom_kinds], ⟨rfl, ?_, ?_, ?_, ?_, Or.inr (Or.inr rfl)⟩, ?_⟩
  · simp only [Atom.eval, hf, hbuf]
  · simp only [hr.calls, State.lexed, hA5, Atom.ncalls]
    omega
  · exact hr.stdout.trans hA4.2.1
  · exact hr.stderr.trans hA4.2.2
  · rw [parse_expr4_func H pe sA args.length func hA2 hA3, h2, bind_ok,
      expect_token_true H TOKEN_LPARAM _ rfl, hn1, bind_ok, hrun, h3, bind_ok, bind_ok,
      if_pos ⟨hpos, hmax⟩, expect_token_true H TOKEN_RPARAM _ rfl,
      bind_next_token_call H _ _ k rfl]
    simp only [Atom.eval, hf, hbuf, State.lexed, hA4.1]

theorem runs_neg {R : Type} (H : Host R) (pe : State R → Outcome R R) (fuel : Nat) (u : Unary)
    (hu : Runs H start_kinds (parse_expr3 H pe fuel) (fun v s => .ok v s) u.text (u.eval H) u.ncalls []) :
    Runs H start_kinds (parse_expr3 H pe (fuel + 1)) (fun v s => .ok v s) (Unary.neg u).text
      ((Unary.neg u).eval H) (Unary.neg u).ncalls [] := by
  intro k s hk hst hs
  have hs1 : s.stream = .to ('-' :: (u.text ++ k)) := by simpa [Unary.text] using hs
  have h1 := next_token_simple H hs1 (k := TOKEN_SUB) (by decide)
  obtain ⟨t1, t2, hn1, -, hr, hrun⟩ := hu k
    (s.lexed TOKEN_SUB s.token.as_ ('-' :: (u.text ++ k)) (u.text ++ k)) hk hst rfl
  refine ⟨_, t2, h1, by simp [State.lexed, start_kinds], ⟨hr.stream, hr.args, hr.calls, hr.stdout,
    hr.stderr, hr.kind⟩, ?_⟩
  rw [parse_expr3_sub H pe fuel _ rfl, hn1, bind_ok, hrun, bind_bind]
  rfl

theorem runs_pos {R : Type} (H : Host R) (pe : State R → Outcome R R) (fuel : Nat) (u : Unary)
    (hu : Runs H start_kinds (parse_expr3 H pe fuel) (fun v s => .ok v s) u.text (u.eval H) u.ncalls []) :
    Runs H start_kinds (parse_expr3 H pe (fuel + 1)) (fun v s => .ok v s) (Unary.pos u).text
      ((Unary.pos u).eval H) (Unary.pos u).ncalls [] := by
  intro k s hk hst hs
  have hs1 : s.stream = .to ('+' :: (u.text ++ k)) := by simpa [Unary.text] using hs
  have h1 := next_token_simple H hs1 (k := TOKEN_ADD) (by decide)
  obtain ⟨t1, t2, hn1, -, hr, hrun⟩ := hu k
    (s.lexed TOKEN_ADD s.token.as_ ('+' :: (u.text ++ k)) (u.text ++ k)) hk hst rfl
  refine ⟨_, t2, h1, by simp [State.lexed, start_kinds], ⟨hr.stream, hr.args, hr.calls, hr.stdout,
    hr.stderr, hr.kind⟩, ?_⟩
  rw [parse_expr3_add H pe fuel _ rfl, hn1, bind_ok, hrun]
  rfl

theorem runs_unary_atom {R : Type} (H : Host R) (pe : State R → Outcome R R) (fuel : Nat)
    (a : Atom)
    (ha : Runs H atom_kinds (parse_expr4 H pe) (fun v s => .ok v s) a.text (a.eval H) a.ncalls []) :
    Runs H start_kinds (parse_expr3 H pe (fuel + 1)) (fun v s => .ok v s) (Unary.atom a).text
      ((Unary.atom a).eval H) (Unary.atom a).ncalls [] := by
  intro k s hk hst hs
  obtain ⟨t1, t2, hn1, hk1, hr, hrun⟩ := ha k s hk hst hs
  have hne : t1.token.kind ≠ TOKEN_SUB ∧ t1.token.kind ≠ TOKEN_ADD := by
    simp only [atom_kinds, List.mem_cons, List.mem_singleton, List.not_mem_nil, or_false] at hk1
    rcases hk1 with h | h | h | h <;> rw [h] <;> exact ⟨by decide, by decide⟩
  refine ⟨t1, t2, hn1, ?_, hr, ?_⟩
  · simp only [atom_kinds, List.mem_cons, List.mem_singleton, List.not_mem_nil, or_false] at hk1
    simp only [start_kinds, List.mem_cons, List.mem_singleton, List.not_mem_nil, or_false]
    tauto
  · rw [parse_expr3_atom H pe fuel t1 hne.1 hne.2, hrun]
    rfl

theorem runs_power_unary {R : Type} (H : Host R) (pe : State R → Outcome R R) (fuel loops : Nat)
    (u : Unary)
    (hu : Runs H start_kinds (parse_expr3 H pe fuel) (fun v s => .ok v s) u.text (u.eval H) u.ncalls []) :
    Runs H start_kinds (body2 H pe fuel loops)
      (parse_expr2_loop H pe fuel (loops - (Power.unary u).ops)) (Power.unary u).text
      ((Power.unary u).eval H) (Power.unary u).ncalls [] := by
  intro k s hk hst hs
  obtain ⟨t1, t2, hn1, hk1, hr, hrun⟩ := hu k s hk hst hs
  refine ⟨t1, t2, hn1, hk1, hr, ?_⟩
  rw [body2, hrun, bind_bind]
  rfl

theorem runs_pow {R : Type} (H : Host R) (pe : State R → Outcome R R) (fuel loops : Nat)
    (p : Power) (stars : Bool) (u : Unary) (hL : p.ops < loops)
    (hp : Runs H start_kinds (body2 H pe fuel loops) (parse_expr2_loop H pe fuel (loops - p.ops))
      p.text (p.eval H) p.ncalls [])
    (hu : Runs H start_kinds (parse_expr3 H pe fuel) (fun v s => .ok v s) u.text (u.eval H) u.ncalls []) :
    Runs H start_kinds (body2 H pe fuel loops)
      (parse_expr2_loop H pe fuel (loops - (Power.pow p stars u).ops)) (Power.pow p stars u).text
      ((Power.pow p stars u).eval H) (Power.pow p stars u).ncalls [] := by
  intro k s hk hst hs
  have hs1 : s.stream = .to (p.text ++ ((if stars then ['*', '*'] else ['^']) ++ (u.text ++ k))) := by
    simpa [Power.text] using hs
  have hext : no_ext ((if stars then ['*', '*'] else ['^']) ++ (u.text ++ k)) := by
    cases stars
    · exact no_ext_cons _ (by decide) (by decide)
    · exact no_ext_cons _ (by decide) (by decide)
  obtain ⟨t1, t2, hn1, hk1, hr, hrun⟩ := hp _ s hext (stops_nil H _) hs1
  have h3 : ∃ t3, next_token H t2 = .ok () t3 ∧ t3.token.kind = TOKEN_POW ∧
      t3.stream = .to (u.text ++ k) ∧ t3.args = t2.args ∧ t3.stdout = t2.stdout ∧
      t3.stderr = t2.stderr := by
    cases stars
    · exact ⟨_, next_token_simple H hr.stream (k := TOKEN_POW) (by decide), rfl, rfl, rfl, rfl, rfl⟩
    · exact ⟨_, next_token_stars H _ hr.stream, rfl, rfl, rfl, rfl, rfl⟩
  obtain ⟨t3, hn3, hk3, hs3, ha3, ho3, he3⟩ := h3
  obtain ⟨u1, u2, hn4, -, hr2, hrun2⟩ := hu k t3 hk hst hs3
  obtain ⟨n, hn⟩ : ∃ n, loops - p.ops = n + 1 := ⟨loops - p.ops - 1, by omega⟩
  have hn' : loops - (Power.pow p stars u).ops = n := by simp only [Power.ops]; omega
  refine ⟨t1, u2, hn1, hk1, ⟨hr2.stream, ?_, ?_, (hr2.stdout.trans ho3).trans hr.stdout,
    (hr2.stderr.trans he3).trans hr.stderr, hr2.kind⟩, ?_⟩
  · rw [hr2.args, ha3, hr.args]; rfl
  · rw [hr2.calls, next_token_calls H hn3, hr.calls]; simp only [Power.ncalls]; omega
  · rw [hrun, hn3, bind_ok, hn, parse_expr2_loop_step H pe fuel n _ t3 hk3, hn4, bind_ok, hrun2,
      bind_bind, hn', ha3, hr.args]
    rfl

theorem runs_power_complete {R : Type} (H : Host R) (pe : State R → Outcome R R) (fuel : Nat)
    (p : Power) (hL : p.ops < fuel)
    (hp : Runs H start_kinds (body2 H pe fuel fuel) (parse_expr2_loop H pe fuel (fuel - p.ops))
      p.text (p.eval H) p.ncalls []) :
    Runs H start_kinds (parse_expr2 H pe fuel) (fun v s => .ok v s) p.text (p.eval H) p.ncalls
      [TOKEN_POW] := by
  intro k s hk hst hs
  obtain ⟨t1, t2, hn1, hk1, hr, hrun⟩ := hp k s hk (stops_nil H _) hs
  refine ⟨t1, t2, hn1, hk1, hr, ?_⟩
  rw [parse_expr2_eq, hrun]
  obtain ⟨n, hn⟩ : ∃ n, fuel - p.ops = n + 1 := ⟨fuel - p.ops - 1, by omega⟩
  cases h : next_token H t2 with
  | halt h s1 => rfl
  | ok v t3 =>
    have := hst t2 t3 hr.stream hr.kind h
    simp only [bind_ok, hn]
    exact parse_expr2_loop_stop H pe fuel n _ t3 (by simpa using this)

theorem head_ne_star {R : Type} (H : Host R) {s s1 : State R} {text : List Char}
    (hs : s.stream = .to text) (hn : next_token H s = .ok () s1)
    (hk : s1.token.kind ∈ start_kinds) : text.head? ≠ some '*' := by
  intro h
  obtain ⟨rest, rfl⟩ : ∃ rest, text = '*' :: rest := by
    cases text with
    | nil => cases h
    | cons c rest => simp only [List.head?_cons, Option.some.injEq] at h; exact ⟨rest, by rw [h]⟩
  by_cases hr : rest.head? = some '*'
  · obtain ⟨r2, rfl⟩ : ∃ r2, rest = '*' :: r2 := by
      cases rest with
      | nil => cases hr
      | cons c r2 => simp only [List.head?_cons, Option.some.injEq] at hr; exact ⟨r2, by rw [hr]⟩
    rw [next_token_stars H _ hs] at hn
    cases hn
    revert hk; simp [State.lexed, start_kinds]
  · rw [next_token_star H _ hs hr] at hn
    cases hn
    revert hk; simp [State.lexed, start_kinds]

theorem runs_term_power {R : Type} (H : Host R) (pe : State R → Outcome R R) (fuel loops : Nat)
    (p : Power)
    (hp : Runs H start_kinds (parse_expr2 H pe fuel) (fun v s => .ok v s) p.text (p.eval H) p.ncalls
      [TOKEN_POW]) :
    Runs H start_kinds (body1 H pe fuel loops)
      (parse_expr1_loop H pe fuel (loops - (Term.power p).ops)) (Term.power p).text
      ((Term.power p).eval H) (Term.power p).ncalls [TOKEN_POW] := by
  intro k s hk hst hs
  obtain ⟨t1, t2, hn1, hk1, hr, hrun⟩ := hp k s hk hst hs
  refine ⟨t1, t2, hn1, hk1, hr, ?_⟩
  rw [body1, hrun, bind_bind]
  rfl

theorem runs_mul {R : Type} (H : Host R) (pe : State R → Outcome R R) (fuel loops : Nat)
    (t : Term) (p : Power) (hL : t.ops < loops)
    (ht : Runs H start_kinds (body1 H pe fuel loops) (parse_expr1_loop H pe fuel (loops - t.ops))
      t.text (t.eval H) t.ncalls [TOKEN_POW])
    (hp : Runs H start_kinds (parse_expr2 H pe fuel) (fun v s => .ok v s) p.text (p.eval H) p.ncalls
      [TOKEN_POW]) :
    Runs H start_kinds (body1 H pe fuel loops)
      (parse_expr1_loop H pe fuel (loops - (Term.mul t p).ops)) (Term.mul t p).text
      ((Term.mul t p).eval H) (Term.mul t p).ncalls [TOKEN_POW] := by
  intro k s hk hst hs
  have hs1 : s.stream = .to (t.text ++ '*' :: (p.text ++ k)) := by simpa [Term.text] using hs
  have hstar : (p.text ++ k).head? ≠ some '*' := by
    obtain ⟨x1, -, hx, hxk, -, -⟩ := hp k { s with stream := .to (p.text ++ k) } hk hst rfl
    exact head_ne_star H rfl hx hxk
  have hst1 : stops H [TOKEN_POW] ('*' :: (p.text ++ k)) := by
    intro x x1 hx _ hxn
    rw [next_token_star H _ hx hstar] at hxn
    cases hxn
    simp [State.lexed]
  obtain ⟨t1, t2, hn1, hk1, hr, hrun⟩ := ht _ s (no_ext_cons _ (by decide) (by decide)) hst1 hs1
  have hn3 := next_token_star H _ hr.stream hstar
  obtain ⟨u1, u2, hn4, -, hr2, hrun2⟩ := hp k
    (t2.lexed TOKEN_MUL t2.token.as_ ('*' :: (p.text ++ k)) (p.text ++ k)) hk hst rfl
  obtain ⟨n, hn⟩ : ∃ n, loops - t.ops = n + 1 := ⟨loops - t.ops - 1, by omega⟩
  have hn' : loops - (Term.mul t p).ops = n := by simp only [Term.ops]; omega
  refine ⟨t1, u2, hn1, hk1, ⟨hr2.stream, ?_, ?_, hr2.stdout.trans hr.stdout,
    hr2.stderr.trans hr.stderr, hr2.kind⟩, ?_⟩
  · rw [hr2.args]; simp only [State.lexed, hr.args]; rfl
  · rw [hr2.calls]; simp only [State.lexed, hr.calls, Term.ncalls, Expr.ncalls]; omega
  · rw [hrun, hn3, bind_ok, hn, parse_expr1_loop_mul H pe fuel n _ _ rfl, hn4, bind_ok, hrun2,
      bind_bind, hn']
    simp only [State.lexed, hr.args]
    rfl

theorem runs_div {R : Type} (H : Host R) (pe : State R → Outcome R R) (fuel loops : Nat)
    (t : Term) (p : Power) (hL : t.ops < loops)
    (ht : Runs H start_kinds (body1 H pe fuel loops) (parse_expr1_loop H pe fuel (loops - t.ops))
      t.text (t.eval H) t.ncalls [TOKEN_POW])
    (hp : Runs H start_kinds (parse_expr2 H pe fuel) (fun v s => .ok v s) p.text (p.eval H) p.ncalls
      [TOKEN_POW]) :
    Runs H start_kinds (body1 H pe fuel loops)
      (parse_expr1_loop H pe fuel (loops - (Term.div t p).ops)) (Term.div t p).text
      ((Term.div t p).eval H) (Term.div t p).ncalls [TOKEN_POW] := by
  intro k s hk hst hs
  have hs1 : s.stream = .to (t.text ++ '/' :: (p.text ++ k)) := by simpa [Term.text] using hs
  obtain ⟨t1, t2, hn1, hk1, hr, hrun⟩ := ht _ s (no_ext_cons _ (by decide) (by decide))
    (stops_simple H TOKEN_DIV _ [TOKEN_POW] (by decide) (by decide)) hs1
  have hn3 := next_token_simple H hr.stream (k := TOKEN_DIV) (by decide)
  obtain ⟨u1, u2, hn4, -, hr2, hrun2⟩ := hp k
    (t2.lexed TOKEN_DIV t2.token.as_ ('/' :: (p.text ++ k)) (p.text ++ k)) hk hst rfl
  obtain ⟨n, hn⟩ : ∃ n, loops - t.ops = n + 1 := ⟨loops - t.ops - 1, by omega⟩
  have hn' : loops - (Term.div t p).ops = n := by simp only [Term.ops]; omega
  refine ⟨t1, u2, hn1, hk1, ⟨hr2.stream, ?_, ?_, hr2.stdout.trans hr.stdout,
    hr2.stderr.trans hr.stderr, hr2.kind⟩, ?_⟩
  · rw [hr2.args]; simp only [State.lexed, hr.args]; rfl
  · rw [hr2.calls]; simp only [State.lexed, hr.calls, Term.ncalls, Expr.ncalls]; omega
  · rw [hrun, hn3, bind_ok, hn, parse_expr1_loop_div H pe fuel n _ _ rfl, hn4, bind_ok, hrun2,
      bind_bind, hn']
    simp only [State.lexed, hr.args]
    rfl

theorem runs_term_complete {R : Type} (H : Host R) (pe : State R → Outcome R R) (fuel : Nat)
    (t : Term) (hL : t.ops < fuel)
    (ht : Runs H start_kinds (body1 H pe fuel fuel) (parse_expr1_loop H pe fuel (fuel - t.ops))
      t.text (t.eval H) t.ncalls [TOKEN_POW]) :
    Runs H start_kinds (parse_expr1 H pe fuel) (fun v s => .ok v s) t.text (t.eval H) t.ncalls
      [TOKEN_POW, TOKEN_MUL, TOKEN_DIV] := by
  intro k s hk hst hs
  obtain ⟨t1, t2, hn1, hk1, hr, hrun⟩ := ht k s hk (stops_mono H hst (by simp)) hs
  refine ⟨t1, t2, hn1, hk1, hr, ?_⟩
  rw [parse_expr1_eq, hrun]
  obtain ⟨n, hn⟩ : ∃ n, fuel - t.ops = n + 1 := ⟨fuel - t.ops - 1, by omega⟩
  cases h : next_token H t2 with
  | halt h s1 => rfl
  | ok v t3 =>
    have := hst t2 t3 hr.stream hr.kind h
    simp only [List.mem_cons, List.mem_singleton, List.not_mem_nil, or_false, not_or] at this
    simp only [bind_ok, hn]
    exact parse_expr1_loop_stop H pe fuel n _ t3 this.2.1 this.2.2

theorem runs_expr_term {R : Type} (H : Host R) (pe : State R → Outcome R R) (fuel loops : Nat)
    (t : Term)
    (ht : Runs H start_kinds (parse_expr1 H pe fuel) (fun v s => .ok v s) t.text (t.eval H) t.ncalls
      [TOKEN_POW, TOKEN_MUL, TOKEN_DIV]) :
    Runs H start_kinds (body0 H pe fuel loops)
      (parse_expr_loop H pe fuel (loops - (Expr.term t).ops)) (Expr.term t).text
      ((Expr.term t).eval H) (Expr.term t).ncalls [TOKEN_POW, TOKEN_MUL, TOKEN_DIV] := by
  intro k s hk hst hs
  obtain ⟨t1, t2, hn1, hk1, hr, hrun⟩ := ht k s hk hst hs
  refine ⟨t1, t2, hn1, hk1, hr, ?_⟩
  rw [body0, hrun, bind_bind]
  rfl

theorem runs_add {R : Type} (H : Host R) (pe : State R → Outcome R R) (fuel loops : Nat)
    (e : Expr) (t : Term) (hL : e.ops < loops)
    (he : Runs H start_kinds (body0 H pe fuel loops) (parse_expr_loop H pe fuel (loops - e.ops))
      e.text (e.eval H) e.ncalls [TOKEN_POW, TOKEN_MUL, TOKEN_DIV])
    (ht : Runs H start_kinds (parse_expr1 H pe fuel) (fun v s => .ok v s) t.text (t.eval H) t.ncalls
      [TOKEN_POW, TOKEN_MUL, TOKEN_DIV]) :
    Runs H start_kinds (body0 H pe fuel loops)
      (parse_expr_loop H pe fuel (loops - (Expr.add e t).ops)) (Expr.add e t).text
      ((Expr.add e t).eval H) (Expr.add e t).ncalls [TOKEN_POW, TOKEN_MUL, TOKEN_DIV] := by
  intro k s hk hst hs
  have hs1 : s.stream = .to (e.text ++ '+' :: (t.text ++ k)) := by simpa [Expr.text] using hs
  obtain ⟨t1, t2, hn1, hk1, hr, hrun⟩ := he _ s (no_ext_cons _ (by decide) (by decide))
    (stops_simple H TOKEN_ADD _ _ (by decide) (by decide)) hs1
  have hn3 := next_token_simple H hr.stream (k := TOKEN_ADD) (by decide)
  obtain ⟨u1, u2, hn4, -, hr2, hrun2⟩ := ht k
    (t2.lexed TOKEN_ADD t2.token.as_ ('+' :: (t.text ++ k)) (t.text ++ k)) hk hst rfl
  obtain ⟨n, hn⟩ : ∃ n, loops - e.ops = n + 1 := ⟨loops - e.ops - 1, by omega⟩
  have hn' : loops - (Expr.add e t).ops = n := by simp only [Expr.ops]; omega
  refine ⟨t1, u2, hn1, hk1, ⟨hr2.stream, ?_, ?_, hr2.stdout.trans hr.stdout,
    hr2.stderr.trans hr.stderr, hr2.kind⟩, ?_⟩
  · rw [hr2.args]; simp only [State.lexed, hr.args]; rfl
  · rw [hr2.calls]; simp only [State.lexed, hr.calls, Term.ncalls, Expr.ncalls]; omega
  · rw [hrun, hn3, bind_ok, hn, parse_expr_loop_add H pe fuel n _ _ rfl, hn4, bind_ok, hrun2,
      bind_bind, hn']
    simp only [State.lexed, hr.args]
    rfl

theorem runs_sub {R : Type} (H : Host R) (pe : State R → Outcome R R) (fuel loops : Nat)
    (e : Expr) (t : Term) (hL : e.ops < loops)
    (he : Runs H start_kinds (body0 H pe fuel loops) (parse_expr_loop H pe fuel (loops - e.ops))
      e.text (e.eval H) e.ncalls [TOKEN_POW, TOKEN_MUL, TOKEN_DIV])
    (ht : Runs H start_kinds (parse_expr1 H pe fuel) (fun v s => .ok v s) t.text (t.eval H) t.ncalls
      [TOKEN_POW, TOKEN_MUL, TOKEN_DIV]) :
    Runs H start_kinds (body0 H pe fuel loops)
      (parse_expr_loop H pe fuel (loops - (Expr.sub e t).ops)) (Expr.sub e t).text
      ((Expr.sub e t).eval H) (Expr.sub e t).ncalls [TOKEN_POW, TOKEN_MUL, TOKEN_DIV] := by
  intro k s hk hst hs
  have hs1 : s.stream = .to (e.text ++ '-' :: (t.text ++ k)) := by simpa [Expr.text] using hs
  obtain ⟨t1, t2, hn1, hk1, hr, hrun⟩ := he _ s (no_ext_cons _ (by decide) (by decide))
    (stops_simple H TOKEN_SUB _ _ (by decide) (by decide)) hs1
  have hn3 := next_token_simple H hr.stream (k := TOKEN_SUB) (by decide)
  obtain ⟨u1, u2, hn4, -, hr2, hrun2⟩ := ht k
    (t2.lexed TOKEN_SUB t2.token.as_ ('-' :: (t.text ++ k)) (t.text ++ k)) hk hst rfl
  obtain ⟨n, hn⟩ : ∃ n, loops - e.ops = n + 1 := ⟨loops - e.ops - 1, by omega⟩
  have hn' : loops - (Expr.sub e t).ops = n := by simp only [Expr.ops]; omega
  refine ⟨t1, u2, hn1, hk1, ⟨hr2.stream, ?_, ?_, hr2.stdout.trans hr.stdout,
    hr2.stderr.trans hr.stderr, hr2.kind⟩, ?_⟩
  · rw [hr2.args]; simp only [State.lexed, hr.args]; rfl
  · rw [hr2.calls]; simp only [State.lexed, hr.calls, Term.ncalls, Expr.ncalls]; omega
  · rw [hrun, hn3, bind_ok, hn, parse_expr_loop_sub H pe fuel n _ _ rfl, hn4, bind_ok, hrun2,
      bind_bind, hn']
    simp only [State.lexed, hr.args]
    rfl

theorem runs_expr_complete {R : Type} (H : Host R) (fuel : Nat) (e : Expr) (hL : e.ops ≤ fuel)
    (he : Runs H start_kinds (body0 H (parse_expr H fuel) (fuel + 1) (fuel + 1))
      (parse_expr_loop H (parse_expr H fuel) (fuel + 1) (fuel + 1 - e.ops))
      e.text (e.eval H) e.ncalls [TOKEN_POW, TOKEN_MUL, TOKEN_DIV]) :
    Runs H start_kinds (parse_expr H (fuel + 1)) (fun v s => .ok v s) e.text (e.eval H) e.ncalls
      op_kinds := by
  intro k s hk hst hs
  obtain ⟨t1, t2, hn1, hk1, hr, hrun⟩ := he k s hk (stops_mono H hst (by simp [op_kinds])) hs
  refine ⟨t1, t2, hn1, hk1, hr, ?_⟩
  rw [parse_expr_succ, hrun]
  obtain ⟨n, hn⟩ : ∃ n, fuel + 1 - e.ops = n + 1 := ⟨fuel - e.ops, by omega⟩
  cases h : next_token H t2 with
  | halt h s1 => rfl
  | ok v t3 =>
    have := hst t2 t3 hr.stream hr.kind h
    simp only [op_kinds, List.mem_cons, List.mem_singleton, List.not_mem_nil, or_false,
      not_or] at this
    simp only [bind_ok, hn]
    exact parse_expr_loop_stop H _ _ n _ t3 this.2.2.2.1 this.2.2.2.2

theorem power_ops_le : ∀ p : Power, p.ops ≤ p.size
  | .unary _ => by simp [Power.ops]
  | .pow p _ u => by
    have := power_ops_le p
    simp only [Power.ops, Power.size]; omega

theorem term_ops_le : ∀ t : Term, t.ops ≤ t.size
  | .power _ => by simp [Term.ops]
  | .mul t p => by
    have := term_ops_le t
    simp only [Term.ops, Term.size]; omega
  | .div t p => by
    have := term_ops_le t
    simp only [Term.ops, Term.size]; omega

theorem expr_ops_le : ∀ e : Expr, e.ops ≤ e.size
  | .term _ => by simp [Expr.ops]
  | .add e t => by
    have := expr_ops_le e
    simp only [Expr.ops, Expr.size]; omega
  | .sub e t => by
    have := expr_ops_le e
    simp only [Expr.ops, Expr.size]; omega

theorem args_length_pos : ∀ a : Args, 0 < a.length
  | .last _ => by simp [Args.length]
  | .more _ _ => by simp [Args.length]

theorem runs_parse_expr {R : Type} (H : Host R) (e : Expr) (fuel : Nat) (hsz : e.size < fuel)
    (ih : ∀ f F L, e.size ≤ f → e.size < F → e.ops ≤ L →
      Runs H start_kinds (body0 H (parse_expr H f) F L)
        (parse_expr_loop H (parse_expr H f) F (L - e.ops)) e.text (e.eval H) e.ncalls
        [TOKEN_POW, TOKEN_MUL, TOKEN_DIV]) :
    Runs H start_kinds (parse_expr H fuel) (fun v s => .ok v s) e.text (e.eval H) e.ncalls op_kinds := by
  obtain ⟨f, rfl⟩ : ∃ f, fuel = f + 1 := ⟨fuel - 1, by omega⟩
  have := expr_ops_le e
  exact runs_expr_complete H f e (by omega)
    (ih f (f + 1) (f + 1) (by omega) (by omega) (by omega))

mutual
theorem atom_runs {R : Type} (H : Host R) : ∀ (a : Atom) (fuel : Nat), a.wf H → a.size ≤ fuel →
    Runs H atom_kinds (parse_expr4 H (parse_expr H fuel)) (fun v s => .ok v s) a.text
      (a.eval H) a.ncalls []
  | .num ds frac, _, hwf, _ => runs_num H _ ds frac hwf
  | .const name, _, hwf, _ => runs_const H _ name hwf
  | .call name args, fuel, hwf, hsz =>
    runs_call H _ name args hwf
      (args_runs H args fuel 0 (by simp only [Atom.wf] at hwf; exact hwf.2.2.2.2)
        (by simp only [Atom.size] at hsz; omega)
        (by simp only [Atom.wf] at hwf; have := hwf.2.2.2.1; omega))
  | .paren e, fuel, hwf, hsz =>
    runs_paren H _ e (runs_parse_expr H e fuel (by simp only [Atom.size] at hsz; omega)
      (fun f F L h1 h2 h3 => expr_runs H e f F L (by simpa only [Atom.wf] using hwf) h1 h2 h3))
theorem args_runs {R : Type} (H : Host R) : ∀ (a : Args) (fuel i : Nat), a.wf H →
    a.size < fuel → i + a.length ≤ MAX_FUNC_ARGS →
    Runs H start_kinds (parse_args_last H (parse_expr H fuel) (a.length - 1) i)
      (fun v s => .ok v s) a.text (a.run H i) a.ncalls op_kinds
  | .last e, fuel, i, hwf, hsz, _ =>
    runs_args_last H _ e i (runs_parse_expr H e fuel (by simpa only [Args.size] using hsz)
      (fun f F L h1 h2 h3 => expr_runs H e f F L (by simpa only [Args.wf] using hwf) h1 h2 h3))
  | .more e rest, fuel, i, hwf, hsz, hi => by
    have hlen : (Args.more e rest).length - 1 = (rest.length - 1) + 1 := by
      have := args_length_pos rest
      simp only [Args.length]; omega
    rw [hlen]
    simp only [Args.wf] at hwf
    simp only [Args.size] at hsz
    simp only [Args.length] at hi
    exact runs_args_more H _ e rest _ i (by omega)
      (runs_parse_expr H e fuel (by omega)
        (fun f F L h1 h2 h3 => expr_runs H e f F L hwf.1 h1 h2 h3))
      (args_runs H rest fuel (i + 1) hwf.2 (by omega) (by omega))
theorem unary_runs {R : Type} (H : Host R) : ∀ (u : Unary) (fuel F : Nat), u.wf H →
    u.size ≤ fuel → u.size < F →
    Runs H start_kinds (parse_expr3 H (parse_expr H fuel) F) (fun v s => .ok v s) u.text
      (u.eval H) u.ncalls []
  | .neg u, fuel, F, hwf, hsz, hF => by
    obtain ⟨F1, rfl⟩ : ∃ F1, F = F1 + 1 := ⟨F - 1, by omega⟩
    simp only [Unary.size] at hsz hF
    exact runs_neg H _ F1 u (unary_runs H u fuel F1 (by simpa only [Unary.wf] using hwf)
      (by omega) (by omega))
  | .pos u, fuel, F, hwf, hsz, hF => by
    obtain ⟨F1, rfl⟩ : ∃ F1, F = F1 + 1 := ⟨F - 1, by omega⟩
    simp only [Unary.size] at hsz hF
    exact runs_pos H _ F1 u (unary_runs H u fuel F1 (by simpa only [Unary.wf] using hwf)
      (by omega) (by omega))
  | .atom a, fuel, F, hwf, hsz, hF => by
    obtain ⟨F1, rfl⟩ : ∃ F1, F = F1 + 1 := ⟨F - 1, by omega⟩
    exact runs_unary_atom H _ F1 a (atom_runs H a fuel (by simpa only [Unary.wf] using hwf)
      (by simpa only [Unary.size] using hsz))
theorem power_runs {R : Type} (H : Host R) : ∀ (p : Power) (fuel F L : Nat), p.wf H →
    p.size ≤ fuel → p.size < F → p.ops ≤ L →
    Runs H start_kinds (body2 H (parse_expr H fuel) F L)
      (parse_expr2_loop H (parse_expr H fuel) F (L - p.ops)) p.text (p.eval H) p.ncalls []
  | .unary u, fuel, F, L, hwf, hsz, hF, _ =>
    runs_power_unary H _ F L u (unary_runs H u fuel F (by simpa only [Power.wf] using hwf)
      (by simpa only [Power.size] using hsz) (by simpa only [Power.size] using hF))
  | .pow p stars u, fuel, F, L, hwf, hsz, hF, hL => by
    simp only [Power.wf] at hwf
    simp only [Power.size] at hsz hF
    simp only [Power.ops] at hL
    exact runs_pow H _ F L p stars u (by omega)
      (power_runs H p fuel F L hwf.1 (by omega) (by omega) (by omega))
      (unary_runs H u fuel F hwf.2 (by omega) (by omega))
theorem term_runs {R : Type} (H : Host R) : ∀ (t : Term) (fuel F L : Nat), t.wf H →
    t.size ≤ fuel → t.size < F → t.ops ≤ L →
    Runs H start_kinds (body1 H (parse_expr H fuel) F L)
      (parse_expr1_loop H (parse_expr H fuel) F (L - t.ops)) t.text (t.eval H) t.ncalls [TOKEN_POW]
  | .power p, fuel, F, L, hwf, hsz, hF, _ => by
    simp only [Term.wf] at hwf
    simp only [Term.size] at hsz hF
    have := power_ops_le p
    exact runs_term_power H _ F L p (runs_power_complete H _ F p (by omega)
      (power_runs H p fuel F F hwf hsz hF (by omega)))
  | .mul t p, fuel, F, L, hwf, hsz, hF, hL => by
    simp only [Term.wf] at hwf
    simp only [Term.size] at hsz hF
    simp only [Term.ops] at hL
    have := power_ops_le p
    exact runs_mul H _ F L t p (by omega)
      (term_runs H t fuel F L hwf.1 (by omega) (by omega) (by omega))
      (runs_power_complete H _ F p (by omega)
        (power_runs H p fuel F F hwf.2 (by omega) (by omega) (by omega)))
  | .div t p, fuel, F, L, hwf, hsz, hF, hL => by
    simp only [Term.wf] at hwf
    simp only [Term.size] at hsz hF
    simp only [Term.ops] at hL
    have := power_ops_le p
    exact runs_div H _ F L t p (by omega)
      (term_runs H t fuel F L hwf.1 (by omega) (by omega) (by omega))
      (runs_power_complete H _ F p (by omega)
        (power_runs H p fuel F F hwf.2 (by omega) (by omega) (by omega)))
theorem expr_runs {R : Type} (H : Host R) : ∀ (e : Expr) (fuel F L : Nat), e.wf H →
    e.size ≤ fuel → e.size < F → e.ops ≤ L →
    Runs H start_kinds (body0 H (parse_expr H fuel) F L)
      (parse_expr_loop H (parse_expr H fuel) F (L - e.ops)) e.text (e.eval H) e.ncalls
      [TOKEN_POW, TOKEN_MUL, TOKEN_DIV]
  | .term t, fuel, F, L, hwf, hsz, hF, _ => by
    simp only [Expr.wf] at hwf
    simp only [Expr.size] at hsz hF
    have := term_ops_le t
    exact runs_expr_term H _ F L t (runs_term_complete H _ F t (by omega)
      (term_runs H t fuel F F hwf hsz hF (by omega)))
  | .add e t, fuel, F, L, hwf, hsz, hF, hL => by
    simp only [Expr.wf] at hwf
    simp only [Expr.size] at hsz hF
    simp only [Expr.ops] at hL
    have := term_ops_le t
    exact runs_add H _ F L e t (by omega)
      (expr_runs H e fuel F L hwf.1 (by omega) (by omega) (by omega))
      (runs_term_complete H _ F t (by omega)
        (term_runs H t fuel F F hwf.2 (by omega) (by omega) (by omega)))
  | .sub e t, fuel, F, L, hwf, hsz, hF, hL => by
    simp only [Expr.wf] at hwf
    simp only [Expr.size] at hsz hF
    simp only [Expr.ops] at hL
    have := term_ops_le t
    exact runs_sub H _ F L e t (by omega)
      (expr_runs H e fuel F L hwf.1 (by omega) (by omega) (by omega))
      (runs_term_complete H _ F t (by omega)
        (term_runs H t fuel F F hwf.2 (by omega) (by omega) (by omega)))
end

mutual
theorem atom_size_le {R : Type} (H : Host R) : ∀ a : Atom, a.wf H → a.size ≤ a.text.length
  | .num ds frac, hwf => by
    simp only [Atom.wf] at hwf
    obtain ⟨d, ds1, rfl⟩ := List.exists_cons_of_ne_nil hwf.1
    cases frac <;> simp [Atom.size, Atom.text, num_text]
  | .const name, hwf => by
    simp only [Atom.wf] at hwf
    obtain ⟨⟨c, rest, rfl, -⟩, -⟩ := hwf.1
    simp [Atom.size, Atom.text]
  | .call name args, hwf => by
    simp only [Atom.wf] at hwf
    have := args_size_le H args hwf.2.2.2.2
    simp only [Atom.size, Atom.text, List.length_append, List.length_cons, List.length_nil]
    omega
  | .paren e, hwf => by
    simp only [Atom.wf] at hwf
    have := expr_size_le H e hwf
    simp only [Atom.size, Atom.text, List.length_append, List.length_cons, List.length_nil]
    omega
theorem args_size_le {R : Type} (H : Host R) : ∀ a : Args, a.wf H → a.size ≤ a.text.length
  | .last e, hwf => by
    simp only [Args.wf] at hwf
    simpa only [Args.size, Args.text] using expr_size_le H e hwf
  | .more e rest, hwf => by
    simp only [Args.wf] at hwf
    have := expr_size_le H e hwf.1
    have := args_size_le H rest hwf.2
    simp only [Args.size, Args.text, List.length_append, List.length_cons]
    omega
theorem unary_size_le {R : Type} (H : Host R) : ∀ u : Unary, u.wf H → u.size ≤ u.text.length
  | .neg u, hwf => by
    simp only [Unary.wf] at hwf
    have := unary_size_le H u hwf
    simp only [Unary.size, Unary.text, List.length_cons]
    omega
  | .pos u, hwf => by
    simp only [Unary.wf] at hwf
    have := unary_size_le H u hwf
    simp only [Unary.size, Unary.text, List.length_cons]
    omega
  | .atom a, hwf => by
    simp only [Unary.wf] at hwf
    simpa only [Unary.size, Unary.text] using atom_size_le H a hwf
theorem power_size_le {R : Type} (H : Host R) : ∀ p : Power, p.wf H → p.size ≤ p.text.length
  | .unary u, hwf => by
    simp only [Power.wf] at hwf
    simpa only [Power.size, Power.text] using unary_size_le H u hwf
  | .pow p stars u, hwf => by
    simp only [Power.wf] at hwf
    have := power_size_le H p hwf.1
    have := unary_size_le H u hwf.2
    cases stars <;>
      simp only [Power.size, Power.text, List.length_append, List.length_cons, List.length_nil,
        if_true, Bool.false_eq_true, if_false] <;> omega
theorem term_size_le {R : Type} (H : Host R) : ∀ t : Term, t.wf H → t.size ≤ t.text.length
  | .power p, hwf => by
    simp only [Term.wf] at hwf
    simpa only [Term.size, Term.text] using power_size_le H p hwf
  | .mul t p, hwf => by
    simp only [Term.wf] at hwf
    have := term_size_le H t hwf.1
    have := power_size_le H p hwf.2
    simp only [Term.size, Term.text, List.length_append, List.length_cons]
    omega
  | .div t p, hwf => by
    simp only [Term.wf] at hwf
    have := term_size_le H t hwf.1
    have := power_size_le H p hwf.2
    simp only [Term.size, Term.text, List.length_append, List.length_cons]
    omega
theorem expr_size_le {R : Type} (H : Host R) : ∀ e : Expr, e.wf H → e.size ≤ e.text.length
  | .term t, hwf => by
    simp only [Expr.wf] at hwf
    simpa only [Expr.size, Expr.text] using term_size_le H t hwf
  | .add e t, hwf => by
    simp only [Expr.wf] at hwf
    have := expr_size_le H e hwf.1
    have := term_size_le H t hwf.2
    simp only [Expr.size, Expr.text, List.length_append, List.length_cons]
    omega
  | .sub e t, hwf => by
    simp only [Expr.wf] at hwf
    have := expr_size_le H e hwf.1
    have := term_size_le H t hwf.2
    simp only [Expr.size, Expr.text, List.length_append, List.length_cons]
    omega
end

/-- The evaluator started by `parse_expr` with enough fuel reads a well-formed
    expression and returns its value. -/
theorem expr_parse_expr_runs {R : Type} (H : Host R) (e : Expr) (fuel : Nat) (hwf : e.wf H)
    (hsz : e.size < fuel) :
    Runs H start_kinds (parse_expr H fuel) (fun v s => .ok v s) e.text (e.eval H) e.ncalls op_kinds :=
  runs_parse_expr H e fuel hsz (fun f F L h1 h2 h3 => expr_runs H e f F L hwf h1 h2 h3)

theorem no_ext_nil : no_ext [] := by
  intro c hc; cases hc

theorem parse_str_runs {R : Type} (H : Host R) (e : Expr) (k : List Char) (s : State R)
    (hwf : e.wf H) (hk : no_ext k) (hst : stops H op_kinds k) :
    ∃ s2, Reaches s s2 k (e.eval H s.args).2 e.ncalls ∧
      parse_str H (e.text ++ k) s = (next_token H s2).bind
        (fun _ s3 => .ok () { s3 with stdout := s3.stdout ++ [(e.eval H s.args).1] }) := by
  have hsz : e.size < (e.text ++ k).length + 1 := by
    have := expr_size_le H e hwf
    simp only [List.length_append]; omega
  obtain ⟨t1, t2, hn1, hk1, hr, hrun⟩ := expr_parse_expr_runs H e _ hwf hsz k
    { s with token := nul H, stream := .to (e.text ++ k) } hk hst rfl
  have hne : is_token t1 TOKEN_EOF = false := by
    simp only [start_kinds, List.mem_cons, List.mem_singleton, List.not_mem_nil, or_false] at hk1
    unfold is_token
    rcases hk1 with h | h | h | h | h | h <;> rw [h] <;> rfl
  refine ⟨t2, ⟨hr.stream, hr.args, hr.calls, hr.stdout, hr.stderr, hr.kind⟩, ?_⟩
  unfold parse_str
  rw [hn1]
  simp only [hne, Bool.not_false, if_true]
  rw [hrun]
  cases next_token H t2 <;> rfl

theorem parse_str_value {R : Type} (H : Host R) (e : Expr) (s : State R) (hwf : e.wf H) :
    ∃ s1, parse_str H e.text s = .ok () s1 ∧ s1.stdout = s.stdout ++ [(e.eval H s.args).1] ∧
      s1.stderr = s.stderr ∧ s1.args = (e.eval H s.args).2 ∧ s1.calls = s.calls + e.ncalls := by
  obtain ⟨s2, hr, hrun⟩ := parse_str_runs H e [] s hwf no_ext_nil
    (stops_eof H op_kinds (by decide))
  rw [List.append_nil] at hrun
  rw [hrun, next_token_nil H hr.stream, bind_ok]
  exact ⟨_, rfl, by simp [State.at_eof, hr.stdout], by simp [State.at_eof, hr.stderr],
    by simp [State.at_eof, hr.args], by simp [State.at_eof, hr.calls]⟩

mutual
theorem atom_eval_callfree {R : Type} (H : Host R) : ∀ (a : Atom) (buf : List R), a.callfree →
    a.eval H buf = (a.value H, buf)
  | .num _ _, _, _ => rfl
  | .const _, _, _ => rfl
  | .call _ _, _, h => by simp only [Atom.callfree] at h
  | .paren e, buf, h => by
    simp only [Atom.callfree] at h
    simpa only [Atom.eval, Atom.value] using expr_eval_callfree H e buf h
theorem unary_eval_callfree {R : Type} (H : Host R) : ∀ (u : Unary) (buf : List R), u.callfree →
    u.eval H buf = (u.value H, buf)
  | .neg u, buf, h => by
    simp only [Unary.callfree] at h
    simp only [Unary.eval, Unary.value, unary_eval_callfree H u buf h]
  | .pos u, buf, h => by
    simp only [Unary.callfree] at h
    simp only [Unary.eval, Unary.value, unary_eval_callfree H u buf h]
  | .atom a, buf, h => by
    simp only [Unary.callfree] at h
    simp only [Unary.eval, Unary.value, atom_eval_callfree H a buf h]
theorem power_eval_callfree {R : Type} (H : Host R) : ∀ (p : Power) (buf : List R), p.callfree →
    p.eval H buf = (p.value H, buf)
  | .unary u, buf, h => by
    simp only [Power.callfree] at h
    simp only [Power.eval, Power.value, unary_eval_callfree H u buf h]
  | .pow p _ u, buf, h => by
    simp only [Power.callfree] at h
    simp only [Power.eval, Power.value, power_eval_callfree H p buf h.1,
      unary_eval_callfree H u buf h.2]
theorem term_eval_callfree {R : Type} (H : Host R) : ∀ (t : Term) (buf : List R), t.callfree →
    t.eval H buf = (t.value H, buf)
  | .power p, buf, h => by
    simp only [Term.callfree] at h
    simp only [Term.eval, Term.value, power_eval_callfree H p buf h]
  | .mul t p, buf, h => by
    simp only [Term.callfree] at h
    simp only [Term.eval, Term.value, term_eval_callfree H t buf h.1,
      power_eval_callfree H p buf h.2]
  | .div t p, buf, h => by
    simp only [Term.callfree] at h
    simp only [Term.eval, Term.value, term_eval_callfree H t buf h.1,
      power_eval_callfree H p buf h.2]
theorem expr_eval_callfree {R : Type} (H : Host R) : ∀ (e : Expr) (buf : List R), e.callfree →
    e.eval H buf = (e.value H, buf)
  | .term t, buf, h => by
    simp only [Expr.callfree] at h
    simp only [Expr.eval, Expr.value, term_eval_callfree H t buf h]
  | .add e t, buf, h => by
    simp only [Expr.callfree] at h
    simp only [Expr.eval, Expr.value, expr_eval_callfree H e buf h.1,
      term_eval_callfree H t buf h.2]
  | .sub e t, buf, h => by
    simp only [Expr.callfree] at h
    simp only [Expr.eval, Expr.value, expr_eval_callfree H e buf h.1,
      term_eval_callfree H t buf h.2]
end

mutual
theorem atom_callfree_of_arith : ∀ a : Atom, a.arith → a.callfree
  | .num _ _, _ => trivial
  | .const _, h => by simp only [Atom.arith] at h
  | .call _ _, h => by simp only [Atom.arith] at h
  | .paren e, h => by
    simp only [Atom.arith] at h
    simpa only [Atom.callfree] using expr_callfree_of_arith e h
theorem unary_callfree_of_arith : ∀ u : Unary, u.arith → u.callfree
  | .neg _, h => by simp only [Unary.arith] at h
  | .pos _, h => by simp only [Unary.arith] at h
  | .atom a, h => by
    simp only [Unary.arith] at h
    simpa only [Unary.callfree] using atom_callfree_of_arith a h
theorem power_callfree_of_arith : ∀ p : Power, p.arith → p.callfree
  | .unary u, h => by
    simp only [Power.arith] at h
    simpa only [Power.callfree] using unary_callfree_of_arith u h
  | .pow _ _ _, h => by simp only [Power.arith] at h
theorem term_callfree_of_arith : ∀ t : Term, t.arith → t.callfree
  | .power p, h => by
    simp only [Term.arith] at h
    simpa only [Term.callfree] using power_callfree_of_arith p h
  | .mul t p, h => by
    simp only [Term.arith] at h
    simp only [Term.callfree]
    exact ⟨term_callfree_of_arith t h.1, power_callfree_of_arith p h.2⟩
  | .div t p, h => by
    simp only [Term.arith] at h
    simp only [Term.callfree]
    exact ⟨term_callfree_of_arith t h.1, power_callfree_of_arith p h.2⟩
theorem expr_callfree_of_arith : ∀ e : Expr, e.arith → e.callfree
  | .term t, h => by
    simp only [Expr.arith] at h
    simpa only [Expr.callfree] using term_callfree_of_arith t h
  | .add e t, h => by
    simp only [Expr.arith] at h
    simp only [Expr.callfree]
    exact ⟨expr_callfree_of_arith e h.1, term_callfree_of_arith t h.2⟩
  | .sub e t, h => by
    simp only [Expr.arith] at h
    simp only [Expr.callfree]
    exact ⟨expr_callfree_of_arith e h.1, term_callfree_of_arith t h.2⟩
end

theorem signed_text (signs : List Bool) (a : Atom) :
    (signed signs a).text = sign_text signs ++ a.text := by
  induction signs with
  | nil => rfl
  | cons b rest ih => cases b <;> simp [signed, sign_text, Unary.text, ih]

theorem signed_wf {R : Type} (H : Host R) (signs : List Bool) (a : Atom) (ha : a.wf H) :
    (signed signs a).wf H := by
  induction signs with
  | nil => simpa only [signed, Unary.wf] using ha
  | cons b rest ih => cases b <;> simpa only [signed, Unary.wf] using ih

theorem signed_eval {R : Type} (H : Host R) (signs : List Bool) (a : Atom) (buf : List R) :
    (signed signs a).eval H buf =
      (H.neg^[signs.count true] (a.eval H buf).1, (a.eval H buf).2) := by
  induction signs with
  | nil => rfl
  | cons b rest ih =>
    cases b
    · simp only [signed, Unary.eval, ih]
      simp
    · simp only [signed, Unary.eval, ih, List.count_cons_self, Function.iterate_succ_apply']

theorem iterate_involutive {α : Type} (f : α → α) (hf : ∀ x, f (f x) = x) (n : Nat) (x : α) :
    f^[n] x = if n % 2 = 0 then x else f x := by
  induction n with
  | zero => rfl
  | succ n ih =>
    rw [Function.iterate_succ_apply', ih]
    by_cases h : n % 2 = 0
    · have : (n + 1) % 2 ≠ 0 := by omega
      simp [h, this]
    · have : (n + 1) % 2 = 0 := by omega
      simp [h, this, hf]

theorem parse_args_step {R : Type} (H : Host R) (pe : State R → Outcome R R) (count i : Nat)
    (s : State R) (hi : i < MAX_FUNC_ARGS) :
    parse_args H pe (count + 1) i s = (pe s).bind (fun v s1 =>
      (expect_token H TOKEN_COMMA { s1 with args := s1.args.set i v }).bind
        (fun _ s2 => parse_args H pe count (i + 1) s2)) := by
  simp only [parse_args, hi, if_true]
  cases pe s with
  | halt h s1 => rfl
  | ok v s1 =>
    simp only [bind_ok]
    cases expect_token H TOKEN_COMMA { s1 with args := s1.args.set i v } <;> rfl

theorem parse_expr_of_atom {R : Type} (H : Host R) (fuel : Nat) (s : State R)
    (h1 : s.token.kind ≠ TOKEN_SUB) (h2 : s.token.kind ≠ TOKEN_ADD) :
    parse_expr H (fuel + 1) s = (((parse_expr4 H (parse_expr H fuel) s).bind
      (fun v s1 => parse_expr2_loop H (parse_expr H fuel) (fuel + 1) (fuel + 1) v s1)).bind
      (fun v s1 => parse_expr1_loop H (parse_expr H fuel) (fuel + 1) (fuel + 1) v s1)).bind
      (fun v s1 => parse_expr_loop H (parse_expr H fuel) (fuel + 1) (fuel + 1) v s1) := by
  rw [parse_expr_succ, body0, parse_expr1_eq, body1, parse_expr2_eq, body2,
    parse_expr3_atom H _ fuel s h1 h2]

theorem parse_expr_atom_halt {R : Type} (H : Host R) (fuel : Nat) (s s1 : State R) (h : Halt)
    (h1 : s.token.kind ≠ TOKEN_SUB) (h2 : s.token.kind ≠ TOKEN_ADD)
    (ha : parse_expr4 H (parse_expr H fuel) s = .halt h s1) :
    parse_expr H (fuel + 1) s = .halt h s1 := by
  rw [parse_expr_of_atom H fuel s h1 h2, ha]
  rfl

theorem parse_str_halt {R : Type} (H : Host R) (str : List Char) (s s1 s2 : State R) (h : Halt)
    (h1 : next_token H { s with token := nul H, stream := .to str } = .ok () s1)
    (h2 : s1.token.kind ≠ TOKEN_EOF) (h3 : parse_expr H (str.length + 1) s1 = .halt h s2) :
    parse_str H str s = .halt h s2 := by
  unfold parse_str
  rw [h1]
  simp only [is_token, beq_iff_eq, h2, Bool.not_false, if_true, h3,
    show (s1.token.kind == TOKEN_EOF) = false from by simpa using h2]

/-- The state in which `error` ends after the message `msg`. -/
theorem error_eq {R α : Type} (msg : String) (s : State R) :
    (error msg s : Outcome R α) =
      .halt .exit_failure { s with stderr := s.stderr ++ ["ERROR: " ++ msg] } := rfl

theorem args_short {R : Type} (H : Host R) (fuel : Nat) : ∀ (a : Args) (count i : Nat)
    (k : List Char) (s : State R), a.wf H → a.size < fuel → a.length ≤ count →
    i + a.length ≤ MAX_FUNC_ARGS → s.stream = .to (a.text ++ ')' :: k) →
    ∃ s1 s2, next_token H s = .ok () s1 ∧ s1.token.kind ∈ start_kinds ∧
      parse_args H (parse_expr H fuel) count i s1 = .halt .exit_failure s2 ∧
      s2.stderr = s.stderr ++ ["ERROR: Expected token ',', got ')'"] ∧
      s2.stdout = s.stdout ∧ s2.token.kind = TOKEN_RPARAM ∧ s2.token.start = .to (')' :: k) ∧
      s2.calls = s.calls + a.ncalls
  | .last e, count, i, k, s, hwf, hsz, hcount, hi, hs => by
    simp only [Args.wf] at hwf
    simp only [Args.size] at hsz
    simp only [Args.length] at hcount hi
    simp only [Args.text] at hs
    obtain ⟨c, rfl⟩ : ∃ c, count = c + 1 := ⟨count - 1, by omega⟩
    obtain ⟨t1, t2, hn1, hk1, hr, hrun⟩ := expr_parse_expr_runs H e fuel hwf hsz (')' :: k) s
      (no_ext_cons k (by decide) (by decide))
      (stops_simple H TOKEN_RPARAM k op_kinds (by decide) (by decide)) hs
    have h3 := next_token_simple H hr.stream (k := TOKEN_RPARAM) (by decide)
    have hmsg : "ERROR: " ++ ("Expected token \x27" ++ tokenToNames TOKEN_COMMA ++ "\x27, got \x27"
        ++ tokenToNames TOKEN_RPARAM ++ "\x27") = "ERROR: Expected token ',', got ')'" := by
      decide
    refine ⟨t1, { (t2.lexed TOKEN_RPARAM t2.token.as_ (')' :: k) k) with
        args := t2.args.set i (e.eval H s.args).1,
        stderr := t2.stderr ++ ["ERROR: Expected token ',', got ')'"] },
      hn1, hk1, ?_, ?_, hr.stdout, rfl, rfl, hr.calls⟩
    · rw [parse_args_step H _ c i t1 (by omega), hrun, h3, bind_ok, bind_ok,
        expect_token_false H TOKEN_COMMA _ (by simp [State.lexed]), error_eq]
      simp only [State.lexed, hmsg, bind_halt]
    · simp only [hr.stderr]
  | .more e rest, count, i, k, s, hwf, hsz, hcount, hi, hs => by
    simp only [Args.wf] at hwf
    simp only [Args.size] at hsz
    simp only [Args.length] at hcount hi
    have hs1 : s.stream = .to (e.text ++ ',' :: (rest.text ++ ')' :: k)) := by
      simpa [Args.text] using hs
    obtain ⟨c, rfl⟩ : ∃ c, count = c + 1 := ⟨count - 1, by omega⟩
    obtain ⟨t1, t2, hn1, hk1, hr, hrun⟩ := expr_parse_expr_runs H e fuel hwf.1 (by omega)
      (',' :: (rest.text ++ ')' :: k)) s (no_ext_cons _ (by decide) (by decide))
      (stops_simple H TOKEN_COMMA _ op_kinds (by decide) (by decide)) hs1
    have h3 := next_token_simple H hr.stream (k := TOKEN_COMMA) (by decide)
    obtain ⟨u1, u2, hn2, -, hrest, herr, hout, hkind, hstart, hcalls⟩ := args_short H fuel rest c (i + 1) k
      { (t2.lexed TOKEN_COMMA t2.token.as_ (',' :: (rest.text ++ ')' :: k))
          (rest.text ++ ')' :: k)) with
        args := (t2.lexed TOKEN_COMMA t2.token.as_ (',' :: (rest.text ++ ')' :: k))
          (rest.text ++ ')' :: k)).args.set i (e.eval H s.args).1 }
      hwf.2 (by omega) (by omega) (by omega) rfl
    refine ⟨t1, u2, hn1, hk1, ?_, ?_, ?_, hkind, hstart, ?_⟩
    · rw [parse_args_step H _ c i t1 (by omega), hrun, h3, bind_ok, bind_ok,
        expect_token_true H TOKEN_COMMA _ rfl, hn2, bind_ok, hrest]
    · rw [herr]; simp [State.lexed, hr.stderr]
    · rw [hout]; simp [State.lexed, hr.stdout]
    · rw [hcalls]; simp only [State.lexed, hr.calls, Args.ncalls]; omega

/-! ## Only `parse_str` prints -/

theorem keepsout_bind {R α β : Type} {s : State R} {o : Outcome R α}
    {g : α → State R → Outcome R β}
    (ho : KeepsOut s o) (hg : ∀ v s1, KeepsOut s1 (g v s1)) : KeepsOut s (o.bind g) := by
  cases o with
  | halt h s1 => exact ho
  | ok v s1 => exact (hg v s1).trans ho

theorem keepsout_ite {R α : Type} {s : State R} {c : Prop} [Decidable c] {a b : Outcome R α}
    (ha : KeepsOut s a) (hb : KeepsOut s b) : KeepsOut s (if c then a else b) := by
  split <;> assumption

theorem keepsout_next_token {R : Type} (H : Host R) (s : State R) :
    KeepsOut s (next_token H s) := (next_token_frame H s).2.1

theorem keepsout_error {R α : Type} (msg : String) (s : State R) :
    KeepsOut s (error msg s : Outcome R α) := rfl

theorem keepsout_expect_token {R : Type} (H : Host R) (k : TokenKind) (s : State R) :
    KeepsOut s (expect_token H k s) := by
  unfold expect_token
  exact keepsout_ite (keepsout_next_token H s) (keepsout_error _ s)

theorem match_token_bind {R : Type} (H : Host R) (k : TokenKind) (s : State R) :
    match_token H k s =
      if is_token s k then (next_token H s).bind (fun _ s1 => .ok true s1) else .ok false s := by
  unfold match_token
  split
  · cases next_token H s <;> rfl
  · rfl

theorem keepsout_match_token {R : Type} (H : Host R) (k : TokenKind) (s : State R) :
    KeepsOut s (match_token H k s) := by
  rw [match_token_bind]
  exact keepsout_ite (keepsout_bind (keepsout_next_token H s) (fun _ _ => rfl)) rfl

theorem keepsout_take_val {R : Type} (H : Host R) (s : State R) : KeepsOut s (take_val H s) := by
  unfold take_val
  have := keepsout_next_token H s
  cases hn : next_token H s with
  | halt h1 s1 => rw [hn] at this; exact this
  | ok u s1 => rw [hn] at this; exact this

theorem parse_args_bind {R : Type} (H : Host R) (pe : State R → Outcome R R) (count i : Nat)
    (s : State R) :
    parse_args H pe (count + 1) i s = (pe s).bind (fun v s1 =>
      if i < MAX_FUNC_ARGS then
        (expect_token H TOKEN_COMMA { s1 with args := s1.args.set i v }).bind
          (fun _ s2 => parse_args H pe count (i + 1) s2)
      else .halt .undefined s1) := by
  simp only [parse_args]
  cases pe s with
  | halt h s1 => rfl
  | ok v s1 =>
    simp only [bind_ok]
    split
    · cases expect_token H TOKEN_COMMA { s1 with args := s1.args.set i v } <;> rfl
    · rfl

theorem keepsout_parse_args {R : Type} (H : Host R) (pe : State R → Outcome R R)
    (hpe : ∀ s, KeepsOut s (pe s)) (count : Nat) :
    ∀ (i : Nat) (s : State R), KeepsOut s (parse_args H pe count i s) := by
  induction count with
  | zero => intro i s; exact rfl
  | succ c ih =>
    intro i s
    rw [parse_args_bind]
    refine keepsout_bind (hpe s) (fun v s1 => keepsout_ite ?_ rfl)
    exact keepsout_bind (s := s1) (keepsout_expect_token H TOKEN_COMMA _) (fun _ s2 => ih _ s2)

theorem keepsout_parse_expr4 {R : Type} (H : Host R) (pe : State R → Outcome R R)
    (hpe : ∀ s, KeepsOut s (pe s)) (s : State R) : KeepsOut s (parse_expr4 H pe s) := by
  by_cases h1 : s.token.kind = TOKEN_VAL
  · have : parse_expr4 H pe s = take_val H s := by simp [parse_expr4, is_token, h1]
    rw [this]; exact keepsout_take_val H s
  by_cases h2 : s.token.kind = TOKEN_CONST
  · have : parse_expr4 H pe s = take_val H s := by simp [parse_expr4, is_token, h2]
    rw [this]; exact keepsout_take_val H s
  by_cases h3 : s.token.kind = TOKEN_FUNC
  · cases ha : s.token.as_ with
    | val v =>
      have : parse_expr4 H pe s = .halt .undefined s := by
        simp [parse_expr4, is_token, h3, ha]
      rw [this]; exact rfl
    | func nargs func =>
      rw [parse_expr4_func H pe s nargs func h3 ha]
      refine keepsout_bind (keepsout_next_token H s) (fun _ s1 =>
        keepsout_bind (keepsout_expect_token H _ s1) (fun _ s2 =>
          keepsout_bind (keepsout_bind (keepsout_parse_args H pe hpe _ _ s2) (fun _ s3 => hpe s3))
            (fun v s4 => keepsout_ite ?_ rfl)))
      exact keepsout_bind (s := s4) (keepsout_expect_token H _ _) (fun _ _ => rfl)
  by_cases h4 : s.token.kind = TOKEN_LPARAM
  · rw [parse_expr4_paren H pe s h4]
    exact keepsout_bind (keepsout_next_token H s) (fun _ s1 =>
      keepsout_bind (hpe s1) (fun _ s2 =>
        keepsout_bind (keepsout_expect_token H _ s2) (fun _ _ => rfl)))
  · rw [parse_expr4_other H pe s h1 h2 h3 h4]
    exact keepsout_error _ s

theorem parse_expr3_bind {R : Type} (H : Host R) (pe : State R → Outcome R R) (fuel : Nat)
    (s : State R) :
    parse_expr3 H pe (fuel + 1) s = (match_token H TOKEN_SUB s).bind (fun b s1 =>
      if b then (parse_expr3 H pe fuel s1).bind (fun v s2 => .ok (H.neg v) s2)
      else (match_token H TOKEN_ADD s1).bind (fun b2 s2 =>
        if b2 then parse_expr3 H pe fuel s2 else parse_expr4 H pe s2)) := by
  simp only [parse_expr3]
  cases match_token H TOKEN_SUB s with
  | halt h s1 => rfl
  | ok b s1 =>
    cases b with
    | true =>
      simp only [bind_ok, if_true]
      cases parse_expr3 H pe fuel s1 <;> rfl
    | false =>
      simp only [bind_ok, Bool.false_eq_true, if_false]
      cases match_token H TOKEN_ADD s1 with
      | halt h s2 => rfl
      | ok b2 s2 => cases b2 <;> rfl

theorem keepsout_parse_expr3 {R : Type} (H : Host R) (pe : State R → Outcome R R)
    (hpe : ∀ s, KeepsOut s (pe s)) (fuel : Nat) :
    ∀ s : State R, KeepsOut s (parse_expr3 H pe fuel s) := by
  induction fuel with
  | zero => intro s; exact rfl
  | succ n ih =>
    intro s
    rw [parse_expr3_bind]
    refine keepsout_bind (keepsout_match_token H _ s) (fun b s1 => keepsout_ite
      (keepsout_bind (ih s1) (fun _ _ => rfl))
      (keepsout_bind (keepsout_match_token H _ s1) (fun b2 s2 => keepsout_ite (ih s2)
        (keepsout_parse_expr4 H pe hpe s2))))

theorem parse_expr2_loop_bind {R : Type} (H : Host R) (pe : State R → Outcome R R)
    (fuel loops : Nat) (val : R) (s : State R) :
    parse_expr2_loop H pe fuel (loops + 1) val s =
      if is_token s TOKEN_POW then
        (next_token H s).bind (fun _ s1 => (parse_expr3 H pe fuel s1).bind
          (fun v s2 => parse_expr2_loop H pe fuel loops (H.pow val v) s2))
      else .ok val s := by
  simp only [parse_expr2_loop]
  split
  · cases next_token H s with
    | halt h s1 => rfl
    | ok u s1 =>
      simp only [bind_ok]
      cases parse_expr3 H pe fuel s1 <;> rfl
  · rfl

theorem parse_expr1_loop_bind {R : Type} (H : Host R) (pe : State R → Outcome R R)
    (fuel loops : Nat) (val : R) (s : State R) :
    parse_expr1_loop H pe fuel (loops + 1) val s =
      if is_token s TOKEN_MUL || is_token s TOKEN_DIV then
        (next_token H s).bind (fun _ s1 => (parse_expr2 H pe fuel s1).bind
          (fun v s2 =>
            if s.token.kind == TOKEN_MUL then parse_expr1_loop H pe fuel loops (H.mul val v) s2
            else parse_expr1_loop H pe fuel loops (H.div val v) s2))
      else .ok val s := by
  simp only [parse_expr1_loop]
  split
  · cases next_token H s with
    | halt h s1 => rfl
    | ok u s1 =>
      simp only [bind_ok]
      cases parse_expr2 H pe fuel s1 <;> rfl
  · rfl

theorem parse_expr_loop_bind {R : Type} (H : Host R) (pe : State R → Outcome R R)
    (fuel loops : Nat) (val : R) (s : State R) :
    parse_expr_loop H pe fuel (loops + 1) val s =
      if is_token s TOKEN_ADD || is_token s TOKEN_SUB then
        (next_token H s).bind (fun _ s1 => (parse_expr1 H pe fuel s1).bind
          (fun v s2 =>
            if s.token.kind == TOKEN_ADD then parse_expr_loop H pe fuel loops (H.add val v) s2
            else parse_expr_loop H pe fuel loops (H.sub val v) s2))
      else .ok val s := by
  simp only [parse_expr_loop]
  split
  · cases next_token H s with
    | halt h s1 => rfl
    | ok u s1 =>
      simp only [bind_ok]
      cases parse_expr1 H pe fuel s1 <;> rfl
  · rfl

theorem keepsout_parse_expr2 {R : Type} (H : Host R) (pe : State R → Outcome R R)
    (hpe : ∀ s, KeepsOut s (pe s)) (fuel : Nat) (s : State R) :
    KeepsOut s (parse_expr2 H pe fuel s) := by
  have hloop : ∀ (loops : Nat) (val : R) (s : State R),
      KeepsOut s (parse_expr2_loop H pe fuel loops val s) := by
    intro loops
    induction loops with
    | zero => intro val s; exact rfl
    | succ n ih =>
      intro val s
      rw [parse_expr2_loop_bind]
      exact keepsout_ite (keepsout_bind (keepsout_next_token H s) (fun _ s1 =>
        keepsout_bind (keepsout_parse_expr3 H pe hpe fuel s1) (fun v s2 => ih _ s2))) rfl
  rw [parse_expr2_eq, body2]
  exact keepsout_bind (keepsout_parse_expr3 H pe hpe fuel s) (fun v s1 => hloop _ v s1)

theorem keepsout_parse_expr1 {R : Type} (H : Host R) (pe : State R → Outcome R R)
    (hpe : ∀ s, KeepsOut s (pe s)) (fuel : Nat) (s : State R) :
    KeepsOut s (parse_expr1 H pe fuel s) := by
  have hloop : ∀ (loops : Nat) (val : R) (s : State R),
      KeepsOut s (parse_expr1_loop H pe fuel loops val s) := by
    intro loops
    induction loops with
    | zero => intro val s; exact rfl
    | succ n ih =>
      intro val s
      rw [parse_expr1_loop_bind]
      exact keepsout_ite (keepsout_bind (keepsout_next_token H s) (fun _ s1 =>
        keepsout_bind (keepsout_parse_expr2 H pe hpe fuel s1)
          (fun v s2 => keepsout_ite (ih _ s2) (ih _ s2)))) rfl
  rw [parse_expr1_eq, body1]
  exact keepsout_bind (keepsout_parse_expr2 H pe hpe fuel s) (fun v s1 => hloop _ v s1)

theorem keepsout_parse_expr {R : Type} (H : Host R) (fuel : Nat) :
    ∀ s : State R, KeepsOut s (parse_expr H fuel s) := by
  induction fuel with
  | zero => intro s; exact rfl
  | succ f ihf =>
    intro s
    have hloop : ∀ (loops : Nat) (val : R) (s : State R),
        KeepsOut s (parse_expr_loop H (parse_expr H f) (f + 1) loops val s) := by
      intro loops
      induction loops with
      | zero => intro val s; exact rfl
      | succ n ih =>
        intro val s
        rw [parse_expr_loop_bind]
        exact keepsout_ite (keepsout_bind (keepsout_next_token H s) (fun _ s1 =>
          keepsout_bind (keepsout_parse_expr1 H _ ihf (f + 1) s1)
            (fun v s2 => keepsout_ite (ih _ s2) (ih _ s2)))) rfl
    rw [parse_expr_succ, body0]
    exact keepsout_bind (keepsout_parse_expr1 H _ ihf (f + 1) s) (fun v s1 => hloop _ v s1)

theorem sametok_ite {R : Type} {c : Prop} [Decidable c] {a b a1 b1 : Outcome R Unit}
    (ha : SameTok a a1) (hb : SameTok b b1) :
    SameTok (if c then a else b) (if c then a1 else b1) := by
  split <;> assumption

theorem sametok_token_end {R : Type} (s s1 : State R) (kind : TokenKind) (as_ : TokenAs R)
    (p : Ptr) (h : s.token.start = s1.token.start) :
    SameTok (token_end s kind as_ p) (token_end s1 kind as_ p) := by
  simp [SameTok, token_end, h]

theorem repeat_same_token {R : Type} (H : Host R) (n : Nat) :
    ∀ (text : List Char) (s s1 : State R), s.token = s1.token →
      SameTok (repeat_ H n text s) (repeat_ H n text s1) := by
  induction n with
  | zero => intro text s s1 _; exact rfl
  | succ n ih =>
    intro text s s1 h
    simp only [repeat_]
    rw [h]
    refine sametok_ite (ih _ _ _ rfl) (sametok_ite ?_ (sametok_ite ?_ (sametok_ite
      (sametok_ite ?_ ?_) (sametok_ite ?_ (sametok_ite ?_
      (sametok_ite ?_ (sametok_ite ?_ (sametok_ite ?_ (sametok_ite ?_
      (sametok_ite ?_ (sametok_ite ?_ (ih _ _ _ rfl))))))))))))
    · cases sscanf_Lg text <;> exact sametok_token_end _ _ _ _ _ rfl
    · cases find_constant (text.takeWhile isname) with
      | some q => exact sametok_token_end _ _ _ _ _ rfl
      | none =>
        cases find_function H (text.takeWhile isname) with
        | some p => exact sametok_token_end _ _ _ _ _ rfl
        | none => exact sametok_token_end _ _ _ _ _ rfl
    all_goals first
      | exact sametok_token_end _ _ _ _ _ rfl
      | (cases text <;> exact sametok_token_end _ _ _ _ _ rfl)

theorem next_token_same_token {R : Type} (H : Host R) (s s1 : State R)
    (h : s.token = s1.token) (hs : s.stream = s1.stream) :
    SameTok (next_token H s) (next_token H s1) := by
  unfold next_token
  rw [← hs]
  cases s.stream
  · exact rfl
  · exact repeat_same_token H _ _ s s1 h
  · exact rfl

theorem first_token_eof_iff {R : Type} (H : Host R) (str : List Char) (s s1 : State R)
    (h : next_token H { s with token := nul H, stream := .to str } = .ok () s1) :
    is_token s1 TOKEN_EOF = is_empty_unit H str := by
  have := next_token_same_token H { s with token := nul H, stream := .to str }
    { State.init H with stream := .to str } rfl rfl
  rw [h] at this
  unfold is_empty_unit
  cases hn : next_token H { State.init H with stream := .to str } with
  | halt h1 s2 => rw [hn] at this; exact absurd this id
  | ok u s2 =>
    rw [hn] at this
    simp only [SameTok] at this
    simp only [is_token, this.1]

theorem ok_of_returned {R : Type} (o : Outcome R Unit) (h : o.returned = true) :
    o = .ok () o.state := by
  cases o with
  | ok u s => rfl
  | halt h1 s => cases h

theorem halt_of_halted {R : Type} (o : Outcome R Unit) (x : Halt) (h : o.halted = some x) :
    o = .halt x o.state := by
  cases o with
  | ok u s => cases h
  | halt h1 s => cases h; rfl

theorem parse_str_ok_stdout {R : Type} (H : Host R) (str : List Char) (s s1 : State R)
    (h : parse_str H str s = .ok () s1) :
    if is_empty_unit H str = true then s1.stdout = s.stdout
    else ∃ v, s1.stdout = s.stdout ++ [v] := by
  unfold parse_str at h
  cases hn : next_token H { s with token := nul H, stream := .to str } with
  | halt h1 t1 => rw [hn] at h; cases h
  | ok u t1 =>
    rw [hn] at h
    have hout : t1.stdout = s.stdout := by
      have hk0 := keepsout_next_token H { s with token := nul H, stream := .to str }
      rw [hn] at hk0
      exact hk0
    have heof := first_token_eof_iff H str s t1 hn
    simp only at h
    cases hb : is_token t1 TOKEN_EOF with
    | true =>
      rw [hb] at h heof
      simp only [Bool.not_true, Bool.false_eq_true, if_false] at h
      cases h
      rw [← heof, if_pos rfl]
      exact hout
    | false =>
      rw [hb] at h heof
      simp only [Bool.not_false, if_true] at h
      rw [← heof, if_neg (by simp)]
      have hk := keepsout_parse_expr H (str.length + 1) t1
      cases hp : parse_expr H (str.length + 1) t1 with
      | halt h2 t2 => rw [hp] at h; cases h
      | ok v t2 =>
        rw [hp] at h hk
        simp only [Outcome.ok.injEq, true_and] at h
        rw [← h]
        exact ⟨v, by show t2.stdout ++ [v] = s.stdout ++ [v]; rw [show t2.stdout = t1.stdout from hk, hout]⟩

theorem parse_str_halt_stdout {R : Type} (H : Host R) (str : List Char) (s s1 : State R)
    (x : Halt) (h : parse_str H str s = .halt x s1) : s1.stdout = s.stdout := by
  unfold parse_str at h
  have hk0 := keepsout_next_token H { s with token := nul H, stream := .to str }
  cases hn : next_token H { s with token := nul H, stream := .to str } with
  | halt h1 t1 =>
    rw [hn] at h hk0
    cases h
    exact hk0
  | ok u t1 =>
    rw [hn] at h hk0
    have hout : t1.stdout = s.stdout := hk0
    simp only at h
    cases hb : is_token t1 TOKEN_EOF with
    | true =>
      rw [hb] at h
      simp only [Bool.not_true, Bool.false_eq_true, if_false] at h
      cases h
    | false =>
      rw [hb] at h
      simp only [Bool.not_false, if_true] at h
      have hk := keepsout_parse_expr H (str.length + 1) t1
      cases hp : parse_expr H (str.length + 1) t1 with
      | halt h2 t2 =>
        rw [hp] at h hk
        simp only [Outcome.halt.injEq] at h
        rw [← h.2]
        exact (show t2.stdout = t1.stdout from hk).trans hout
      | ok v t2 => rw [hp] at h; cases h

theorem parse_argv_append {R : Type} (H : Host R) (pre rest : List (List Char)) (s : State R) :
    parse_argv H (pre ++ rest) s = (parse_argv H pre s).bind (fun _ s1 => parse_argv H rest s1) := by
  induction pre generalizing s with
  | nil => rfl
  | cons str pre ih =>
    simp only [List.cons_append, parse_argv]
    cases parse_str H str s with
    | halt h s1 => rfl
    | ok u s1 => exact ih s1

theorem parse_argv_lines {R : Type} (H : Host R) (argv : List (List Char)) :
    ∀ s s1 : State R, parse_argv H argv s = .ok () s1 →
      s1.stdout.length = s.stdout.length + (argv.filter (fun x => !is_empty_unit H x)).length := by
  induction argv with
  | nil => intro s s1 h; cases h; rfl
  | cons str rest ih =>
    intro s s1 h
    simp only [parse_argv] at h
    cases hp : parse_str H str s with
    | halt x t => rw [hp] at h; cases h
    | ok u t =>
      rw [hp] at h
      have h1 := parse_str_ok_stdout H str s t hp
      have h2 := ih t s1 h
      rw [h2]
      cases hb : is_empty_unit H str with
      | true =>
        rw [hb, if_pos rfl] at h1
        simp [List.filter, hb, h1]
      | false =>
        rw [hb, if_neg (by simp)] at h1
        obtain ⟨v, hv⟩ := h1
        simp [List.filter, hb, hv]
        omega

theorem next_token_unknown {R : Type} (H : Host R) {s : State R} (name k : List Char)
    (hs : s.stream = .to (name ++ k)) (hid : is_identifier name)
    (hq : find_constant name = none) (hf : find_function H name = none) (hk : no_ext k) :
    next_token H s = .ok ()
      ((warning ("Unknown name \x27" ++ String.mk name ++ "\x27, skipping") s).lexed
        s.token.kind s.token.as_ (name ++ k) k) := by
  obtain ⟨⟨c, cs, rfl, hc⟩, hall⟩ := hid
  have htake := takeWhile_append_stop isname (c :: cs) k hall (no_ext_name hk)
  have hdrop := dropWhile_append_stop isname (c :: cs) k hall (no_ext_name hk)
  have hhead : (c :: cs ++ k).headD '\x00' = c := rfl
  simp only [next_token, hs]
  generalize c :: cs ++ k = text at *
  simp only [repeat_, hhead, not_blank_of_isname (isname_of_is_name_case hc),
    not_digit_of_is_name_case hc, hc, htake, hdrop, hq, hf, if_true, Bool.false_eq_true, if_false,
    token_end, State.lexed, warning]

/-! ## Blanks, garbage and the end of the text -/

theorem repeat_nil {R : Type} (H : Host R) (n : Nat) (s : State R) :
    repeat_ H (n + 1) [] s = .ok () { s with stream := .to [] }.at_eof := by
  simp [repeat_, is_blank_case, isdigit, is_name_case, isalpha, token_end, State.at_eof]

theorem repeat_blank {R : Type} (H : Host R) (n : Nat) (text : List Char) (s : State R)
    (h : is_blank_case (text.headD '\x00') = true) :
    repeat_ H (n + 1) text s = repeat_ H n (text.dropWhile isspace)
      { s with stream := .to text, token := { s.token with start := .to text } } := by
  simp only [repeat_, h, if_true]

theorem repeat_garbage {R : Type} (H : Host R) (n : Nat) (c : Char) (rest : List Char)
    (s : State R) (hc : is_garbage c = true) :
    repeat_ H (n + 1) (c :: rest) s = repeat_ H n rest
      (warning ("Invalid \x27" ++ String.singleton c ++ "\x27 token, skipping")
        { s with stream := .to (c :: rest), token := { s.token with start := .to (c :: rest) } }) := by
  simp only [is_garbage, Bool.and_eq_true, Bool.not_eq_true', bne_iff_ne, ne_eq] at hc
  obtain ⟨⟨⟨⟨⟨⟨⟨⟨⟨⟨⟨h1, h2⟩, h3⟩, h4⟩, h5⟩, h6⟩, h7⟩, h8⟩, h9⟩, h10⟩, h11⟩, h12⟩ := hc
  have hhead : (c :: rest).headD '\x00' = c := rfl
  simp only [repeat_, hhead, h1, h2, h3, beq_iff_eq, h4, h5, h6, h7, h8, h9, h10, h11, h12,
    Bool.false_eq_true, if_false, List.tail_cons]

theorem next_token_blanks {R : Type} (H : Host R) {s : State R} (text : List Char)
    (hs : s.stream = .to text) (hb : ∀ c ∈ text, is_blank_case c = true) :
    next_token H s = .ok () s.at_eof := by
  cases text with
  | nil => exact next_token_nil H hs
  | cons c rest =>
    have hc : is_blank_case c = true := hb c (List.mem_cons_self _ _)
    have hd : (c :: rest).dropWhile isspace = [] := by
      rw [List.dropWhile_eq_nil_iff]
      intro x hx
      exact isspace_of_is_blank_case (hb x hx)
    rw [next_token_at H s _ hs, List.length_cons, repeat_blank H _ (c :: rest) _ hc, hd, repeat_nil]
    rfl

theorem repeat_reset {R : Type} (H : Host R) (n : Nat) (text : List Char) (s : State R)
    (p q : Ptr) :
    repeat_ H (n + 1) text { s with stream := p, token := { s.token with start := q } } =
      repeat_ H (n + 1) text s := by
  simp only [repeat_]

theorem next_token_garbage {R : Type} (H : Host R) {s : State R} (c : Char) (rest : List Char)
    (hs : s.stream = .to (c :: rest)) (hc : is_garbage c = true) :
    next_token H s = next_token H
      (warning ("Invalid \x27" ++ String.singleton c ++ "\x27 token, skipping")
        { s with stream := .to rest }) := by
  rw [next_token_at H s _ hs, List.length_cons, repeat_garbage H _ c rest s hc,
    next_token_at H _ rest rfl]
  exact repeat_reset H _ rest
    (warning ("Invalid \x27" ++ String.singleton c ++ "\x27 token, skipping")
      { s with stream := .to rest }) (.to (c :: rest)) (.to (c :: rest))

/-! ## The lexer apart from the state -/

theorem repeat_arm {R : Type} (H : Host R) (n : Nat) (text : List Char) (s : State R)
    (hb : is_blank_case (text.headD '\x00') = false) (hg : is_garbage (text.headD '\x00') = false) :
    repeat_ H (n + 1) text s = .ok () (s.scanned (scan_arm H text s.token.kind s.token.as_)) := by
  simp only [repeat_, scan_arm, hb, Bool.false_eq_true, if_false]
  by_cases h1 : isdigit (text.headD '\x00') = true
  · simp only [h1, if_true]
    cases sscanf_Lg text <;> simp [token_end, State.scanned]
  simp only [h1, if_false]
  by_cases h2 : is_name_case (text.headD '\x00') = true
  · simp only [h2, if_true]
    cases find_constant (List.takeWhile isname text) with
    | some q => simp [token_end, State.scanned]
    | none =>
      cases find_function H (List.takeWhile isname text) <;>
        simp [token_end, State.scanned, warning]
  simp only [h2, if_false]
  by_cases h3 : (text.headD '\x00' == '*') = true
  · simp only [h3, if_true]
    by_cases h3b : (text.tail.head? == some '*') = true
    · simp only [h3b, if_true]
      simp [token_end, State.scanned]
    · simp only [h3b, if_false]
      simp [token_end, State.scanned]
  simp only [h3, if_false]
  by_cases h4 : (text.headD '\x00' == '^') = true
  · simp only [h4, if_true]
    simp [token_end, State.scanned]
  simp only [h4, if_false]
  by_cases h5 : (text.headD '\x00' == '+') = true
  · simp only [h5, if_true]
    simp [token_end, State.scanned]
  simp only [h5, if_false]
  by_cases h6 : (text.headD '\x00' == '-') = true
  · simp only [h6, if_true]
    simp [token_end, State.scanned]
  simp only [h6, if_false]
  by_cases h7 : (text.headD '\x00' == '/') = true
  · simp only [h7, if_true]
    simp [token_end, State.scanned]
  simp only [h7, if_false]
  by_cases h8 : (text.headD '\x00' == '(') = true
  · simp only [h8, if_true]
    simp [token_end, State.scanned]
  simp only [h8, if_false]
  by_cases h9 : (text.headD '\x00' == ')') = true
  · simp only [h9, if_true]
    simp [token_end, State.scanned]
  simp only [h9, if_false]
  by_cases h10 : (text.headD '\x00' == ',') = true
  · simp only [h10, if_true]
    simp [token_end, State.scanned]
  simp only [h10, if_false]
  by_cases h11 : (text.headD '\x00' == '\x00') = true
  · simp only [h11, if_true]
    cases text <;> simp [token_end, State.scanned]
  · exfalso
    simp only [is_garbage, hb, h1, h2, Bool.not_false, Bool.and_true, Bool.true_and,
      Bool.and_eq_false_imp, Bool.and_eq_true, bne_iff_ne, ne_eq, Bool.not_eq_true,
      beq_eq_false_iff_ne] at hg h3 h4 h5 h6 h7 h8 h9 h10 h11
    simp_all

theorem garbage_ne_nil {text : List Char} (hg : is_garbage (text.headD '\x00') = true) :
    ∃ c rest, text = c :: rest := by
  cases text with
  | nil => exact absurd hg (by decide)
  | cons c rest => exact ⟨c, rest, rfl⟩

theorem scan_blank {R : Type} (H : Host R) (n : Nat) (text : List Char) (kind : TokenKind)
    (as_ : TokenAs R) (hb : is_blank_case (text.headD '\x00') = true) :
    scan H (n + 1) text kind as_ = scan H n (text.dropWhile isspace) kind as_ := by
  simp only [scan, hb, if_true]

theorem garbage_not_blank {c : Char} (hg : is_garbage c = true) : is_blank_case c = false := by
  simp only [is_garbage, Bool.and_eq_true, Bool.not_eq_true'] at hg
  exact hg.1.1.1.1.1.1.1.1.1.1.1

theorem scan_garbage {R : Type} (H : Host R) (n : Nat) (c : Char) (rest : List Char)
    (kind : TokenKind) (as_ : TokenAs R) (hg : is_garbage c = true) :
    scan H (n + 1) (c :: rest) kind as_ = (scan H n rest kind as_).map (fun r =>
      { r with warns := ("WARNING: " ++ ("Invalid \x27" ++ String.singleton c
          ++ "\x27 token, skipping")) :: r.warns }) := by
  have hhead : (c :: rest).headD '\x00' = c := rfl
  simp only [scan, hhead, garbage_not_blank hg, hg, Bool.false_eq_true, if_false, if_true,
    List.tail_cons]

theorem scan_token {R : Type} (H : Host R) (n : Nat) (text : List Char) (kind : TokenKind)
    (as_ : TokenAs R) (hb : is_blank_case (text.headD '\x00') = false)
    (hg : is_garbage (text.headD '\x00') = false) :
    scan H (n + 1) text kind as_ = some (scan_arm H text kind as_) := by
  simp only [scan, hb, hg, Bool.false_eq_true, if_false]

theorem repeat_scan {R : Type} (H : Host R) (n : Nat) :
    ∀ (text : List Char) (s : State R), text.length < n →
      ∃ r, scan H n text s.token.kind s.token.as_ = some r ∧
        repeat_ H n text s = .ok () (s.scanned r) := by
  induction n with
  | zero => intro text s h; omega
  | succ n ih =>
    intro text s h
    by_cases hb : is_blank_case (text.headD '\x00') = true
    · obtain ⟨r, hr, hrun⟩ := ih (text.dropWhile isspace)
        { s with stream := .to text, token := { s.token with start := .to text } }
        (by have := dropWhile_length_lt text hb; omega)
      refine ⟨r, ?_, ?_⟩
      · simp only [scan, hb, if_true]; exact hr
      · rw [repeat_blank H n text s hb, hrun]; rfl
    · by_cases hg : is_garbage (text.headD '\x00') = true
      · obtain ⟨c, rest, rfl⟩ := garbage_ne_nil hg
        obtain ⟨r, hr, hrun⟩ := ih rest
          (warning ("Invalid \x27" ++ String.singleton c ++ "\x27 token, skipping")
            { s with stream := .to (c :: rest),
                     token := { s.token with start := .to (c :: rest) } })
          (by simpa using h)
        have hr1 : scan H n rest s.token.kind s.token.as_ = some r := hr
        refine ⟨{ r with warns := ("WARNING: " ++ ("Invalid \x27" ++ String.singleton c
            ++ "\x27 token, skipping")) :: r.warns }, ?_, ?_⟩
        · have hhead : (c :: rest).headD '\x00' = c := rfl
          rw [hhead] at hb hg
          simp only [scan, hb, hg, if_true, Bool.false_eq_true, if_false, List.tail_cons, hr1,
            hhead, Option.map_some']
        · rw [repeat_garbage H n c rest s hg, hrun]
          simp [State.scanned, warning]
      · refine ⟨scan_arm H text s.token.kind s.token.as_, ?_, ?_⟩
        · simp only [scan, hb, hg, Bool.false_eq_true, if_false]
        · exact repeat_arm H n text s (by simpa using hb) (by simpa using hg)

theorem next_token_scan {R : Type} (H : Host R) (s : State R) (text : List Char)
    (hs : s.stream = .to text) :
    ∃ r, scan H (text.length + 1) text s.token.kind s.token.as_ = some r ∧
      next_token H s = .ok () (s.scanned r) := by
  rw [next_token_at H s text hs]
  exact repeat_scan H _ text s (Nat.lt_succ_self _)

theorem scan_fuel {R : Type} (H : Host R) (n : Nat) :
    ∀ (m : Nat) (text : List Char) (kind : TokenKind) (as_ : TokenAs R),
      text.length < n → text.length < m → scan H n text kind as_ = scan H m text kind as_ := by
  induction n with
  | zero => intro m text kind as_ h; omega
  | succ n ih =>
    intro m text kind as_ h hm
    obtain ⟨m, rfl⟩ : ∃ k, m = k + 1 := ⟨m - 1, by omega⟩
    by_cases hb : is_blank_case (text.headD '\x00') = true
    · have := dropWhile_length_lt text hb
      simp only [scan, hb, if_true]
      exact ih m _ kind as_ (by omega) (by omega)
    · by_cases hg : is_garbage (text.headD '\x00') = true
      · obtain ⟨c, rest, rfl⟩ := garbage_ne_nil hg
        simp only [scan, hb, hg, if_true, Bool.false_eq_true, if_false, List.tail_cons]
        rw [ih m rest kind as_ (by simpa using h) (by simpa using hm)]
      · simp only [scan, hb, hg, Bool.false_eq_true, if_false]

theorem length_dropWhile_le (p : Char → Bool) (l : List Char) :
    (l.dropWhile p).length ≤ l.length :=
  List.Sublist.length_le (List.dropWhile_sublist p)

theorem scan_arm_room {R : Type} (H : Host R) (text : List Char) (kind : TokenKind)
    (as_ : TokenAs R) (hb : is_blank_case (text.headD '\x00') = false)
    (hg : is_garbage (text.headD '\x00') = false) :
    (scan_arm H text kind as_).rest.room < text.length + 1 := by
  cases text with
  | nil => simp [scan_arm, isdigit, is_name_case, isalpha, Ptr.room]
  | cons c rest =>
    have hhead : (c :: rest).headD '\x00' = c := rfl
    have hd := length_dropWhile_le isdigit rest
    have hn := length_dropWhile_le isname rest
    have hl : (c :: rest).length = rest.length + 1 := rfl
    simp only [scan_arm, hhead]
    by_cases h1 : isdigit c = true
    · simp only [h1, if_true, List.dropWhile_cons_of_pos h1]
      have h3 : ((if ((List.dropWhile isdigit rest).head? == some '.') = true
          then (List.dropWhile isdigit rest).tail else List.dropWhile isdigit rest).dropWhile
            isdigit).length ≤ rest.length := by
        refine le_trans (length_dropWhile_le _ _) ?_
        split
        · simp only [List.length_tail]; omega
        · exact hd
      cases sscanf_Lg (c :: rest) <;> simp only [Ptr.room] <;> omega
    simp only [h1, Bool.false_eq_true, if_false]
    by_cases h2 : is_name_case c = true
    · have h2n := isname_of_is_name_case h2
      simp only [h2, if_true, List.dropWhile_cons_of_pos h2n]
      cases find_constant (List.takeWhile isname (c :: rest)) with
      | some q => simp only [Ptr.room]; omega
      | none =>
        cases find_function H (List.takeWhile isname (c :: rest)) <;>
          simp only [Ptr.room] <;> omega
    simp only [h2, Bool.false_eq_true, if_false, List.tail_cons]
    have ht : rest.tail.length ≤ rest.length := by simp
    repeat' split
    all_goals simp only [Ptr.room, List.length_cons]
    all_goals omega

theorem scan_room {R : Type} (H : Host R) (n : Nat) :
    ∀ (text : List Char) (kind : TokenKind) (as_ : TokenAs R) (r : Scan R),
      scan H n text kind as_ = some r → r.rest.room < text.length + 1 := by
  induction n with
  | zero => intro text kind as_ r h; simp [scan] at h
  | succ n ih =>
    intro text kind as_ r h
    by_cases hb : is_blank_case (text.headD '\x00') = true
    · simp only [scan, hb, if_true] at h
      have := ih _ kind as_ r h
      have := dropWhile_length_lt text hb
      omega
    · by_cases hg : is_garbage (text.headD '\x00') = true
      · obtain ⟨c, rest, rfl⟩ := garbage_ne_nil hg
        simp only [scan, hb, hg, if_true, Bool.false_eq_true, if_false, List.tail_cons,
          Option.map_eq_some'] at h
        obtain ⟨r0, hr0, rfl⟩ := h
        have := ih _ kind as_ r0 hr0
        simp only [List.length_cons]
        omega
      · simp only [scan, hb, hg, Bool.false_eq_true, if_false, Option.some.injEq] at h
        rw [← h]
        exact scan_arm_room H text kind as_ (by simpa using hb) (by simpa using hg)

theorem next_token_room {R : Type} (H : Host R) (s s1 : State R)
    (h : next_token H s = .ok () s1) : s1.stream.room < s.stream.room := by
  cases hs : s.stream with
  | null => rw [next_token_not_at H s (by simp [hs])] at h; cases h
  | off => rw [next_token_not_at H s (by simp [hs])] at h; cases h
  | «to» text =>
    obtain ⟨r, hr, hrun⟩ := next_token_scan H s text hs
    rw [hrun] at h
    simp only [Outcome.ok.injEq, true_and] at h
    rw [← h]
    exact scan_room H _ text _ _ r hr

/-! ## Two runs of the evaluator in related states -/

theorem relout_bind {R α β : Type} {E : Halt → State R → State R → Prop}
    {Q Q2 : State R → State R → Prop} {cost : α → Nat} {cost2 : β → Nat} {m m' m2 m2' : Nat}
    {o o' : Outcome R α} {g g' : α → State R → Outcome R β}
    (ho : RelOut E Q cost m m' o o')
    (hg : ∀ v t t', Q t t' → t.stream.room + cost v ≤ m → t'.stream.room + cost v ≤ m' →
      RelOut E Q2 cost2 m2 m2' (g v t) (g' v t')) :
    RelOut E Q2 cost2 m2 m2' (o.bind g) (o'.bind g') := by
  cases o with
  | ok v t =>
    cases o' with
    | ok v' t' =>
      obtain ⟨rfl, hq, h1, h2⟩ := ho
      exact hg v t t' hq h1 h2
    | halt h' t' => exact ho.elim
  | halt h t =>
    cases o' with
    | ok v' t' => exact ho.elim
    | halt h' t' => exact ho

theorem relout_weaken {R α : Type} {E : Halt → State R → State R → Prop}
    {Q Q2 : State R → State R → Prop} {cost cost2 : α → Nat} {m m' n n' : Nat}
    {o o' : Outcome R α} (ho : RelOut E Q cost m m' o o')
    (hq : ∀ t t', Q t t' → Q2 t t') (hc : ∀ v, cost2 v ≤ cost v) (hm : m ≤ n) (hm' : m' ≤ n') :
    RelOut E Q2 cost2 n n' o o' := by
  cases o with
  | ok v t =>
    cases o' with
    | ok v' t' =>
      obtain ⟨rfl, hq1, h1, h2⟩ := ho
      have := hc v
      exact ⟨rfl, hq _ _ hq1, by omega, by omega⟩
    | halt h' t' => exact ho.elim
  | halt h t =>
    cases o' with
    | ok v' t' => exact ho.elim
    | halt h' t' => exact ho

theorem sim_error {R α : Type} {H : Host R} {E : Halt → State R → State R → Prop}
    {Rel : (Nat → Prop) → State R → State R → Prop} (S : Sim H E Rel) {Q : State R → State R → Prop}
    {cost : α → Nat} {m m' : Nat} (A : Nat → Prop) (s s' : State R) (msg : String)
    (h : Rel A s s') : RelOut E Q cost m m' (error msg s) (error msg s') :=
  ⟨rfl, S.fail A s s' _ h⟩

theorem sim_expect_token {R : Type} {H : Host R} {E : Halt → State R → State R → Prop}
    {Rel : (Nat → Prop) → State R → State R → Prop} (S : Sim H E Rel) (k : TokenKind)
    (hk : k ≠ TOKEN_EOF) (A : Nat → Prop) (s s' : State R) (h : Rel A s s') :
    RelOut E (Rel A) (fun _ => 1) s.stream.room s'.stream.room
      (expect_token H k s) (expect_token H k s') := by
  have hkind := S.kind A s s' h
  unfold expect_token is_token
  rw [← hkind]
  split
  · rename_i hc
    exact S.next A s s' h (by rw [beq_iff_eq] at hc; rw [hc]; exact hk)
  · exact sim_error S A s s' _ h

theorem sim_match_token {R : Type} {H : Host R} {E : Halt → State R → State R → Prop}
    {Rel : (Nat → Prop) → State R → State R → Prop} (S : Sim H E Rel) (k : TokenKind)
    (hk : k ≠ TOKEN_EOF) (A : Nat → Prop) (s s' : State R) (h : Rel A s s') :
    RelOut E (Rel A) (fun b => if b then 1 else 0) s.stream.room s'.stream.room
      (match_token H k s) (match_token H k s') := by
  have hkind := S.kind A s s' h
  rw [match_token_bind, match_token_bind]
  unfold is_token
  rw [← hkind]
  split
  · rename_i hc
    refine relout_bind (S.next A s s' h (by rw [beq_iff_eq] at hc; rw [hc]; exact hk)) ?_
    intro v t t' hq h1 h2
    exact ⟨rfl, hq, h1, h2⟩
  · exact ⟨rfl, h, le_refl _, le_refl _⟩

theorem take_val_bind {R : Type} (H : Host R) (s : State R) :
    take_val H s = (next_token H s).bind (fun _ s1 => .ok (as_val H s.token.as_) s1) := by
  unfold take_val
  cases next_token H s <;> rfl

theorem sim_take_val {R : Type} {H : Host R} {E : Halt → State R → State R → Prop}
    {Rel : (Nat → Prop) → State R → State R → Prop} (S : Sim H E Rel)
    (A : Nat → Prop) (s s' : State R) (h : Rel A s s')
    (hk : s.token.kind = TOKEN_VAL ∨ s.token.kind = TOKEN_CONST) :
    RelOut E (Rel A) (fun _ => 1) s.stream.room s'.stream.room (take_val H s) (take_val H s') := by
  have has := S.as_ A s s' h
  rw [take_val_bind, take_val_bind, ← has]
  refine relout_bind (S.next A s s' h (by rcases hk with hk | hk <;> rw [hk] <;> decide)) ?_
  intro u t t' hq h1 h2
  exact ⟨rfl, hq, h1, h2⟩

theorem sim_parse_args {R : Type} {H : Host R} {E : Halt → State R → State R → Prop}
    {Rel : (Nat → Prop) → State R → State R → Prop} (S : Sim H E Rel)
    (pe pe' : State R → Outcome R R) (n n' : Nat)
    (hpe : ∀ (A : Nat → Prop) (s s' : State R), Rel A s s' → s.stream.room < n →
      s'.stream.room < n' →
      RelOut E (Rel A) (fun _ => 0) s.stream.room s'.stream.room (pe s) (pe' s'))
    (count : Nat) :
    ∀ (i : Nat) (A : Nat → Prop) (s s' : State R), Rel A s s' → s.stream.room < n →
      s'.stream.room < n' →
      (i + count ≤ MAX_FUNC_ARGS ∨ ∀ (B : Nat → Prop) (t t' : State R), Rel B t t' →
        E .undefined t t') →
      RelOut E (Rel (fun j => A j ∨ (i ≤ j ∧ j < i + count))) (fun _ => 0)
        s.stream.room s'.stream.room
        (parse_args H pe count i s) (parse_args H pe' count i s') := by
  induction count with
  | zero =>
    intro i A s s' h _ _ _
    exact ⟨rfl, S.mono A _ s s' (fun j hj => hj.elim id (fun hc => by omega)) h,
      le_refl _, le_refl _⟩
  | succ c ih =>
    intro i A s s' h hn hn' hb
    rw [parse_args_bind, parse_args_bind]
    refine relout_bind (hpe A s s' h hn hn') ?_
    intro v t t' hq h1 h2
    split
    · rename_i hi
      refine relout_bind (sim_expect_token S TOKEN_COMMA (by decide) _ _ _
        (S.store A t t' i v hq)) ?_
      intro u t2 t2' hq2 h3 h4
      simp only at h3 h4
      refine relout_weaken (ih (i + 1) _ t2 t2' hq2 (by omega) (by omega)
        (hb.elim (fun hb => Or.inl (by omega)) Or.inr)) ?_ (fun _ => le_refl _)
        (by omega) (by omega)
      intro x x' hx
      refine S.mono _ _ x x' ?_ hx
      intro j hj
      rcases hj with hj | hj
      · exact Or.inl (Or.inl hj)
      · by_cases hji : j = i
        · exact Or.inl (Or.inr hji)
        · exact Or.inr (by omega)
    · rename_i hi
      rcases hb with hb | hb
      · omega
      · exact ⟨rfl, hb A t t' hq⟩

theorem sim_parse_expr4 {R : Type} {H : Host R} {E : Halt → State R → State R → Prop}
    {Rel : (Nat → Prop) → State R → State R → Prop} (S : Sim H E Rel)
    (pe pe' : State R → Outcome R R) (n n' : Nat)
    (hpe : ∀ (A : Nat → Prop) (s s' : State R), Rel A s s' → s.stream.room < n →
      s'.stream.room < n' →
      RelOut E (Rel A) (fun _ => 0) s.stream.room s'.stream.room (pe s) (pe' s'))
    (A : Nat → Prop) (s s' : State R) (h : Rel A s s') (hn : s.stream.room ≤ n)
    (hn' : s'.stream.room ≤ n') :
    RelOut E (Rel A) (fun _ => 0) s.stream.room s'.stream.room
      (parse_expr4 H pe s) (parse_expr4 H pe' s') := by
  have hkind := S.kind A s s' h
  have has := S.as_ A s s' h
  by_cases h1 : s.token.kind = TOKEN_VAL
  · have e1 : parse_expr4 H pe s = take_val H s := by simp [parse_expr4, is_token, h1]
    have e2 : parse_expr4 H pe' s' = take_val H s' := by
      simp [parse_expr4, is_token, ← hkind, h1]
    rw [e1, e2]
    exact relout_weaken (sim_take_val S A s s' h (Or.inl h1)) (fun _ _ hq => hq)
      (fun _ => Nat.zero_le _) (le_refl _) (le_refl _)
  by_cases h2 : s.token.kind = TOKEN_CONST
  · have e1 : parse_expr4 H pe s = take_val H s := by simp [parse_expr4, is_token, h2]
    have e2 : parse_expr4 H pe' s' = take_val H s' := by
      simp [parse_expr4, is_token, ← hkind, h2]
    rw [e1, e2]
    exact relout_weaken (sim_take_val S A s s' h (Or.inr h2)) (fun _ _ hq => hq)
      (fun _ => Nat.zero_le _) (le_refl _) (le_refl _)
  by_cases h3 : s.token.kind = TOKEN_FUNC
  · cases ha : s.token.as_ with
    | val v =>
      have e1 : parse_expr4 H pe s = .halt .undefined s := by
        simp [parse_expr4, is_token, h3, ha]
      have e2 : parse_expr4 H pe' s' = .halt .undefined s' := by
        simp [parse_expr4, is_token, ← hkind, h3, ← has, ha]
      rw [e1, e2]
      exact ⟨rfl, S.junk_func A s s' v h h3 ha⟩
    | func nargs func =>
      rw [parse_expr4_func H pe s nargs func h3 ha,
        parse_expr4_func H pe' s' nargs func (by rw [← hkind]; exact h3) (by rw [← has]; exact ha)]
      have har := S.arity A s s' nargs func h h3 ha
      refine relout_bind (S.next A s s' h (by rw [h3]; decide)) ?_
      intro u t1 t1' hq1 a1 a1'
      simp only at a1 a1'
      refine relout_bind (sim_expect_token S TOKEN_LPARAM (by decide) A t1 t1' hq1) ?_
      intro u2 t2 t2' hq2 a2 a2'
      simp only at a2 a2'
      refine @relout_bind _ _ _ _ (Rel (fun j => A j ∨ (0 ≤ j ∧ j < 0 + (nargs - 1)))) _
        (fun _ => 0) _ t2.stream.room t2'.stream.room _ _ _ _ _ _ ?_ ?_
      · unfold parse_args_last
        refine relout_bind (sim_parse_args S pe pe' n n' hpe (nargs - 1) 0 A t2 t2' hq2
          (by omega) (by omega) (har.elim (fun hh => Or.inl (by omega)) Or.inr)) ?_
        intro u3 t3 t3' hq3 a3 a3'
        simp only at a3 a3'
        exact relout_weaken (hpe _ t3 t3' hq3 (by omega) (by omega)) (fun _ _ hq => hq)
          (fun _ => le_refl _) (by omega) (by omega)
      · intro v t4 t4' hq4 a4 a4'
        simp only at a4 a4'
        split
        · rename_i hr
          refine relout_bind (sim_expect_token S TOKEN_RPARAM (by decide) _ _ _
            (S.store _ t4 t4' (nargs - 1) v hq4)) ?_
          intro u5 t5 t5' hq5 a5 a5'
          simp only at a5 a5'
          refine ⟨?_, ?_, by simp only; omega, by simp only; omega⟩
          · refine S.call _ A t5 t5' s s' nargs func h h3 ha hq5 ?_
            intro i hi
            by_cases hl : i = nargs - 1
            · exact Or.inr hl
            · exact Or.inl (Or.inr (by omega))
          · refine S.count A _ _ (S.mono _ A t5 t5' ?_ hq5)
            intro i hi
            exact Or.inl (Or.inl hi)
        · rename_i hr
          rcases har with har | har
          · exact absurd har hr
          · exact ⟨rfl, har _ t4 t4' hq4⟩
  by_cases h4 : s.token.kind = TOKEN_LPARAM
  · rw [parse_expr4_paren H pe s h4, parse_expr4_paren H pe' s' (by rw [← hkind]; exact h4)]
    refine relout_bind (S.next A s s' h (by rw [h4]; decide)) ?_
    intro u t1 t1' hq1 a1 a1'
    simp only at a1 a1'
    refine relout_bind (hpe A t1 t1' hq1 (by omega) (by omega)) ?_
    intro v t2 t2' hq2 a2 a2'
    simp only at a2 a2'
    refine relout_bind (sim_expect_token S TOKEN_RPARAM (by decide) A t2 t2' hq2) ?_
    intro u3 t3 t3' hq3 a3 a3'
    simp only at a3 a3'
    exact ⟨rfl, hq3, by simp only; omega, by simp only; omega⟩
  · rw [parse_expr4_other H pe s h1 h2 h3 h4, parse_expr4_other H pe' s'
      (by rw [← hkind]; exact h1) (by rw [← hkind]; exact h2) (by rw [← hkind]; exact h3)
      (by rw [← hkind]; exact h4)]
    exact sim_error S A s s' _ h

theorem sim_parse_expr3 {R : Type} {H : Host R} {E : Halt → State R → State R → Prop}
    {Rel : (Nat → Prop) → State R → State R → Prop} (S : Sim H E Rel)
    (pe pe' : State R → Outcome R R) (n n' : Nat)
    (hpe : ∀ (A : Nat → Prop) (s s' : State R), Rel A s s' → s.stream.room < n →
      s'.stream.room < n' →
      RelOut E (Rel A) (fun _ => 0) s.stream.room s'.stream.room (pe s) (pe' s'))
    (A : Nat → Prop) (fuel : Nat) :
    ∀ (fuel' : Nat) (s s' : State R), Rel A s s' → s.stream.room < fuel →
      s'.stream.room < fuel' → s.stream.room ≤ n → s'.stream.room ≤ n' →
      RelOut E (Rel A) (fun _ => 0) s.stream.room s'.stream.room
        (parse_expr3 H pe fuel s) (parse_expr3 H pe' fuel' s') := by
  induction fuel with
  | zero => intro fuel' s s' _ h; omega
  | succ f ih =>
    intro fuel' s s' h hf hf' hn hn'
    obtain ⟨f', rfl⟩ : ∃ k, fuel' = k + 1 := ⟨fuel' - 1, by omega⟩
    rw [parse_expr3_bind, parse_expr3_bind]
    refine relout_bind (sim_match_token S TOKEN_SUB (by decide) A s s' h) ?_
    intro b t t' hq a1 a1'
    cases b with
    | true =>
      simp only [if_true] at a1 a1' ⊢
      refine relout_bind (ih f' t t' hq (by omega) (by omega) (by omega) (by omega)) ?_
      intro v t2 t2' hq2 a2 a2'
      simp only at a2 a2'
      exact ⟨rfl, hq2, by simp only; omega, by simp only; omega⟩
    | false =>
      simp only [Bool.false_eq_true, if_false] at a1 a1' ⊢
      refine relout_bind (sim_match_token S TOKEN_ADD (by decide) A t t' hq) ?_
      intro b2 t2 t2' hq2 a2 a2'
      cases b2 with
      | true =>
        simp only [if_true] at a2 a2' ⊢
        exact relout_weaken (ih f' t2 t2' hq2 (by omega) (by omega) (by omega) (by omega))
          (fun _ _ hq => hq) (fun _ => le_refl _) (by omega) (by omega)
      | false =>
        simp only [Bool.false_eq_true, if_false] at a2 a2' ⊢
        exact relout_weaken (sim_parse_expr4 S pe pe' n n' hpe A t2 t2' hq2 (by omega)
          (by omega)) (fun _ _ hq => hq) (fun _ => le_refl _) (by omega) (by omega)

theorem sim_parse_expr2 {R : Type} {H : Host R} {E : Halt → State R → State R → Prop}
    {Rel : (Nat → Prop) → State R → State R → Prop} (S : Sim H E Rel)
    (pe pe' : State R → Outcome R R) (n n' : Nat)
    (hpe : ∀ (A : Nat → Prop) (s s' : State R), Rel A s s' → s.stream.room < n →
      s'.stream.room < n' →
      RelOut E (Rel A) (fun _ => 0) s.stream.room s'.stream.room (pe s) (pe' s'))
    (A : Nat → Prop) (s s' : State R) (h : Rel A s s') (hn : s.stream.room ≤ n)
    (hn' : s'.stream.room ≤ n') :
    RelOut E (Rel A) (fun _ => 0) s.stream.room s'.stream.room
      (parse_expr2 H pe (n + 1) s) (parse_expr2 H pe' (n' + 1) s') := by
  have hloop : ∀ (loops loops' : Nat) (val : R) (s s' : State R), Rel A s s' →
      s.stream.room < loops → s'.stream.room < loops' → s.stream.room ≤ n →
      s'.stream.room ≤ n' →
      RelOut E (Rel A) (fun _ => 0) s.stream.room s'.stream.room
        (parse_expr2_loop H pe (n + 1) loops val s)
        (parse_expr2_loop H pe' (n' + 1) loops' val s') := by
    intro loops
    induction loops with
    | zero => intro loops' val s s' _ h; omega
    | succ l ih =>
      intro loops' val s s' h hl hl' hn hn'
      obtain ⟨l', rfl⟩ : ∃ k, loops' = k + 1 := ⟨loops' - 1, by omega⟩
      have hkind := S.kind A s s' h
      rw [parse_expr2_loop_bind, parse_expr2_loop_bind]
      unfold is_token
      rw [← hkind]
      split
      · rename_i hc
        refine relout_bind (S.next A s s' h (by rw [beq_iff_eq] at hc; rw [hc]; decide)) ?_
        intro u t t' hq a1 a1'
        simp only at a1 a1'
        refine relout_bind (sim_parse_expr3 S pe pe' n n' hpe A (n + 1) (n' + 1) t t' hq
          (by omega) (by omega) (by omega) (by omega)) ?_
        intro v t2 t2' hq2 a2 a2'
        simp only at a2 a2'
        exact relout_weaken (ih l' _ t2 t2' hq2 (by omega) (by omega) (by omega) (by omega))
          (fun _ _ hq => hq) (fun _ => le_refl _) (by omega) (by omega)
      · exact ⟨rfl, h, le_refl _, le_refl _⟩
  rw [parse_expr2_eq, parse_expr2_eq, body2, body2]
  refine relout_bind (sim_parse_expr3 S pe pe' n n' hpe A (n + 1) (n' + 1) s s' h
    (by omega) (by omega) hn hn') ?_
  intro v t t' hq a1 a1'
  simp only at a1 a1'
  exact relout_weaken (hloop _ _ v t t' hq (by omega) (by omega) (by omega) (by omega))
    (fun _ _ hq => hq) (fun _ => le_refl _) (by omega) (by omega)

theorem sim_parse_expr1 {R : Type} {H : Host R} {E : Halt → State R → State R → Prop}
    {Rel : (Nat → Prop) → State R → State R → Prop} (S : Sim H E Rel)
    (pe pe' : State R → Outcome R R) (n n' : Nat)
    (hpe : ∀ (A : Nat → Prop) (s s' : State R), Rel A s s' → s.stream.room < n →
      s'.stream.room < n' →
      RelOut E (Rel A) (fun _ => 0) s.stream.room s'.stream.room (pe s) (pe' s'))
    (A : Nat → Prop) (s s' : State R) (h : Rel A s s') (hn : s.stream.room ≤ n)
    (hn' : s'.stream.room ≤ n') :
    RelOut E (Rel A) (fun _ => 0) s.stream.room s'.stream.room
      (parse_expr1 H pe (n + 1) s) (parse_expr1 H pe' (n' + 1) s') := by
  have hloop : ∀ (loops loops' : Nat) (val : R) (s s' : State R), Rel A s s' →
      s.stream.room < loops → s'.stream.room < loops' → s.stream.room ≤ n →
      s'.stream.room ≤ n' →
      RelOut E (Rel A) (fun _ => 0) s.stream.room s'.stream.room
        (parse_expr1_loop H pe (n + 1) loops val s)
        (parse_expr1_loop H pe' (n' + 1) loops' val s') := by
    intro loops
    induction loops with
    | zero => intro loops' val s s' _ h; omega
    | succ l ih =>
      intro loops' val s s' h hl hl' hn hn'
      obtain ⟨l', rfl⟩ : ∃ k, loops' = k + 1 := ⟨loops' - 1, by omega⟩
      have hkind := S.kind A s s' h
      rw [parse_expr1_loop_bind, parse_expr1_loop_bind]
      unfold is_token
      rw [← hkind]
      split
      · rename_i hc
        refine relout_bind (S.next A s s' h (by
          intro he; rw [he] at hc; exact absurd hc (by decide))) ?_
        intro u t t' hq a1 a1'
        simp only at a1 a1'
        refine relout_bind (sim_parse_expr2 S pe pe' n n' hpe A t t' hq
          (by omega) (by omega)) ?_
        intro v t2 t2' hq2 a2 a2'
        simp only at a2 a2'
        split
        · exact relout_weaken (ih l' _ t2 t2' hq2 (by omega) (by omega) (by omega) (by omega))
            (fun _ _ hq => hq) (fun _ => le_refl _) (by omega) (by omega)
        · exact relout_weaken (ih l' _ t2 t2' hq2 (by omega) (by omega) (by omega) (by omega))
            (fun _ _ hq => hq) (fun _ => le_refl _) (by omega) (by omega)
      · exact ⟨rfl, h, le_refl _, le_refl _⟩
  rw [parse_expr1_eq, parse_expr1_eq, body1, body1]
  refine relout_bind (sim_parse_expr2 S pe pe' n n' hpe A s s' h hn hn') ?_
  intro v t t' hq a1 a1'
  simp only at a1 a1'
  exact relout_weaken (hloop _ _ v t t' hq (by omega) (by omega) (by omega) (by omega))
    (fun _ _ hq => hq) (fun _ => le_refl _) (by omega) (by omega)

theorem sim_parse_expr {R : Type} {H : Host R} {E : Halt → State R → State R → Prop}
    {Rel : (Nat → Prop) → State R → State R → Prop} (S : Sim H E Rel) (n : Nat) :
    ∀ (n' : Nat) (A : Nat → Prop) (s s' : State R), Rel A s s' → s.stream.room < n →
      s'.stream.room < n' →
      RelOut E (Rel A) (fun _ => 0) s.stream.room s'.stream.room
        (parse_expr H n s) (parse_expr H n' s') := by
  induction n with
  | zero => intro n' A s s' _ h; omega
  | succ f ihf =>
    intro n' A s s' h hn hn'
    obtain ⟨f', rfl⟩ : ∃ k, n' = k + 1 := ⟨n' - 1, by omega⟩
    have hpe := ihf f'
    have hloop : ∀ (loops loops' : Nat) (val : R) (s s' : State R), Rel A s s' →
        s.stream.room < loops → s'.stream.room < loops' → s.stream.room ≤ f →
        s'.stream.room ≤ f' →
        RelOut E (Rel A) (fun _ => 0) s.stream.room s'.stream.room
          (parse_expr_loop H (parse_expr H f) (f + 1) loops val s)
          (parse_expr_loop H (parse_expr H f') (f' + 1) loops' val s') := by
      intro loops
      induction loops with
      | zero => intro loops' val s s' _ h; omega
      | succ l ih =>
        intro loops' val s s' h hl hl' hn hn'
        obtain ⟨l', rfl⟩ : ∃ k, loops' = k + 1 := ⟨loops' - 1, by omega⟩
        have hkind := S.kind A s s' h
        rw [parse_expr_loop_bind, parse_expr_loop_bind]
        unfold is_token
        rw [← hkind]
        split
        · rename_i hc
          refine relout_bind (S.next A s s' h (by
            intro he; rw [he] at hc; exact absurd hc (by decide))) ?_
          intro u t t' hq a1 a1'
          simp only at a1 a1'
          refine relout_bind (sim_parse_expr1 S _ _ f f' hpe A t t' hq
            (by omega) (by omega)) ?_
          intro v t2 t2' hq2 a2 a2'
          simp only at a2 a2'
          split
          · exact relout_weaken (ih l' _ t2 t2' hq2 (by omega) (by omega) (by omega) (by omega))
              (fun _ _ hq => hq) (fun _ => le_refl _) (by omega) (by omega)
          · exact relout_weaken (ih l' _ t2 t2' hq2 (by omega) (by omega) (by omega) (by omega))
              (fun _ _ hq => hq) (fun _ => le_refl _) (by omega) (by omega)
        · exact ⟨rfl, h, le_refl _, le_refl _⟩
    rw [parse_expr_succ, parse_expr_succ, body0, body0]
    refine relout_bind (sim_parse_expr1 S _ _ f f' hpe A s s' h (by omega) (by omega)) ?_
    intro v t t' hq a1 a1'
    simp only at a1 a1'
    exact relout_weaken (hloop _ _ v t t' hq (by omega) (by omega) (by omega) (by omega))
      (fun _ _ hq => hq) (fun _ => le_refl _) (by omega) (by omega)

theorem parse_str_bind {R : Type} (H : Host R) (str : List Char) (s : State R) :
    parse_str H str s = (next_token H { s with token := nul H, stream := .to str }).bind
      (fun _ s1 => if s1.token.kind = TOKEN_EOF then .ok () s1
        else (parse_expr H (str.length + 1) s1).bind
          (fun val s2 => .ok () { s2 with stdout := s2.stdout ++ [val] })) := by
  unfold parse_str
  cases next_token H { s with token := nul H, stream := .to str } with
  | halt h s1 => rfl
  | ok u s1 =>
    simp only [bind_ok, is_token]
    by_cases hk : s1.token.kind = TOKEN_EOF
    · simp [hk]
    · simp only [hk, if_false, beq_iff_eq, Bool.not_false, if_true, Bool.not_eq_true']
      have : (s1.token.kind == TOKEN_EOF) = false := by simpa using hk
      simp only [this, Bool.not_false, if_true]
      cases parse_expr H (str.length + 1) s1 <;> rfl

theorem sim_parse_str {R : Type} {H : Host R} {E : Halt → State R → State R → Prop}
    {Rel : (Nat → Prop) → State R → State R → Prop} (S : Sim H E Rel) (A : Nat → Prop)
    (str str' : List Char) (s s' : State R)
    (h : Rel A { s with token := nul H, stream := .to str }
      { s' with token := nul H, stream := .to str' }) :
    RelOut E (Rel A) (fun _ => 0) (str.length + 1) (str'.length + 1)
      (parse_str H str s) (parse_str H str' s') := by
  rw [parse_str_bind, parse_str_bind]
  refine relout_bind (S.next A _ _ h (by simp [nul])) ?_
  intro u t t' hq a1 a1'
  have e1 : (Ptr.to str).room = str.length + 1 := rfl
  have e2 : (Ptr.to str').room = str'.length + 1 := rfl
  simp only [e1, e2] at a1 a1'
  have hkind := S.kind A t t' hq
  rw [← hkind]
  split
  · exact ⟨rfl, hq, by simp only; omega, by simp only; omega⟩
  · refine relout_bind (sim_parse_expr S _ _ A t t' hq (by omega) (by omega)) ?_
    intro v t2 t2' hq2 a2 a2'
    simp only at a2 a2'
    exact ⟨rfl, S.print A t2 t2' v hq2, by simp only; omega, by simp only; omega⟩

/-! ## What the lexer leaves in the token -/

theorem scan_arm_sound {R : Type} (H : Host R) (text : List Char) (kind : TokenKind)
    (as_ : TokenAs R) : (scan_arm H text kind as_).sound H kind as_ := by
  unfold scan_arm Scan.sound
  by_cases h1 : isdigit (text.headD '\x00') = true
  · simp only [h1, if_true]
    cases sscanf_Lg text with
    | some q => exact Or.inr (Or.inr (Or.inl ⟨rfl, Or.inl ⟨q, rfl⟩⟩))
    | none => exact Or.inr (Or.inr (Or.inl ⟨rfl, Or.inr rfl⟩))
  simp only [h1, Bool.false_eq_true, if_false]
  by_cases h2 : is_name_case (text.headD '\x00') = true
  · simp only [h2, if_true]
    cases hc : find_constant (List.takeWhile isname text) with
    | some q => exact Or.inr (Or.inl ⟨rfl, q, rfl⟩)
    | none =>
      cases hf : find_function H (List.takeWhile isname text) with
      | some nf => exact Or.inl ⟨rfl, _, nf.1, nf.2, hf, rfl⟩
      | none => exact Or.inr (Or.inr (Or.inr (Or.inl ⟨rfl, rfl⟩)))
  simp only [h2, Bool.false_eq_true, if_false]
  refine Or.inr (Or.inr (Or.inr (Or.inr ?_)))
  repeat' split
  all_goals exact ⟨fun h => TokenKind.noConfusion h, fun h => TokenKind.noConfusion h,
    fun h => TokenKind.noConfusion h, rfl⟩

theorem scan_sound {R : Type} (H : Host R) (n : Nat) :
    ∀ (text : List Char) (kind : TokenKind) (as_ : TokenAs R) (r : Scan R),
      scan H n text kind as_ = some r → r.sound H kind as_ := by
  induction n with
  | zero => intro text kind as_ r h; simp [scan] at h
  | succ n ih =>
    intro text kind as_ r h
    by_cases hb : is_blank_case (text.headD '\x00') = true
    · simp only [scan, hb, if_true] at h
      exact ih _ kind as_ r h
    · by_cases hg : is_garbage (text.headD '\x00') = true
      · simp only [scan, hb, hg, if_true, Bool.false_eq_true, if_false,
          Option.map_eq_some'] at h
        obtain ⟨r0, hr0, rfl⟩ := h
        exact ih _ kind as_ r0 hr0
      · simp only [scan, hb, hg, Bool.false_eq_true, if_false, Option.some.injEq] at h
        rw [← h]
        exact scan_arm_sound H text kind as_

theorem find_function_mem {R : Type} (H : Host R) (name : List Char) (n : Nat) (f : List R → R)
    (h : find_function H name = some (n, f)) : ∃ nm, (nm, n, f) ∈ functions H := by
  unfold find_function at h
  simp only [Option.map_eq_some'] at h
  obtain ⟨entry, he, h2⟩ := h
  refine ⟨entry.1, ?_⟩
  have := List.mem_of_find?_eq_some he
  rw [← h2]
  exact this

theorem torad_reads_own {R : Type} (H : Host R) : (TokenAs.func 1 (torad H)).reads_own := by
  intro a b hab
  have h0 := hab 0 (by decide)
  simp only [torad, List.getD_eq_getElem?_getD, h0]

theorem regular_functions {R : Type} (H : Host R) (hH : H.regular) (nm : String) (n : Nat)
    (f : List R → R) (h : (nm, n, f) ∈ functions H) :
    0 < n ∧ n ≤ MAX_FUNC_ARGS ∧ (TokenAs.func n f).reads_own := by
  unfold functions at h
  rw [List.mem_append] at h
  rcases h with h | h
  · exact hH _ h
  · simp only [List.mem_singleton, Prod.mk.injEq] at h
    obtain ⟨-, rfl, rfl⟩ := h
    exact ⟨by decide, by decide, torad_reads_own H⟩

theorem sound_reads_own {R : Type} (H : Host R) (hH : H.regular) (kind : TokenKind)
    (as_ : TokenAs R) (r : Scan R) (h : r.sound H kind as_) (ha : as_.reads_own) :
    r.as_.reads_own := by
  rcases h with ⟨-, name, n, f, hf, hr⟩ | ⟨-, q, hr⟩ | ⟨-, ⟨q, hr⟩ | hr⟩ | ⟨-, hr⟩ | ⟨-, -, -, hr⟩
  · rw [hr]
    obtain ⟨nm, hm⟩ := find_function_mem H name n f hf
    exact (regular_functions H hH nm n f hm).2.2
  · rw [hr]; exact trivial
  · rw [hr]; exact trivial
  · rw [hr]; exact ha
  · rw [hr]; exact ha
  · rw [hr]; exact ha

/-! ## Runs in states that are alike -/

theorem alike_mono {R : Type} {p p' : List R} {q q' : List String} (A B : Nat → Prop)
    (s s' : State R) (hAB : ∀ i, B i → A i) (h : Alike p p' q q' A s s') :
    Alike p p' q q' B s s' :=
  { h with args := fun i hi => h.args i (hAB i hi) }

theorem alike_next {R : Type} (H : Host R) (hH : H.regular) (p p' : List R)
    (q q' : List String) (A : Nat → Prop) (s s' : State R) (h : Alike p p' q q' A s s') :
    RelOut (fun _ t t' => Alike p p' q q' (fun _ => False) t t') (Alike p p' q q' A)
      (fun _ => 1) s.stream.room s'.stream.room (next_token H s) (next_token H s') := by
  have key : ∀ x, s.stream = x →
      RelOut (fun _ t t' => Alike p p' q q' (fun _ => False) t t') (Alike p p' q q' A)
        (fun _ => 1) s.stream.room s'.stream.room (next_token H s) (next_token H s') := by
    intro x hs
    have hs' : s'.stream = x := by rw [← h.stream]; exact hs
    cases x with
    | null =>
      rw [next_token_not_at H s (by simp [hs]), next_token_not_at H s' (by simp [hs'])]
      exact ⟨rfl, alike_mono A _ s s' (fun _ hf => hf.elim) h⟩
    | off =>
      rw [next_token_not_at H s (by simp [hs]), next_token_not_at H s' (by simp [hs'])]
      exact ⟨rfl, alike_mono A _ s s' (fun _ hf => hf.elim) h⟩
    | «to» text =>
      obtain ⟨r, hr, hrun⟩ := next_token_scan H s text hs
      obtain ⟨r', hr', hrun'⟩ := next_token_scan H s' text hs'
      rw [← h.kind, ← h.as_, hr] at hr'
      simp only [Option.some.injEq] at hr'
      subst hr'
      rw [hrun, hrun']
      have hroom := scan_room H _ text _ _ r hr
      obtain ⟨d, hd, hd'⟩ := h.stdout
      obtain ⟨e, he, he'⟩ := h.stderr
      refine ⟨rfl, ?_, ?_, ?_⟩
      · exact { kind := rfl, as_ := rfl, stream := rfl, len := h.len, len' := h.len',
                args := h.args, stdout := ⟨d, hd, hd'⟩,
                stderr := ⟨e ++ r.warns, by simp [State.scanned, he],
                  by simp [State.scanned, he']⟩,
                own := sound_reads_own H hH _ _ r (scan_sound H _ text _ _ r hr) h.own }
      · rw [hs]
        show r.rest.room + 1 ≤ text.length + 1
        omega
      · rw [hs']
        show r.rest.room + 1 ≤ text.length + 1
        omega
  exact key _ rfl

theorem alike_sim {R : Type} (H : Host R) (hH : H.regular) (p p' : List R)
    (q q' : List String) :
    Sim H (fun _ t t' => Alike p p' q q' (fun _ => False) t t') (Alike p p' q q') where
  mono := alike_mono
  kind := fun _ _ _ h => h.kind
  as_ := fun _ _ _ h => h.as_
  next := fun A s s' h _ => alike_next H hH p p' q q' A s s' h
  store := fun A s s' i v h =>
    { h with
      len := by simp [h.len]
      len' := by simp [h.len']
      args := by
        intro j hj
        simp only [List.getElem?_set, h.len, h.len']
        split
        · rfl
        · rcases hj with hj | hj
          · exact h.args j hj
          · omega }
  call := by
    intro A B s s' t t' n f ht _ hta h hA
    have := ht.own
    rw [hta] at this
    exact this s.args s'.args (fun i hi => h.args i (hA i hi))
  count := fun _ _ _ h => { h with }
  print := by
    intro A s s' v h
    obtain ⟨d, hd, hd'⟩ := h.stdout
    exact { h with stdout := ⟨d ++ [v], by simp [hd], by simp [hd']⟩ }
  fail := by
    intro A s s' line h
    obtain ⟨e, he, he'⟩ := h.stderr
    exact { alike_mono A _ s s' (fun _ hf => hf.elim) h with
            stderr := ⟨e ++ [line], by simp [he], by simp [he']⟩ }
  junk_func := fun A s s' _ h _ _ => alike_mono A _ s s' (fun _ hf => hf.elim) h
  arity := fun _ _ _ _ _ _ _ _ => Or.inr (fun B t t' h => alike_mono B _ t t' (fun _ hf => hf.elim) h)

theorem alike_parse_str {R : Type} (H : Host R) (hH : H.regular) (str : List Char)
    (s s' : State R) (hs : s.args.length = MAX_FUNC_ARGS) (hs' : s'.args.length = MAX_FUNC_ARGS) :
    RelOut (fun _ t t' => Alike s.stdout s'.stdout s.stderr s'.stderr (fun _ => False) t t')
      (Alike s.stdout s'.stdout s.stderr s'.stderr (fun _ => False)) (fun _ => 0)
      (str.length + 1) (str.length + 1) (parse_str H str s) (parse_str H str s') :=
  sim_parse_str (alike_sim H hH s.stdout s'.stdout s.stderr s'.stderr) _ str str s s'
    { kind := rfl, as_ := rfl, stream := rfl, len := hs, len' := hs',
      args := fun _ hf => hf.elim, stdout := ⟨[], by simp, by simp⟩,
      stderr := ⟨[], by simp, by simp⟩, own := trivial }

theorem same_run_of_alike {R : Type} (s s' : State R) (A : Nat → Prop) (m m' : Nat)
    (o o' : Outcome R Unit)
    (h : RelOut (fun _ t t' => Alike s.stdout s'.stdout s.stderr s'.stderr (fun _ => False) t t')
      (Alike s.stdout s'.stdout s.stderr s'.stderr A) (fun _ => 0) m m' o o') :
    SameRun s s' o o' := by
  cases o with
  | ok v t =>
    cases o' with
    | ok v' t' => exact ⟨h.2.1.stdout, h.2.1.stderr⟩
    | halt h' t' => exact h.elim
  | halt x t =>
    cases o' with
    | ok v' t' => exact h.elim
    | halt x' t' => exact ⟨h.1, h.2.stdout, h.2.stderr⟩

theorem rat_host_regular : rat_host.regular := by
  intro entry he
  simp only [rat_host, rat_functions_c, List.mem_cons, List.mem_singleton, List.not_mem_nil,
    or_false] at he
  rcases he with rfl | rfl | rfl | rfl | rfl | rfl | rfl
  all_goals refine ⟨by decide, by decide, ?_⟩
  all_goals intro a b hab
  all_goals have h0 := hab 0 (by decide)
  · simp only [List.getD_eq_getElem?_getD, h0]
  · simp only [List.getD_eq_getElem?_getD, h0]
  · simp only [List.getD_eq_getElem?_getD, h0]
  · simp only [List.getD_eq_getElem?_getD, h0]
  · have h1 := hab 1 (by decide); simp only [List.getD_eq_getElem?_getD, h0, h1]
  · have h1 := hab 1 (by decide); simp only [List.getD_eq_getElem?_getD, h0, h1]
  · have h1 := hab 1 (by decide); simp only [List.getD_eq_getElem?_getD, h0, h1]

/-! ## Where the lexer leaves the cursor -/

theorem scan_arm_rest {R : Type} (H : Host R) (text : List Char) (kind : TokenKind)
    (as_ : TokenAs R) :
    (∃ u, (scan_arm H text kind as_).rest = .to u ∧ u <:+ text) ∨
    ((scan_arm H text kind as_).rest = .off ∧ (scan_arm H text kind as_).kind = TOKEN_EOF) := by
  have hd : ∀ l : List Char, l.dropWhile isdigit <:+ l := fun l => List.dropWhile_suffix _
  have htl : ∀ l : List Char, l.tail <:+ l := fun l => List.tail_suffix l
  unfold scan_arm
  by_cases h1 : isdigit (text.headD '\x00') = true
  · simp only [h1, if_true]
    have h3 : (if ((List.dropWhile isdigit text).head? == some '.') = true
        then (List.dropWhile isdigit text).tail else List.dropWhile isdigit text).dropWhile
          isdigit <:+ text := by
      refine (hd _).trans ?_
      split
      · exact (htl _).trans (hd _)
      · exact hd _
    cases sscanf_Lg text <;> exact Or.inl ⟨_, rfl, h3⟩
  simp only [h1, Bool.false_eq_true, if_false]
  by_cases h2 : is_name_case (text.headD '\x00') = true
  · simp only [h2, if_true]
    have h3 : text.dropWhile isname <:+ text := List.dropWhile_suffix _
    cases find_constant (List.takeWhile isname text) with
    | some q => exact Or.inl ⟨_, rfl, h3⟩
    | none =>
      cases find_function H (List.takeWhile isname text) <;> exact Or.inl ⟨_, rfl, h3⟩
  simp only [h2, Bool.false_eq_true, if_false]
  repeat' split
  all_goals first
    | exact Or.inl ⟨_, rfl, htl _⟩
    | exact Or.inl ⟨_, rfl, (htl _).trans (htl _)⟩
    | exact Or.inr ⟨rfl, rfl⟩
    | exact Or.inl ⟨_, rfl, List.suffix_cons _ _⟩

theorem scan_rest {R : Type} (H : Host R) (n : Nat) :
    ∀ (text : List Char) (kind : TokenKind) (as_ : TokenAs R) (r : Scan R),
      scan H n text kind as_ = some r →
      (∃ u, r.rest = .to u ∧ u <:+ text) ∨ (r.rest = .off ∧ r.kind = TOKEN_EOF) := by
  induction n with
  | zero => intro text kind as_ r h; simp [scan] at h
  | succ n ih =>
    intro text kind as_ r h
    by_cases hb : is_blank_case (text.headD '\x00') = true
    · rw [scan_blank H n text kind as_ hb] at h
      rcases ih _ kind as_ r h with ⟨u, hu, hs⟩ | hoff
      · exact Or.inl ⟨u, hu, hs.trans (List.dropWhile_suffix _)⟩
      · exact Or.inr hoff
    · by_cases hg : is_garbage (text.headD '\x00') = true
      · obtain ⟨c, rest, rfl⟩ := garbage_ne_nil hg
        rw [scan_garbage H n c rest kind as_ hg] at h
        simp only [Option.map_eq_some'] at h
        obtain ⟨r0, hr0, rfl⟩ := h
        rcases ih _ kind as_ r0 hr0 with ⟨u, hu, hs⟩ | hoff
        · exact Or.inl ⟨u, hu, hs.trans (List.suffix_cons _ _)⟩
        · exact Or.inr hoff
      · rw [scan_token H n text kind as_ (by simpa using hb) (by simpa using hg)] at h
        simp only [Option.some.injEq] at h
        rw [← h]
        exact scan_arm_rest H text kind as_

/-! ## Runs at related texts -/

theorem twin_next {R : Type} (H : Host R) (C : List Char → List Char → Prop)
    (hC : LexCompat H C) (p p' : List R) (q q' : List String) (s s' : State R)
    (h : Twin C p p' q q' s s') (hk : s.token.kind ≠ TOKEN_EOF) :
    RelOut (fun _ t t' => TwinOut p p' q q' t t') (Twin C p p' q q')
      (fun _ => 1) s.stream.room s'.stream.room (next_token H s) (next_token H s') := by
  obtain ⟨t, t', hs, hs', hc⟩ := h.cursor hk
  obtain ⟨r, hr, hrun⟩ := next_token_scan H s t hs
  obtain ⟨r', hr', hk', ha', hw', hrest⟩ := hC t t' _ _ r hc hr
  obtain ⟨r2, hr2, hrun'⟩ := next_token_scan H s' t' hs'
  rw [← h.kind, ← h.as_, hr'] at hr2
  simp only [Option.some.injEq] at hr2
  subst hr2
  rw [hrun, hrun']
  have hroom := scan_room H _ t _ _ r hr
  have hroom' := scan_room H _ t' _ _ r' hr'
  obtain ⟨d, hd, hd'⟩ := h.stdout
  obtain ⟨e, he, he'⟩ := h.stderr
  refine ⟨rfl, ?_, ?_, ?_⟩
  · exact { kind := hk'.symm, as_ := ha'.symm, args := h.args, stdout := ⟨d, hd, hd'⟩,
            stderr := ⟨e ++ r.warns, by simp [State.scanned, he],
              by simp [State.scanned, he', hw']⟩,
            cursor := hrest }
  · rw [hs]
    show r.rest.room + 1 ≤ t.length + 1
    omega
  · rw [hs']
    show r'.rest.room + 1 ≤ t'.length + 1
    omega

theorem twin_out {R : Type} {C : List Char → List Char → Prop} {p p' : List R}
    {q q' : List String} {s s' : State R} (h : Twin C p p' q q' s s') :
    TwinOut p p' q q' s s' := ⟨h.stdout, h.stderr⟩

theorem twin_sim {R : Type} (H : Host R) (C : List Char → List Char → Prop)
    (hC : LexCompat H C) (p p' : List R) (q q' : List String) :
    Sim H (fun _ t t' => TwinOut p p' q q' t t') (fun _ => Twin C p p' q q') where
  mono := fun _ _ _ _ _ h => h
  kind := fun _ _ _ h => h.kind
  as_ := fun _ _ _ h => h.as_
  next := fun _ s s' h hk => twin_next H C hC p p' q q' s s' h hk
  store := fun _ s s' i v h => { h with args := by simp [h.args] }
  call := by
    intro A B s s' t t' n f _ _ _ h _
    rw [h.args]
  count := fun _ _ _ h => { h with }
  print := by
    intro A s s' v h
    obtain ⟨d, hd, hd'⟩ := h.stdout
    exact { h with stdout := ⟨d ++ [v], by simp [hd], by simp [hd']⟩ }
  fail := by
    intro A s s' line h
    obtain ⟨e, he, he'⟩ := h.stderr
    exact ⟨h.stdout, ⟨e ++ [line], by simp [he], by simp [he']⟩⟩
  junk_func := fun _ _ _ _ h _ _ => twin_out h
  arity := fun _ _ _ _ _ _ _ _ => Or.inr (fun _ _ _ h => twin_out h)

theorem lexcompat_eq {R : Type} (H : Host R) : LexCompat H (fun t t' => t = t') := by
  intro t t' kind as_ r hc hr
  subst hc
  refine ⟨r, hr, rfl, rfl, rfl, ?_⟩
  intro hk
  rcases scan_rest H _ t kind as_ r hr with ⟨u, hu, -⟩ | ⟨-, hoff⟩
  · exact ⟨u, u, hu, hu, rfl⟩
  · exact absurd hoff hk

/-! ## An unknown name at the start of an expression -/

theorem num_value_digit (c : Char) (hc : isdigit c = true) :
    num_value [c] none = ((c.toNat - 48 : Nat) : ℚ) := by
  simp [num_value, digits_value, digit_value, hc]

theorem parse_str_of_first {R : Type} (H : Host R) (str : List Char) (s u : State R)
    (h1 : next_token H { s with token := nul H, stream := .to str } = .ok () u)
    (h2 : u.token.kind ≠ TOKEN_EOF) :
    parse_str H str s = (parse_expr H (str.length + 1) u).bind
      (fun val s2 => .ok () { s2 with stdout := s2.stdout ++ [val] }) := by
  rw [parse_str_bind, h1, bind_ok, if_neg h2]

theorem unknown_name_as_zero {R : Type} (H : Host R) (name k : List Char) (s : State R)
    (hid : is_identifier name) (hq : find_constant name = none)
    (hf : find_function H name = none) (hk : no_ext k) :
    RelOut (fun _ t t' => TwinOut s.stdout s.stdout
        (s.stderr ++ ["WARNING: " ++ ("Unknown name \x27" ++ String.mk name ++ "\x27, skipping")])
        s.stderr t t')
      (Twin (fun t t' => t = t') s.stdout s.stdout
        (s.stderr ++ ["WARNING: " ++ ("Unknown name \x27" ++ String.mk name ++ "\x27, skipping")])
        s.stderr)
      (fun _ => 0) (k.length + 1) (k.length + 1)
      (parse_str H (name ++ k) s) (parse_str H ('0' :: k) s) := by
  have h1 := next_token_unknown H (s := { s with token := nul H, stream := .to (name ++ k) })
    name k rfl hid hq hf hk
  have h2 := next_token_num H (s := { s with token := nul H, stream := .to ('0' :: k) })
    ['0'] none k rfl (by simp) (by simp [isdigit]) (by simp) hk
  rw [parse_str_of_first H _ s _ h1 (by simp [State.lexed, warning, nul]),
    parse_str_of_first H _ s _ h2 (by simp [State.lexed])]
  have hz : num_value ['0'] none = 0 := by
    rw [num_value_digit '0' (by decide)]; simp
  have hrel : Twin (fun t t' => t = t') s.stdout s.stdout
      (s.stderr ++ ["WARNING: " ++ ("Unknown name \x27" ++ String.mk name ++ "\x27, skipping")])
      s.stderr
      ((warning ("Unknown name \x27" ++ String.mk name ++ "\x27, skipping")
          { s with token := nul H, stream := .to (name ++ k) }).lexed
        ({ s with token := nul H, stream := .to (name ++ k) } : State R).token.kind
        ({ s with token := nul H, stream := .to (name ++ k) } : State R).token.as_ (name ++ k) k)
      (({ s with token := nul H, stream := .to ('0' :: k) } : State R).lexed TOKEN_VAL
        (.val (H.ofRat (num_value ['0'] none))) (num_text ['0'] none ++ k) k) :=
    { kind := rfl
      as_ := by simp [State.lexed, nul, hz]
      args := rfl
      stdout := ⟨[], by simp [State.lexed, warning], by simp [State.lexed]⟩
      stderr := ⟨[], by simp [State.lexed, warning], by simp [State.lexed]⟩
      cursor := fun _ => ⟨k, k, rfl, rfl, rfl⟩ }
  have hname : 0 < name.length := by
    obtain ⟨⟨c, rest, rfl, -⟩, -⟩ := hid
    simp
  refine relout_bind (sim_parse_expr (twin_sim H _ (lexcompat_eq H) _ _ _ _) _ _
    (fun _ => True) _ _ hrel ?_ ?_) ?_
  · show k.length + 1 < (name ++ k).length + 1
    simp only [List.length_append]; omega
  · show k.length + 1 < ('0' :: k).length + 1
    simp only [List.length_cons]; omega
  · intro v t t' hq a1 a1'
    refine ⟨rfl, (twin_sim H _ (lexcompat_eq H) _ _ _ _).print (fun _ => True) t t' v hq, ?_, ?_⟩
    · exact a1
    · exact a1'

theorem unknown_name_prints {R : Type} (H : Host R) (name k : List Char) (s t' : State R)
    (hid : is_identifier name) (hq : find_constant name = none)
    (hf : find_function H name = none) (hk : no_ext k)
    (h : parse_str H ('0' :: k) s = .ok () t') (herr : t'.stderr = s.stderr) :
    ∃ t, parse_str H (name ++ k) s = .ok () t ∧ t.stdout = t'.stdout ∧
      t.stderr = s.stderr ++
        ["WARNING: " ++ ("Unknown name \x27" ++ String.mk name ++ "\x27, skipping")] := by
  have hrel := unknown_name_as_zero H name k s hid hq hf hk
  rw [h] at hrel
  cases h2 : parse_str H (name ++ k) s with
  | halt x t => rw [h2] at hrel; exact hrel.elim
  | ok u t =>
    rw [h2] at hrel
    obtain ⟨-, htw, -, -⟩ := hrel
    obtain ⟨d, hd, hd'⟩ := htw.stdout
    obtain ⟨e, he, he'⟩ := htw.stderr
    have : e = [] := by
      rw [herr] at he'
      simpa using he'
    subst this
    exact ⟨t, rfl, by rw [hd, hd'], by simpa using he⟩

/-! ## The cursor stays in the text -/

theorem nul_free_suffix {u t : List Char} (h : u <:+ t) (ht : nul_free t) : nul_free u :=
  fun c hc => ht c (h.subset hc)

theorem scan_arm_eof {R : Type} (H : Host R) (text : List Char) (kind : TokenKind)
    (as_ : TokenAs R) (hb : is_blank_case (text.headD '\x00') = false)
    (hg : is_garbage (text.headD '\x00') = false) (hk : kind ≠ TOKEN_EOF) (ht : nul_free text)
    (he : (scan_arm H text kind as_).kind = TOKEN_EOF) :
    (scan_arm H text kind as_).rest = .off := by
  cases text with
  | nil => simp [scan_arm, isdigit, is_name_case, isalpha]
  | cons c rest =>
    exfalso
    have hc : c ≠ '\x00' := ht c (List.mem_cons_self _ _)
    have hhead : (c :: rest).headD '\x00' = c := rfl
    rw [hhead] at hb hg
    simp only [scan_arm, hhead] at he
    by_cases h1 : isdigit c = true
    · simp only [h1, if_true] at he
      cases hsc : sscanf_Lg (c :: rest) <;> rw [hsc] at he <;> cases he
    simp only [h1, Bool.false_eq_true, if_false] at he
    by_cases h2 : is_name_case c = true
    · simp only [h2, if_true] at he
      cases hfc : find_constant (List.takeWhile isname (c :: rest)) with
      | some q => rw [hfc] at he; cases he
      | none =>
        rw [hfc] at he
        cases hff : find_function H (List.takeWhile isname (c :: rest)) with
        | some nf => rw [hff] at he; cases he
        | none => rw [hff] at he; exact hk he
    simp only [h2, Bool.false_eq_true, if_false] at he
    by_cases h3 : (c == '*') = true
    · simp only [h3, if_true] at he
      split at he <;> cases he
    simp only [h3, Bool.false_eq_true, if_false] at he
    by_cases h4 : (c == '^') = true
    · simp only [h4, if_true] at he; cases he
    simp only [h4, Bool.false_eq_true, if_false] at he
    by_cases h5 : (c == '+') = true
    · simp only [h5, if_true] at he; cases he
    simp only [h5, Bool.false_eq_true, if_false] at he
    by_cases h6 : (c == '-') = true
    · simp only [h6, if_true] at he; cases he
    simp only [h6, Bool.false_eq_true, if_false] at he
    by_cases h7 : (c == '/') = true
    · simp only [h7, if_true] at he; cases he
    simp only [h7, Bool.false_eq_true, if_false] at he
    by_cases h8 : (c == '(') = true
    · simp only [h8, if_true] at he; cases he
    simp only [h8, Bool.false_eq_true, if_false] at he
    by_cases h9 : (c == ')') = true
    · simp only [h9, if_true] at he; cases he
    simp only [h9, Bool.false_eq_true, if_false] at he
    by_cases h10 : (c == ',') = true
    · simp only [h10, if_true] at he; cases he
    simp only [is_garbage, hb, h1, h2, Bool.not_false, Bool.and_true, Bool.true_and,
      Bool.and_eq_false_imp, Bool.and_eq_true, bne_iff_ne, ne_eq, Bool.not_eq_true,
      beq_eq_false_iff_ne, beq_iff_eq] at hg h3 h4 h5 h6 h7 h8 h9 h10
    simp_all

theorem scan_eof {R : Type} (H : Host R) (n : Nat) :
    ∀ (text : List Char) (kind : TokenKind) (as_ : TokenAs R) (r : Scan R),
      kind ≠ TOKEN_EOF → nul_free text → scan H n text kind as_ = some r →
      r.kind = TOKEN_EOF → r.rest = .off := by
  induction n with
  | zero => intro text kind as_ r _ _ h; simp [scan] at h
  | succ n ih =>
    intro text kind as_ r hk ht h he
    by_cases hb : is_blank_case (text.headD '\x00') = true
    · rw [scan_blank H n text kind as_ hb] at h
      exact ih _ kind as_ r hk (nul_free_suffix (List.dropWhile_suffix _) ht) h he
    · by_cases hg : is_garbage (text.headD '\x00') = true
      · obtain ⟨c, rest, rfl⟩ := garbage_ne_nil hg
        rw [scan_garbage H n c rest kind as_ hg] at h
        simp only [Option.map_eq_some'] at h
        obtain ⟨r0, hr0, rfl⟩ := h
        exact ih _ kind as_ r0 hk (nul_free_suffix (List.suffix_cons _ _) ht) hr0 he
      · rw [scan_token H n text kind as_ (by simpa using hb) (by simpa using hg)] at h
        simp only [Option.some.injEq] at h
        subst h
        exact scan_arm_eof H text kind as_ (by simpa using hb) (by simpa using hg) hk ht he

theorem sane_scanned {R : Type} (H : Host R) (hH : H.regular) (s : State R) (t : List Char)
    (r : Scan R) (hs : Sane s) (hk0 : s.token.kind ≠ TOKEN_EOF) (ht : nul_free t)
    (hr : scan H (t.length + 1) t s.token.kind s.token.as_ = some r) : Sane (s.scanned r) := by
  refine ⟨?_, ?_, ?_⟩
  · intro hk
    rcases scan_rest H _ t _ _ r hr with ⟨u, hu, hsuf⟩ | ⟨-, hoff⟩
    · exact ⟨u, hu, nul_free_suffix hsuf ht⟩
    · exact absurd hoff hk
  · intro hk
    exact scan_eof H _ t _ _ r hk0 ht hr hk
  · intro hk
    have hk' : r.kind = TOKEN_FUNC := hk
    rcases scan_sound H _ t _ _ r hr with
      ⟨-, name, n, f, hf, ha⟩ | ⟨hc, -⟩ | ⟨hc, -⟩ | ⟨hc, ha⟩ | ⟨-, -, hc, -⟩
    · obtain ⟨nm, hm⟩ := find_function_mem H name n f hf
      have := regular_functions H hH nm n f hm
      exact ⟨n, f, ha, this.1, this.2.1⟩
    · rw [hk'] at hc; cases hc
    · rw [hk'] at hc; cases hc
    · rw [hk'] at hc
      obtain ⟨n, f, h1, h2⟩ := hs.func hc.symm
      exact ⟨n, f, by show r.as_ = _; rw [ha]; exact h1, h2⟩
    · exact absurd hk' hc

theorem sane_sim {R : Type} (H : Host R) (hH : H.regular) :
    Sim H (fun h t t' => t = t' ∧ Sane t ∧ (Outcome.halt h t : Outcome R Unit).in_text)
      (fun _ s s' => s = s' ∧ Sane s) where
  mono := fun _ _ _ _ _ h => h
  kind := fun _ _ _ h => by rw [h.1]
  as_ := fun _ _ _ h => by rw [h.1]
  next := by
    intro A s s' h hk
    obtain ⟨rfl, hs⟩ := h
    obtain ⟨t, hst, hnf⟩ := hs.cursor hk
    obtain ⟨r, hr, hrun⟩ := next_token_scan H s t hst
    rw [hrun]
    have hroom := scan_room H _ t _ _ r hr
    refine ⟨rfl, ⟨rfl, sane_scanned H hH s t r hs hk hnf hr⟩, ?_, ?_⟩
    · rw [hst]
      show r.rest.room + 1 ≤ t.length + 1
      omega
    · rw [hst]
      show r.rest.room + 1 ≤ t.length + 1
      omega
  store := fun _ s s' i v h => by
    obtain ⟨rfl, hs⟩ := h
    exact ⟨rfl, ⟨hs.cursor, hs.eof, hs.func⟩⟩
  call := by
    intro A B s s' t t' n f _ _ _ h _
    rw [h.1]
  count := fun _ s s' h => by
    obtain ⟨rfl, hs⟩ := h
    exact ⟨rfl, ⟨hs.cursor, hs.eof, hs.func⟩⟩
  print := fun _ s s' v h => by
    obtain ⟨rfl, hs⟩ := h
    exact ⟨rfl, ⟨hs.cursor, hs.eof, hs.func⟩⟩
  fail := fun _ s s' line h => by
    obtain ⟨rfl, hs⟩ := h
    exact ⟨rfl, ⟨hs.cursor, hs.eof, hs.func⟩, rfl⟩
  junk_func := by
    intro A s s' v h hk ha
    obtain ⟨rfl, hs⟩ := h
    obtain ⟨n, f, h1, -⟩ := hs.func hk
    rw [ha] at h1
    cases h1
  arity := by
    intro A s s' n f h hk ha
    obtain ⟨rfl, hs⟩ := h
    obtain ⟨n1, f1, h1, h2⟩ := hs.func hk
    rw [ha] at h1
    simp only [TokenAs.func.injEq] at h1
    obtain ⟨rfl, -⟩ := h1
    exact Or.inl h2

theorem sane_parse_str {R : Type} (H : Host R) (hH : H.regular) (str : List Char)
    (hstr : nul_free str) (s : State R) :
    (parse_str H str s).in_text ∧ Sane (parse_str H str s).state := by
  have h := sim_parse_str (sane_sim H hH) (fun _ => True) str str s s
    ⟨rfl, ⟨fun _ => ⟨str, rfl, hstr⟩, fun hk => by simp [nul] at hk,
      fun hk => by simp [nul] at hk⟩⟩
  cases ho : parse_str H str s with
  | ok u t =>
    rw [ho] at h
    exact ⟨trivial, h.2.1.2⟩
  | halt x t =>
    rw [ho] at h
    exact ⟨h.2.2.2, h.2.2.1⟩

/-! ## The two spellings of the power operator -/

theorem caret_star_star (rest : List Char) : caret ('*' :: '*' :: rest) = '^' :: caret rest := by
  simp [caret]

theorem caret_cons_of_ne (c : Char) (rest : List Char) (hc : c ≠ '*') :
    caret (c :: rest) = c :: caret rest := by
  cases rest with
  | nil => simp [caret]
  | cons d rest => simp [caret, hc]

theorem caret_star_of_ne (rest : List Char) (hr : rest.head? ≠ some '*') :
    caret ('*' :: rest) = '*' :: caret rest := by
  cases rest with
  | nil => simp [caret]
  | cons d rest =>
    have : d ≠ '*' := by simpa using hr
    simp [caret, this]

theorem caret_cons (c : Char) (rest : List Char) (h : c ≠ '*' ∨ rest.head? ≠ some '*') :
    caret (c :: rest) = c :: caret rest := by
  by_cases hc : c = '*'
  · subst hc
    exact caret_star_of_ne rest (h.resolve_left (fun hn => hn rfl))
  · exact caret_cons_of_ne c rest hc

theorem caret_ind (P : List Char → Prop) (h0 : P [])
    (h1 : ∀ r, P r → P ('*' :: '*' :: r))
    (h2 : ∀ c r, (c ≠ '*' ∨ r.head? ≠ some '*') → P r → P (c :: r)) : ∀ t, P t := by
  intro t
  obtain ⟨n, hn⟩ : ∃ n, t.length = n := ⟨_, rfl⟩
  induction n using Nat.strong_induction_on generalizing t with
  | _ n ih =>
    cases t with
    | nil => exact h0
    | cons c r =>
      by_cases hc : c = '*' ∧ r.head? = some '*'
      · obtain ⟨rfl, hr⟩ := hc
        cases r with
        | nil => simp at hr
        | cons d r2 =>
          simp only [List.head?_cons, Option.some.injEq] at hr
          subst hr
          exact h1 r2 (ih r2.length (by subst hn; simp only [List.length_cons]; omega) r2 rfl)
      · have hc' : c ≠ '*' ∨ r.head? ≠ some '*' := by
          by_cases h : c = '*'
          · exact Or.inr (fun hr => hc ⟨h, hr⟩)
          · exact Or.inl h
        exact h2 c r hc' (ih r.length (by subst hn; simp only [List.length_cons]; omega) r rfl)

theorem caret_takeWhile (p : Char → Bool) (hs : p '*' = false) (hc : p '^' = false) :
    ∀ t, (caret t).takeWhile p = t.takeWhile p := by
  refine caret_ind _ rfl ?_ ?_
  · intro r _
    rw [caret_star_star]
    simp [List.takeWhile, hs, hc]
  · intro c r h ih
    rw [caret_cons c r h]
    simp only [List.takeWhile_cons, ih]

theorem caret_dropWhile (p : Char → Bool) (hs : p '*' = false) (hc : p '^' = false) :
    ∀ t, (caret t).dropWhile p = caret (t.dropWhile p) := by
  refine caret_ind _ rfl ?_ ?_
  · intro r _
    rw [caret_star_star]
    simp [List.dropWhile, hs, hc, caret_star_star]
  · intro c r h ih
    rw [caret_cons c r h]
    simp only [List.dropWhile_cons]
    split
    · exact ih
    · rw [caret_cons c r h]

theorem caret_head (d : Char) (hs : d ≠ '*') (hc : d ≠ '^') :
    ∀ t, ((caret t).head? == some d) = (t.head? == some d) := by
  refine caret_ind _ rfl ?_ ?_
  · intro r _
    rw [caret_star_star]
    have h1 : ('^' == d) = false := by simpa using fun h => hc h.symm
    have h2 : ('*' == d) = false := by simpa using fun h => hs h.symm
    simp [h1, h2]
  · intro c r h _
    rw [caret_cons c r h]
    rfl

theorem caret_head_star : ∀ t : List Char, t.head? ≠ some '*' → (caret t).head? ≠ some '*' := by
  intro t ht
  cases t with
  | nil => simp [caret]
  | cons c r =>
    have hc : c ≠ '*' := by simpa using ht
    rw [caret_cons_of_ne c r hc]
    simpa using hc

theorem caret_tail (d : Char) (hs : d ≠ '*') (t : List Char) (ht : (t.head? == some d) = true) :
    (caret t).tail = caret t.tail := by
  cases t with
  | nil => rfl
  | cons c r =>
    have hc : c = d := by simpa using ht
    subst hc
    rw [caret_cons_of_ne c r hs]
    rfl

theorem caret_length_le : ∀ t : List Char, (caret t).length ≤ t.length := by
  refine caret_ind _ (le_refl _) ?_ ?_
  · intro r ih
    rw [caret_star_star]
    simp only [List.length_cons]
    omega
  · intro c r h ih
    rw [caret_cons c r h]
    simp only [List.length_cons]
    omega

theorem caret_cases (t : List Char) :
    t = [] ∨ (∃ r, t = '*' :: '*' :: r) ∨
      ∃ c r, t = c :: r ∧ (c ≠ '*' ∨ r.head? ≠ some '*') := by
  refine caret_ind (fun t => t = [] ∨ (∃ r, t = '*' :: '*' :: r) ∨
      ∃ c r, t = c :: r ∧ (c ≠ '*' ∨ r.head? ≠ some '*')) (Or.inl rfl) ?_ ?_ t
  · intro r _
    exact Or.inr (Or.inl ⟨r, rfl⟩)
  · intro c r h _
    exact Or.inr (Or.inr ⟨c, r, rfl, h⟩)

theorem caret_tail_if (d : Char) (hs : d ≠ '*') (hc : d ≠ '^') (t : List Char) :
    (if (caret t).head? == some d then (caret t).tail else caret t) =
      caret (if t.head? == some d then t.tail else t) := by
  rw [caret_head d hs hc t]
  by_cases h : (t.head? == some d) = true
  · rw [if_pos h, if_pos h, caret_tail d hs t h]
  · rw [if_neg h, if_neg h]

theorem scan_exponent_caret (lower upper : Char) (hl : lower ≠ '*') (hl' : lower ≠ '^')
    (hu : upper ≠ '*') (hu' : upper ≠ '^') (t : List Char) :
    scan_exponent lower upper (caret t) = scan_exponent lower upper t := by
  rcases caret_cases t with rfl | ⟨r, rfl⟩ | ⟨c, r, rfl, h⟩
  · rfl
  · rw [caret_star_star]
    have e1 : ('^' == lower) = false := by simpa using fun h => hl' h.symm
    have e2 : ('^' == upper) = false := by simpa using fun h => hu' h.symm
    have e3 : ('*' == lower) = false := by simpa using fun h => hl h.symm
    have e4 : ('*' == upper) = false := by simpa using fun h => hu h.symm
    simp [scan_exponent, e1, e2, e3, e4]
  · rw [caret_cons c r h]
    simp only [scan_exponent]
    rw [caret_head '-' (by decide) (by decide) r, caret_head '+' (by decide) (by decide) r]
    have hb : (if (r.head? == some '-' || r.head? == some '+') = true then (caret r).tail
        else caret r) =
        caret (if (r.head? == some '-' || r.head? == some '+') = true then r.tail else r) := by
      by_cases h1 : (r.head? == some '-') = true
      · simp only [h1, Bool.true_or, if_true]
        exact caret_tail '-' (by decide) r h1
      · by_cases h2 : (r.head? == some '+') = true
        · simp only [h2, Bool.or_true, if_true]
          exact caret_tail '+' (by decide) r h2
        · simp only [h1, h2, Bool.or_self, if_false, Bool.false_eq_true]
    rw [hb, caret_takeWhile isdigit (by decide) (by decide)]

theorem scan_decimal_caret (t : List Char) : scan_decimal (caret t) = scan_decimal t := by
  simp only [scan_decimal]
  rw [caret_takeWhile isdigit (by decide) (by decide),
    caret_dropWhile isdigit (by decide) (by decide),
    caret_head '.' (by decide) (by decide)]
  by_cases h : ((t.dropWhile isdigit).head? == some '.') = true
  · simp only [h, if_true]
    rw [caret_tail '.' (by decide) _ h, caret_takeWhile isdigit (by decide) (by decide),
      caret_dropWhile isdigit (by decide) (by decide),
      scan_exponent_caret 'e' 'E' (by decide) (by decide) (by decide) (by decide)]
  · simp only [h, if_false, Bool.false_eq_true]
    rw [scan_exponent_caret 'e' 'E' (by decide) (by decide) (by decide) (by decide)]

theorem scan_hex_caret (t : List Char) : scan_hex (caret t) = scan_hex t := by
  simp only [scan_hex]
  rw [caret_takeWhile isxdigit (by decide) (by decide),
    caret_dropWhile isxdigit (by decide) (by decide),
    caret_head '.' (by decide) (by decide)]
  by_cases h : ((t.dropWhile isxdigit).head? == some '.') = true
  · simp only [h, if_true]
    rw [caret_tail '.' (by decide) _ h, caret_takeWhile isxdigit (by decide) (by decide),
      caret_dropWhile isxdigit (by decide) (by decide),
      scan_exponent_caret 'p' 'P' (by decide) (by decide) (by decide) (by decide)]
  · simp only [h, if_false, Bool.false_eq_true]
    rw [scan_exponent_caret 'p' 'P' (by decide) (by decide) (by decide) (by decide)]

theorem sscanf_Lg_eq (t : List Char) :
    sscanf_Lg t = if t.head? == some '0' && (t.tail.head? == some 'x' || t.tail.head? == some 'X')
      then scan_hex t.tail.tail else scan_decimal t := by
  cases t with
  | nil => rfl
  | cons c r =>
    cases r with
    | nil => simp [sscanf_Lg]
    | cons x rest => simp [sscanf_Lg]

theorem sscanf_Lg_caret (t : List Char) : sscanf_Lg (caret t) = sscanf_Lg t := by
  rw [sscanf_Lg_eq, sscanf_Lg_eq, caret_head '0' (by decide) (by decide)]
  by_cases h : (t.head? == some '0') = true
  · rw [caret_tail '0' (by decide) t h, caret_head 'x' (by decide) (by decide),
      caret_head 'X' (by decide) (by decide)]
    by_cases h1 : (t.tail.head? == some 'x') = true
    · simp only [h, h1, Bool.true_or, Bool.and_self, if_true]
      rw [caret_tail 'x' (by decide) _ h1, scan_hex_caret]
    · by_cases h2 : (t.tail.head? == some 'X') = true
      · simp only [h, h2, Bool.or_true, Bool.and_self, if_true]
        rw [caret_tail 'X' (by decide) _ h2, scan_hex_caret]
      · simp only [h1, h2, Bool.or_self, Bool.and_false, if_false, Bool.false_eq_true]
        exact scan_decimal_caret t
  · simp only [h, Bool.false_and, if_false, Bool.false_eq_true]
    exact scan_decimal_caret t

theorem scan_arm_caret {R : Type} (H : Host R) (t : List Char) (kind : TokenKind)
    (as_ : TokenAs R) : scan_arm H (caret t) kind as_ = (scan_arm H t kind as_).caret := by
  rcases caret_cases t with h | ⟨r, h⟩ | ⟨c, r, h, hc⟩
  · subst h
    rfl
  · subst h
    rw [caret_star_star]
    simp [scan_arm, isdigit, is_name_case, isalpha, Scan.caret, Ptr.caret, caret_star_star]
  · have hcar : caret t = c :: caret r := by rw [h, caret_cons c r hc]
    have hh : (caret t).headD '\x00' = c := by rw [hcar]; rfl
    have hh' : t.headD '\x00' = c := by rw [h]; rfl
    simp only [scan_arm, hh, hh']
    by_cases h1 : isdigit c = true
    · simp only [h1, if_true]
      rw [caret_dropWhile isdigit (by decide) (by decide),
        caret_tail_if '.' (by decide) (by decide),
        caret_dropWhile isdigit (by decide) (by decide), sscanf_Lg_caret]
      cases sscanf_Lg t <;> simp [Scan.caret, Ptr.caret]
    simp only [h1, Bool.false_eq_true, if_false]
    by_cases h2 : is_name_case c = true
    · simp only [h2, if_true]
      rw [caret_dropWhile isname (by decide) (by decide),
        caret_takeWhile isname (by decide) (by decide)]
      cases find_constant (List.takeWhile isname t) with
      | some q => simp [Scan.caret, Ptr.caret]
      | none =>
        cases find_function H (List.takeWhile isname t) <;> simp [Scan.caret, Ptr.caret]
    simp only [h2, Bool.false_eq_true, if_false]
    have htl : (caret t).tail = caret t.tail := by rw [hcar, h]; rfl
    by_cases h3 : (c == '*') = true
    · have hcs : c = '*' := by simpa using h3
      have hr : r.head? ≠ some '*' := hc.resolve_left (fun hn => hn hcs)
      have e1 : ((caret t.tail).head? == some '*') = false := by
        rw [h]
        simpa using caret_head_star r hr
      have e2 : (t.tail.head? == some '*') = false := by
        rw [h]
        simpa using hr
      simp only [h3, if_true, htl, e1, e2, Bool.false_eq_true, if_false]
      simp [Scan.caret, Ptr.caret]
    simp only [h3, Bool.false_eq_true, if_false, htl]
    subst h
    rw [hcar]
    dsimp only
    repeat' split
    all_goals simp [Scan.caret, Ptr.caret, hcar]

theorem caret_headD_blank (t : List Char) :
    is_blank_case ((caret t).headD '\x00') = is_blank_case (t.headD '\x00') := by
  rcases caret_cases t with h | ⟨r, h⟩ | ⟨c, r, h, hc⟩
  · subst h; rfl
  · subst h; rw [caret_star_star]; rfl
  · subst h; rw [caret_cons c r hc]; rfl

theorem caret_headD_garbage (t : List Char) :
    is_garbage ((caret t).headD '\x00') = is_garbage (t.headD '\x00') := by
  rcases caret_cases t with h | ⟨r, h⟩ | ⟨c, r, h, hc⟩
  · subst h; rfl
  · subst h; rw [caret_star_star]; rfl
  · subst h; rw [caret_cons c r hc]; rfl

theorem scan_caret {R : Type} (H : Host R) (n : Nat) :
    ∀ (m : Nat) (t : List Char) (kind : TokenKind) (as_ : TokenAs R),
      t.length < n → (caret t).length < m →
      scan H m (caret t) kind as_ = (scan H n t kind as_).map Scan.caret := by
  induction n with
  | zero => intro m t kind as_ h; omega
  | succ n ih =>
    intro m t kind as_ h hm
    obtain ⟨m, rfl⟩ : ∃ k, m = k + 1 := ⟨m - 1, by omega⟩
    by_cases hb : is_blank_case (t.headD '\x00') = true
    · have hb' := hb
      rw [← caret_headD_blank] at hb'
      have l1 := dropWhile_length_lt t hb
      have l2 := dropWhile_length_lt (caret t) hb'
      simp only [scan, hb, hb', if_true]
      rw [caret_dropWhile isspace (by decide) (by decide)] at l2 ⊢
      exact ih m _ kind as_ (by omega) (by omega)
    · by_cases hg : is_garbage (t.headD '\x00') = true
      · have hb' := hb
        rw [← caret_headD_blank] at hb'
        have hg' := hg
        rw [← caret_headD_garbage] at hg'
        obtain ⟨c, rest, rfl⟩ := garbage_ne_nil hg
        have hcs : c ≠ '*' := by
          intro hcs
          subst hcs
          simp [is_garbage] at hg
        have hcar := caret_cons_of_ne c rest hcs
        rw [hcar] at hb' hg' hm ⊢
        simp only [scan, hb, hg, hb', hg', if_true, Bool.false_eq_true, if_false, List.tail_cons]
        rw [ih m rest kind as_ (by simpa using h) (by simpa using hm)]
        cases scan H n rest kind as_ <;> simp [Scan.caret]
      · have hb' := hb
        rw [← caret_headD_blank] at hb'
        have hg' := hg
        rw [← caret_headD_garbage] at hg'
        simp only [scan, hb, hg, hb', hg', Bool.false_eq_true, if_false, Option.map_some']
        rw [scan_arm_caret]

theorem lexcompat_caret {R : Type} (H : Host R) : LexCompat H (fun t t' => t' = caret t) := by
  intro t t' kind as_ r hC h
  subst hC
  have hl := caret_length_le t
  refine ⟨r.caret, ?_, rfl, rfl, rfl, ?_⟩
  · rw [scan_caret H (t.length + 1) _ t kind as_ (by omega) (by omega), h]
    rfl
  · intro hk
    rcases scan_rest H _ t kind as_ r h with ⟨u, hu, _⟩ | ⟨_, hk'⟩
    · exact ⟨u, caret u, hu, by simp [Scan.caret, Ptr.caret, hu], rfl⟩
    · exact absurd hk' hk

theorem lone_star_stars (r : List Char) : lone_star ('*' :: '*' :: r) = lone_star r := by
  simp [lone_star]

theorem lone_star_cons (c : Char) (r : List Char) (h : c ≠ '*' ∨ r.head? ≠ some '*')
    (hr : r ≠ []) : lone_star (c :: r) = lone_star r := by
  cases r with
  | nil => exact absurd rfl hr
  | cons d r2 =>
    have hcd : ¬ (c = '*' ∧ d = '*') := by
      rintro ⟨h1, h2⟩
      rcases h with h | h
      · exact h h1
      · exact h (by simp [h2])
    simp only [lone_star, Bool.and_eq_true, beq_iff_eq, hcd, if_false]

theorem caret_append : ∀ (pre x : List Char), lone_star pre = false →
    caret (pre ++ x) = caret pre ++ caret x := by
  refine caret_ind (fun pre => ∀ x : List Char, lone_star pre = false →
    caret (pre ++ x) = caret pre ++ caret x) ?_ ?_ ?_
  · intro x _
    rfl
  · intro r ih x h
    rw [lone_star_stars] at h
    simp only [List.cons_append, caret_star_star, ih x h]
  · intro c r hc ih x h
    cases r with
    | nil =>
      have hcs : c ≠ '*' := by
        intro hcs
        subst hcs
        simp [lone_star] at h
      simp only [List.cons_append, List.nil_append, caret_cons_of_ne c x hcs]
      rfl
    | cons d r2 =>
      rw [lone_star_cons c (d :: r2) hc (List.cons_ne_nil d r2)] at h
      have hc' : c ≠ '*' ∨ ((d :: r2) ++ x).head? ≠ some '*' := by
        rcases hc with hc | hc
        · exact Or.inl hc
        · exact Or.inr (by simpa using hc)
      rw [List.cons_append, caret_cons c _ hc', caret_cons c _ hc, ih x h]
      rfl

theorem caret_spellings (pre post : List Char) (h : lone_star pre = false) :
    caret (pre ++ '^' :: post) = caret (pre ++ '*' :: '*' :: post) := by
  rw [caret_append pre _ h, caret_append pre _ h, caret_star_star,
    caret_cons_of_ne '^' post (by decide)]

theorem twin_token_kinds {R : Type} (H : Host R) (C : List Char → List Char → Prop)
    (hC : LexCompat H C) (p p' : List R) (q q' : List String) (n : Nat) :
    ∀ (n' : Nat) (s s' : State R), Twin C p p' q q' s s' → s.token.kind ≠ TOKEN_EOF →
      s.stream.room < n → s'.stream.room < n' → token_kinds H n s = token_kinds H n' s' := by
  induction n with
  | zero => intro n' s s' _ _ h; omega
  | succ n ih =>
    intro n' s s' h hk hn hn'
    obtain ⟨n', rfl⟩ : ∃ k, n' = k + 1 := ⟨n' - 1, by omega⟩
    have hnext := twin_next H C hC p p' q q' s s' h hk
    simp only [token_kinds]
    cases ho : next_token H s with
    | ok v t =>
      cases ho' : next_token H s' with
      | ok v' t' =>
        rw [ho, ho'] at hnext
        obtain ⟨_, ht, hr, hr'⟩ := hnext
        have hr : t.stream.room + 1 ≤ s.stream.room := hr
        have hr' : t'.stream.room + 1 ≤ s'.stream.room := hr'
        simp only
        rw [← ht.kind]
        by_cases hk2 : t.token.kind = TOKEN_EOF
        · simp only [hk2, if_true]
        · simp only [hk2, if_false]
          rw [ih n' t t' ht hk2 (by omega) (by omega)]
      | halt x' t' =>
        rw [ho, ho'] at hnext
        exact hnext.elim
    | halt x t =>
      cases ho' : next_token H s' with
      | ok v' t' =>
        rw [ho, ho'] at hnext
        exact hnext.elim
      | halt x' t' => rfl

theorem kinds_of_caret {R : Type} (H : Host R) (t : List Char) :
    kinds_of H t = kinds_of H (caret t) := by
  have hl := caret_length_le t
  refine twin_token_kinds H _ (lexcompat_caret H) [] [] [] [] _ _ _ _ ?_ ?_ ?_ ?_
  · exact
      { kind := rfl, as_ := rfl, args := rfl, stdout := ⟨[], rfl, rfl⟩, stderr := ⟨[], rfl, rfl⟩,
        cursor := fun _ => ⟨t, caret t, rfl, rfl, rfl⟩ }
  · exact fun h => TokenKind.noConfusion h
  · show t.length + 1 < t.length + 2
    omega
  · show (caret t).length + 1 < (caret t).length + 2
    omega

theorem seen_caret {R : Type} (H : Host R) (t : List Char) (s : State R) :
    (parse_str H t s).seen = (parse_str H (caret t) s).seen := by
  have h := sim_parse_str (twin_sim H _ (lexcompat_caret H) s.stdout s.stdout s.stderr s.stderr)
    (fun _ => False) t (caret t) s s
    { kind := rfl, as_ := rfl, args := rfl, stdout := ⟨[], by simp, by simp⟩,
      stderr := ⟨[], by simp, by simp⟩, cursor := fun _ => ⟨t, caret t, rfl, rfl, rfl⟩ }
  cases ho : parse_str H t s with
  | ok v u =>
    cases ho' : parse_str H (caret t) s with
    | ok v' u' =>
      rw [ho, ho'] at h
      obtain ⟨_, hu, _, _⟩ := h
      obtain ⟨d, h1, h2⟩ := hu.stdout
      obtain ⟨e, h3, h4⟩ := hu.stderr
      simp only [Outcome.seen, h1, h2, h3, h4]
    | halt x' u' =>
      rw [ho, ho'] at h
      exact h.elim
  | halt x u =>
    cases ho' : parse_str H (caret t) s with
    | ok v' u' =>
      rw [ho, ho'] at h
      exact h.elim
    | halt x' u' =>
      rw [ho, ho'] at h
      obtain ⟨hx, ⟨d, h1, h2⟩, ⟨e, h3, h4⟩⟩ := h
      simp only [Outcome.seen, h1, h2, h3, h4, hx]

/-! ## The claims -/

/-- C1. For every well-formed expression built from number literals, the
    binary operators `+ - * /` and parentheses, `parse_expr`, started with
    enough fuel on the first token, returns the value of standard arithmetic
    (products and quotients before sums and differences, both grouped from the
    left) without printing or reporting anything, and `parse_str` prints
    exactly that value. -/
theorem parse_expr_standard_arithmetic {R : Type} (H : Host R) (e : Expr) (s : State R)
    (hwf : e.wf H) (ha : e.arith) :
    (∀ fuel, e.size < fuel → ∃ s1 s2,
      next_token H { s with stream := .to e.text } = .ok () s1 ∧
      parse_expr H fuel s1 = .ok (e.value H) s2 ∧
      s2.stdout = s.stdout ∧ s2.stderr = s.stderr) ∧
    ∃ s3, parse_str H e.text s = .ok () s3 ∧ s3.stdout = s.stdout ++ [e.value H] ∧
      s3.stderr = s.stderr := by
  have hev : ∀ buf, e.eval H buf = (e.value H, buf) :=
    fun buf => expr_eval_callfree H e buf (expr_callfree_of_arith e ha)
  constructor
  · intro fuel hfuel
    obtain ⟨s1, s2, hn1, -, hr, hrun⟩ := expr_parse_expr_runs H e fuel hwf hfuel []
      { s with stream := .to e.text } no_ext_nil (stops_eof H op_kinds (by decide))
      (by simp)
    refine ⟨s1, s2.at_eof, hn1, ?_, hr.stdout, hr.stderr⟩
    rw [hrun, next_token_nil H hr.stream, bind_ok, hev]
  · obtain ⟨s3, h1, h2, h3, -⟩ := parse_str_value H e s hwf
    exact ⟨s3, h1, by rw [h2, hev], h3⟩

set_option maxRecDepth 100000 in
theorem parse_expr_standard_arithmetic_witness :
    (ex_1m2m3.wf rat_host ∧ ex_1m2m3.arith ∧ ex_1m2m3.text = "1-2-3".toList ∧
      ex_1m2m3.value rat_host = -4 ∧
      ∃ s3, parse_str rat_host ex_1m2m3.text (State.init rat_host) = .ok () s3 ∧
        s3.stdout = (State.init rat_host).stdout ++ [ex_1m2m3.value rat_host] ∧
        s3.stderr = (State.init rat_host).stderr) ∧
    (ex_8d4d2.text = "8/4/2".toList ∧ ex_8d4d2.value rat_host = 1 ∧
      printed rat_host "8/4/2".toList = some [1]) ∧
    (ex_1p2t3.text = "1+2*3".toList ∧ ex_1p2t3.value rat_host = 7 ∧
      printed rat_host "1+2*3".toList = some [7]) ∧
    printed rat_host "1-2-3".toList = some [-4] :=
  ⟨⟨by simp [ex_1m2m3, lit, Unary.expr, Unary.term, Expr.wf, Term.wf, Power.wf, Unary.wf,
      Atom.wf, isdigit],
    by simp [ex_1m2m3, lit, Unary.expr, Unary.term, Expr.arith, Term.arith, Power.arith,
      Unary.arith, Atom.arith],
    by decide!, by decide!,
    (parse_expr_standard_arithmetic rat_host ex_1m2m3 (State.init rat_host)
      (by simp [ex_1m2m3, lit, Unary.expr, Unary.term, Expr.wf, Term.wf, Power.wf, Unary.wf,
        Atom.wf, isdigit])
      (by simp [ex_1m2m3, lit, Unary.expr, Unary.term, Expr.arith, Term.arith, Power.arith,
        Unary.arith, Atom.arith])).2⟩,
   ⟨by decide!, by decide!, by decide!⟩, ⟨by decide!, by decide!, by decide!⟩, by decide!⟩

/-- C2, as the code has it: the input `2^3^2` prints 64, the value of
    `pow(pow(2, 3), 2)`, and not 512, the value of `pow(2, pow(3, 2))`. -/
theorem power_chain_counterexample :
    printed rat_host "2^3^2".toList = some [64] ∧
      rat_host.pow 2 (rat_host.pow 3 2) = 512 ∧
      printed rat_host "2^3^2".toList ≠ some [rat_host.pow 2 (rat_host.pow 3 2)] := by
  decide!

/-- C2, amended. Chained powers group from the left: for all well-formed
    operands `a`, `b`, `c` the expression `a^b^c` evaluates to
    `pow(pow(a, b), c)`, the values of the operands being those the evaluator
    computes for them from left to right. -/
theorem power_chain_groups_left {R : Type} (H : Host R) (a b c : Unary) (s : State R)
    (ha : a.wf H) (hb : b.wf H) (hc : c.wf H) :
    ∃ s1, parse_str H (a.text ++ '^' :: (b.text ++ '^' :: c.text)) s = .ok () s1 ∧
      s1.stdout = s.stdout ++
        [H.pow (H.pow (a.eval H s.args).1 (b.eval H (a.eval H s.args).2).1)
          (c.eval H (b.eval H (a.eval H s.args).2).2).1] ∧
      s1.stderr = s.stderr := by
  obtain ⟨s1, h1, h2, h3, -⟩ := parse_str_value H
    (.term (.power (.pow (.pow (.unary a) false b) false c))) s
    (by simp only [Expr.wf, Term.wf, Power.wf]; exact ⟨⟨ha, hb⟩, hc⟩)
  refine ⟨s1, ?_, ?_, h3⟩
  · rw [← h1]
    simp [Expr.text, Term.text, Power.text]
  · rw [h2]
    simp only [Expr.eval, Term.eval, Power.eval]

set_option maxRecDepth 100000 in
theorem power_chain_groups_left_witness :
    (lit "2").wf rat_host ∧ (lit "3").wf rat_host ∧
    (lit "2").text ++ '^' :: ((lit "3").text ++ '^' :: (lit "2").text) = "2^3^2".toList ∧
    rat_host.pow (rat_host.pow 2 3) 2 = 64 ∧
    ∃ s1, parse_str rat_host ((lit "2").text ++ '^' :: ((lit "3").text ++ '^' :: (lit "2").text))
        (State.init rat_host) = .ok () s1 ∧
      s1.stdout = (State.init rat_host).stdout ++
        [rat_host.pow (rat_host.pow ((lit "2").eval rat_host (State.init rat_host).args).1
          ((lit "3").eval rat_host
            ((lit "2").eval rat_host (State.init rat_host).args).2).1)
          ((lit "2").eval rat_host ((lit "3").eval rat_host
            ((lit "2").eval rat_host (State.init rat_host).args).2).2).1] ∧
      s1.stderr = (State.init rat_host).stderr :=
  ⟨by simp [lit, Unary.wf, Atom.wf, isdigit], by simp [lit, Unary.wf, Atom.wf, isdigit],
    by decide!, by decide!,
    power_chain_groups_left rat_host (lit "2") (lit "3") (lit "2") (State.init rat_host)
      (by simp [lit, Unary.wf, Atom.wf, isdigit]) (by simp [lit, Unary.wf, Atom.wf, isdigit])
      (by simp [lit, Unary.wf, Atom.wf, isdigit])⟩

/-- C4. Unary signs are applied recursively: for every well-formed atom and
    every run of unary `-` and `+` signs before it, the expression evaluates
    to the value `v` of the atom negated once per `-`; when negation is an
    involution, that is `v` for an even number of `-` signs and `-v` for an odd
    number. -/
theorem unary_signs_negate_once_each {R : Type} (H : Host R) (a : Atom) (signs : List Bool)
    (s : State R) (ha : a.wf H) :
    ∃ v s0 s1, parse_str H a.text s = .ok () s0 ∧ s0.stdout = s.stdout ++ [v] ∧
      parse_str H (sign_text signs ++ a.text) s = .ok () s1 ∧
      s1.stdout = s.stdout ++ [H.neg^[signs.count true] v] ∧ s1.stderr = s.stderr ∧
      ((∀ x, H.neg (H.neg x) = x) →
        s1.stdout = s.stdout ++ [if signs.count true % 2 = 0 then v else H.neg v]) := by
  obtain ⟨s0, h01, h02, -, -⟩ := parse_str_value H (Unary.atom a).expr s
    (by simpa only [Unary.expr, Expr.wf, Term.wf, Power.wf, Unary.wf] using ha)
  obtain ⟨s1, h11, h12, h13, -⟩ := parse_str_value H (signed signs a).expr s
    (by simpa only [Unary.expr, Expr.wf, Term.wf, Power.wf] using signed_wf H signs a ha)
  have ht0 : (Unary.atom a).expr.text = a.text := rfl
  have ht1 : (signed signs a).expr.text = sign_text signs ++ a.text := by
    simp only [Unary.expr, Expr.text, Term.text, Power.text, signed_text]
  have hv0 : (Unary.atom a).expr.eval H s.args = a.eval H s.args := rfl
  have hv1 : ((signed signs a).expr.eval H s.args).1 =
      H.neg^[signs.count true] (a.eval H s.args).1 := by
    simp only [Unary.expr, Expr.eval, Term.eval, Power.eval, signed_eval]
  rw [ht0] at h01
  rw [ht1] at h11
  rw [hv0] at h02
  rw [hv1] at h12
  refine ⟨(a.eval H s.args).1, s0, s1, h01, h02, h11, h12, h13, ?_⟩
  intro hinv
  rw [h12, iterate_involutive H.neg hinv]

set_option maxRecDepth 100000 in
theorem unary_signs_negate_once_each_witness :
    (Atom.num "5".toList none).wf rat_host ∧
    sign_text [true, true] ++ (Atom.num "5".toList none).text = "--5".toList ∧
    sign_text [true, false, true] ++ (Atom.num "5".toList none).text = "-+-5".toList ∧
    printed rat_host "--5".toList = some [5] ∧ printed rat_host "-+-5".toList = some [5] ∧
    (∀ x, rat_host.neg (rat_host.neg x) = x) ∧
    ∃ v s0 s1, parse_str rat_host (Atom.num "5".toList none).text (State.init rat_host)
        = .ok () s0 ∧ s0.stdout = (State.init rat_host).stdout ++ [v] ∧
      parse_str rat_host (sign_text [true, false, true] ++ (Atom.num "5".toList none).text)
        (State.init rat_host) = .ok () s1 ∧
      s1.stdout = (State.init rat_host).stdout ++
        [rat_host.neg^[[true, false, true].count true] v] ∧
      s1.stderr = (State.init rat_host).stderr ∧
      s1.stdout = (State.init rat_host).stdout ++
        [if [true, false, true].count true % 2 = 0 then v else rat_host.neg v] :=
  ⟨by simp [Atom.wf, isdigit], by decide!, by decide!, by decide!, by decide!,
    fun x => neg_neg x,
    match unary_signs_negate_once_each rat_host (Atom.num "5".toList none) [true, false, true]
      (State.init rat_host) (by simp [Atom.wf, isdigit]) with
    | ⟨v, s0, s1, h1, h2, h3, h4, h5, h6⟩ =>
      ⟨v, s0, s1, h1, h2, h3, h4, h5, h6 (fun x => neg_neg x)⟩⟩

/-- C5. Unary signs bind tighter than every binary operator: for all number
    literals `a` and `b`, `-a^b` evaluates to `pow(-a, b)`, `-a*b` to
    `(-a)*b`, and `a^-b` to `pow(a, -b)`. -/
theorem unary_binds_tighter {R : Type} (H : Host R) (da db : List Char)
    (fa fb : Option (List Char)) (s : State R)
    (ha : (Atom.num da fa).wf H) (hb : (Atom.num db fb).wf H) :
    (∃ s1, parse_str H ('-' :: (num_text da fa ++ '^' :: num_text db fb)) s = .ok () s1 ∧
      s1.stdout = s.stdout ++
        [H.pow (H.neg (H.ofRat (num_value da fa))) (H.ofRat (num_value db fb))]) ∧
    (∃ s1, parse_str H ('-' :: (num_text da fa ++ '*' :: num_text db fb)) s = .ok () s1 ∧
      s1.stdout = s.stdout ++
        [H.mul (H.neg (H.ofRat (num_value da fa))) (H.ofRat (num_value db fb))]) ∧
    (∃ s1, parse_str H (num_text da fa ++ '^' :: '-' :: num_text db fb) s = .ok () s1 ∧
      s1.stdout = s.stdout ++
        [H.pow (H.ofRat (num_value da fa)) (H.neg (H.ofRat (num_value db fb)))]) := by
  refine ⟨?_, ?_, ?_⟩
  · obtain ⟨s1, h1, h2, -, -⟩ := parse_str_value H
      (.term (.power (.pow (.unary (.neg (.atom (.num da fa)))) false (.atom (.num db fb))))) s
      (by simp only [Expr.wf, Term.wf, Power.wf, Unary.wf]; exact ⟨ha, hb⟩)
    refine ⟨s1, ?_, ?_⟩
    · rw [← h1]; simp [Expr.text, Term.text, Power.text, Unary.text, Atom.text]
    · rw [h2]; simp only [Expr.eval, Term.eval, Power.eval, Unary.eval, Atom.eval]
  · obtain ⟨s1, h1, h2, -, -⟩ := parse_str_value H
      (.term (.mul (.power (.unary (.neg (.atom (.num da fa))))) (.unary (.atom (.num db fb))))) s
      (by simp only [Expr.wf, Term.wf, Power.wf, Unary.wf]; exact ⟨ha, hb⟩)
    refine ⟨s1, ?_, ?_⟩
    · rw [← h1]; simp [Expr.text, Term.text, Power.text, Unary.text, Atom.text]
    · rw [h2]; simp only [Expr.eval, Term.eval, Power.eval, Unary.eval, Atom.eval]
  · obtain ⟨s1, h1, h2, -, -⟩ := parse_str_value H
      (.term (.power (.pow (.unary (.atom (.num da fa))) false (.neg (.atom (.num db fb)))))) s
      (by simp only [Expr.wf, Term.wf, Power.wf, Unary.wf]; exact ⟨ha, hb⟩)
    refine ⟨s1, ?_, ?_⟩
    · rw [← h1]; simp [Expr.text, Term.text, Power.text, Unary.text, Atom.text]
    · rw [h2]; simp only [Expr.eval, Term.eval, Power.eval, Unary.eval, Atom.eval]

set_option maxRecDepth 100000 in
theorem unary_binds_tighter_witness :
    (Atom.num "2".toList none).wf rat_host ∧
    printed rat_host "-2^2".toList = some [4] ∧
    printed rat_host "-2*2".toList = some [-4] ∧
    printed rat_host "2^-2".toList = some [1 / 4] ∧
    ('-' :: (num_text "2".toList none ++ '^' :: num_text "2".toList none)) = "-2^2".toList ∧
    rat_host.pow (rat_host.neg (rat_host.ofRat (num_value "2".toList none)))
      (rat_host.ofRat (num_value "2".toList none)) = 4 ∧
    ∃ s1, parse_str rat_host ('-' :: (num_text "2".toList none ++ '^' :: num_text "2".toList none))
        (State.init rat_host) = .ok () s1 ∧
      s1.stdout = (State.init rat_host).stdout ++
        [rat_host.pow (rat_host.neg (rat_host.ofRat (num_value "2".toList none)))
          (rat_host.ofRat (num_value "2".toList none))] :=
  ⟨by simp [Atom.wf, isdigit], by decide!, by decide!, by decide!, by decide!, by decide!,
    (unary_binds_tighter rat_host "2".toList "2".toList none none (State.init rat_host)
      (by simp [Atom.wf, isdigit]) (by simp [Atom.wf, isdigit])).1⟩

/-- C8. A missing closing parenthesis is a fatal error naming the expected
    `)`: for every well-formed expression `e`, evaluating `(` followed by `e`
    and nothing else exits with failure after reporting
    `Expected token ')', got 'EOF'`, and prints no value. -/
theorem missing_rparen_is_fatal {R : Type} (H : Host R) (e : Expr) (s : State R)
    (hwf : e.wf H) :
    ∃ s1, parse_str H ('(' :: e.text) s = .halt .exit_failure s1 ∧
      s1.stderr = s.stderr ++ ["ERROR: Expected token ')', got 'EOF'"] ∧
      s1.stdout = s.stdout := by
  have hsz : e.size < e.text.length + 1 := by
    have := expr_size_le H e hwf; omega
  have h1 := next_token_simple H (k := TOKEN_LPARAM)
    (s := { s with token := nul H, stream := .to ('(' :: e.text) }) rfl (by decide)
  obtain ⟨t1, t2, hn1, -, hr, hrun⟩ := expr_parse_expr_runs H e (e.text.length + 1) hwf hsz []
    (State.lexed { s with token := nul H, stream := .to ('(' :: e.text) } TOKEN_LPARAM
      (nul H).as_ ('(' :: e.text) e.text) no_ext_nil (stops_eof H op_kinds (by decide))
    (by simp [State.lexed])
  have hatom : parse_expr4 H (parse_expr H (e.text.length + 1))
      (State.lexed { s with token := nul H, stream := .to ('(' :: e.text) } TOKEN_LPARAM
        (nul H).as_ ('(' :: e.text) e.text) =
      .halt .exit_failure { t2.at_eof with
        stderr := t2.at_eof.stderr ++ ["ERROR: Expected token ')', got 'EOF'"] } := by
    rw [parse_expr4_paren H _ _ rfl, hn1, bind_ok, hrun, next_token_nil H hr.stream, bind_ok,
      bind_ok, expect_token_false H TOKEN_RPARAM _ (by simp [State.at_eof])]
    rfl
  refine ⟨{ t2.at_eof with
    stderr := t2.at_eof.stderr ++ ["ERROR: Expected token ')', got 'EOF'"] }, ?_, ?_, ?_⟩
  · exact parse_str_halt H _ s _ _ _ h1 (by simp [State.lexed])
      (parse_expr_atom_halt H _ _ _ _ (by simp [State.lexed]) (by simp [State.lexed]) hatom)
  · simp [State.at_eof, hr.stderr, State.lexed]
  · simp [State.at_eof, hr.stdout, State.lexed]

set_option maxRecDepth 100000 in
theorem missing_rparen_is_fatal_witness :
    (Expr.add (lit "1").expr (lit "2").term).wf rat_host ∧
    '(' :: (Expr.add (lit "1").expr (lit "2").term).text = "(1+2".toList ∧
    printed rat_host "(1+2".toList = none ∧
    ∃ s1, parse_str rat_host ('(' :: (Expr.add (lit "1").expr (lit "2").term).text)
        (State.init rat_host) = .halt .exit_failure s1 ∧
      s1.stderr = (State.init rat_host).stderr ++ ["ERROR: Expected token ')', got 'EOF'"] ∧
      s1.stdout = (State.init rat_host).stdout :=
  ⟨by simp [lit, Unary.expr, Unary.term, Expr.wf, Term.wf, Power.wf, Unary.wf, Atom.wf, isdigit],
    by decide!, by decide!,
    missing_rparen_is_fatal rat_host (Expr.add (lit "1").expr (lit "2").term)
      (State.init rat_host)
      (by simp [lit, Unary.expr, Unary.term, Expr.wf, Term.wf, Power.wf, Unary.wf, Atom.wf,
        isdigit])⟩

/-- C9, as the code has it: a call without any argument fails with the
    message `Unexpected token`, not with a message about an expected `,`. -/
theorem wrong_arity_counterexample :
    reported rat_host "sqrt()".toList = (false, ["ERROR: Unexpected token"]) ∧
      reported rat_host "sqrt()".toList ≠ (false, ["ERROR: Expected token ',', got ')'"]) ∧
      find_function rat_host "sqrt".toList = some (1, fun x => rat_sqrt (x.getD 0 0)) := by
  refine ⟨by decide!, by decide!, rfl⟩

/-- C9, amended. Calling a registered function of arity `n` (at most
    `MAX_FUNC_ARGS`, the size of the argument buffer) with well-formed
    arguments fails with a token-mismatch error when their number is wrong and
    at least one is given: with at least one and fewer than `n` arguments the
    error is `Expected token ',', got ')'`, raised at the closing parenthesis;
    with more than `n` it is `Expected token ')', got ','`, raised at the comma
    after the `n`-th argument.  Either way the process exits with failure,
    prints nothing, and the routine is not invoked: the native routines invoked
    are those of the calls inside the arguments that were read, `a.ncalls` of
    them. -/
theorem wrong_arity_is_token_mismatch {R : Type} (H : Host R) (name : List Char) (n : Nat)
    (func : List R → R) (a : Args) (k : List Char) (s : State R)
    (hid : is_identifier name) (hc : find_constant name = none)
    (hf : find_function H name = some (n, func)) (hmax : n ≤ MAX_FUNC_ARGS)
    (hwf : a.wf H) :
    (a.length < n → ∃ s1,
      parse_str H (name ++ '(' :: (a.text ++ ')' :: k)) s = .halt .exit_failure s1 ∧
      s1.stderr = s.stderr ++ ["ERROR: Expected token ',', got ')'"] ∧ s1.stdout = s.stdout ∧
      s1.token.kind = TOKEN_RPARAM ∧ s1.token.start = .to (')' :: k) ∧
      s1.calls = s.calls + a.ncalls) ∧
    (a.length = n → ∃ s1,
      parse_str H (name ++ '(' :: (a.text ++ ',' :: k)) s = .halt .exit_failure s1 ∧
      s1.stderr = s.stderr ++ ["ERROR: Expected token ')', got ','"] ∧ s1.stdout = s.stdout ∧
      s1.token.kind = TOKEN_COMMA ∧ s1.token.start = .to (',' :: k) ∧
      s1.calls = s.calls + a.ncalls) := by
  have hsize := args_size_le H a hwf
  constructor
  · intro hlt
    have h1 := next_token_func H (s := { s with token := nul H, stream := .to (name ++ '(' :: (a.text ++ ')' :: k)) }) name _ n func rfl hid hc hf
      (no_ext_cons _ (by decide) (by decide))
    generalize hsA : State.lexed { s with token := nul H, stream := .to (name ++ '(' :: (a.text ++ ')' :: k)) } TOKEN_FUNC (.func n func)
      (name ++ '(' :: (a.text ++ ')' :: k)) ('(' :: (a.text ++ ')' :: k)) = sA at h1
    have hA1 : sA.stream = .to ('(' :: (a.text ++ ')' :: k)) := by rw [← hsA]; rfl
    have hA2 : sA.token.kind = TOKEN_FUNC := by rw [← hsA]; rfl
    have hA3 : sA.token.as_ = .func n func := by rw [← hsA]; rfl
    have hA4 : sA.stdout = s.stdout ∧ sA.stderr = s.stderr := by rw [← hsA]; exact ⟨rfl, rfl⟩
    have hA6 : sA.calls = s.calls := by rw [← hsA]; rfl
    have h2 := next_token_simple H hA1 (k := TOKEN_LPARAM) (by decide)
    obtain ⟨u1, u2, hn2, -, hrun, herr, hout, hkind, hstart, hcalls⟩ := args_short H
      (name ++ '(' :: (a.text ++ ')' :: k)).length a (n - 1) 0 k
      (sA.lexed TOKEN_LPARAM sA.token.as_ ('(' :: (a.text ++ ')' :: k)) (a.text ++ ')' :: k))
      hwf (by simp only [List.length_append, List.length_cons]; omega) (by omega) (by omega) rfl
    refine ⟨u2, ?_, ?_, ?_, hkind, hstart, by rw [hcalls]; simp only [State.lexed, hA6]⟩
    · refine parse_str_halt H _ s sA u2 _ h1 (by rw [hA2]; decide)
        (parse_expr_atom_halt H _ _ _ _ (by rw [hA2]; decide) (by rw [hA2]; decide) ?_)
      rw [parse_expr4_func H _ sA n func hA2 hA3, h2, bind_ok,
        expect_token_true H TOKEN_LPARAM _ rfl, hn2, bind_ok, parse_args_last, hrun]
      rfl
    · rw [herr]; simp only [State.lexed, hA4.2]
    · rw [hout]; simp only [State.lexed, hA4.1]
  · intro heq
    subst heq
    have h1 := next_token_func H (s := { s with token := nul H, stream := .to (name ++ '(' :: (a.text ++ ',' :: k)) }) name _ a.length func rfl hid hc hf
      (no_ext_cons _ (by decide) (by decide))
    generalize hsA : State.lexed { s with token := nul H, stream := .to (name ++ '(' :: (a.text ++ ',' :: k)) } TOKEN_FUNC (.func a.length func)
      (name ++ '(' :: (a.text ++ ',' :: k)) ('(' :: (a.text ++ ',' :: k)) = sA at h1
    have hA1 : sA.stream = .to ('(' :: (a.text ++ ',' :: k)) := by rw [← hsA]; rfl
    have hA2 : sA.token.kind = TOKEN_FUNC := by rw [← hsA]; rfl
    have hA3 : sA.token.as_ = .func a.length func := by rw [← hsA]; rfl
    have hA4 : sA.stdout = s.stdout ∧ sA.stderr = s.stderr := by rw [← hsA]; exact ⟨rfl, rfl⟩
    have hA6 : sA.calls = s.calls := by rw [← hsA]; rfl
    have hA5 : sA.args = s.args := by rw [← hsA]; rfl
    have h2 := next_token_simple H hA1 (k := TOKEN_LPARAM) (by decide)
    obtain ⟨t1, t2, hn1, -, hr, hrun⟩ := args_runs H a
      (name ++ '(' :: (a.text ++ ',' :: k)).length 0 hwf
      (by simp only [List.length_append, List.length_cons]; omega) (by omega) (',' :: k)
      (sA.lexed TOKEN_LPARAM sA.token.as_ ('(' :: (a.text ++ ',' :: k)) (a.text ++ ',' :: k))
      (no_ext_cons k (by decide) (by decide))
      (stops_simple H TOKEN_COMMA k op_kinds (by decide) (by decide)) rfl
    have h3 := next_token_simple H hr.stream (k := TOKEN_COMMA) (by decide)
    have hmsg : "ERROR: " ++ ("Expected token \x27" ++ tokenToNames TOKEN_RPARAM ++
        "\x27, got \x27" ++ tokenToNames TOKEN_COMMA ++ "\x27") =
        "ERROR: Expected token ')', got ','" := by decide
    refine ⟨{ (t2.lexed TOKEN_COMMA t2.token.as_ (',' :: k) k) with
        args := t2.args.set (a.length - 1) (a.run H 0 s.args).1,
        stderr := t2.stderr ++ ["ERROR: Expected token ')', got ','"] }, ?_, ?_, ?_, rfl, rfl,
      by simp only [hr.calls, State.lexed, hA6]⟩
    · refine parse_str_halt H _ s sA _ _ h1 (by rw [hA2]; decide)
        (parse_expr_atom_halt H _ _ _ _ (by rw [hA2]; decide) (by rw [hA2]; decide) ?_)
      rw [parse_expr4_func H _ sA a.length func hA2 hA3, h2, bind_ok,
        expect_token_true H TOKEN_LPARAM _ rfl, hn1, bind_ok, hrun, h3, bind_ok, bind_ok,
        if_pos ⟨args_length_pos a, hmax⟩, expect_token_false H TOKEN_RPARAM _ (by simp [State.lexed]), error_eq]
      simp only [State.lexed, hmsg, bind_halt, hA5]
    · simp only [hr.stderr, State.lexed, hA4.2]
    · simp only [hr.stdout, State.lexed, hA4.1]

set_option maxRecDepth 100000 in
theorem wrong_arity_is_token_mismatch_witness :
    is_identifier "max".toList ∧ find_constant "max".toList = none ∧
    find_function rat_host "max".toList = some (2, fun x => max (x.getD 0 0) (x.getD 1 0)) ∧
    (Args.last (lit "3").expr).wf rat_host ∧
    "max".toList ++ '(' :: ((Args.last (lit "3").expr).text ++ ')' :: []) = "max(3)".toList ∧
    reported rat_host "max(3)".toList = (false, ["ERROR: Expected token ',', got ')'"]) ∧
    reported rat_host "max(3,7,8)".toList = (false, ["ERROR: Expected token ')', got ','"]) ∧
    printed rat_host "max(3)".toList = none ∧ printed rat_host "max(3,7,8)".toList = none ∧
    ∃ s1, parse_str rat_host ("max".toList ++ '(' :: ((Args.last (lit "3").expr).text ++ ')' :: []))
        (State.init rat_host) = .halt .exit_failure s1 ∧
      s1.stderr = (State.init rat_host).stderr ++ ["ERROR: Expected token ',', got ')'"] ∧
      s1.stdout = (State.init rat_host).stdout ∧
      s1.token.kind = TOKEN_RPARAM ∧ s1.token.start = .to (')' :: []) ∧
      s1.calls = (State.init rat_host).calls + (Args.last (lit "3").expr).ncalls :=
  ⟨⟨⟨'m', "ax".toList, by decide, by decide⟩, by decide⟩, by decide!, rfl,
    by simp [lit, Unary.expr, Args.wf, Expr.wf, Term.wf, Power.wf, Unary.wf, Atom.wf, isdigit],
    by decide!, by decide!, by decide!, by decide!, by decide!,
    (wrong_arity_is_token_mismatch rat_host "max".toList 2
      (fun x => max (x.getD 0 0) (x.getD 1 0)) (Args.last (lit "3").expr) [] (State.init rat_host)
      ⟨⟨'m', "ax".toList, by decide, by decide⟩, by decide⟩ (by decide!) rfl (by decide)
      (by simp [lit, Unary.expr, Args.wf, Expr.wf, Term.wf, Power.wf, Unary.wf, Atom.wf,
        isdigit])).1 (by decide)⟩

/-- C10. Command-line expressions are evaluated in argument order and a halt
    abandons the rest.  If the expressions before the `k`-th all return and the
    `k`-th halts (a fatal error ends the process with failure status), `main`
    halts in the same way in the state the `k`-th left, whatever follows; that
    state holds the output of the earlier expressions only, one line for each
    that is not empty.  If no expression halts, `main` returns with success and
    the output has one line for each expression that is not empty.  A returning
    expression appends its line after the earlier output, or nothing when it
    is empty. -/
theorem fatal_error_abandons_rest {R : Type} (H : Host R) (stdin : List Char) :
    (∀ (pre post : List (List Char)) (str : List Char) (sk s1 : State R) (x : Halt),
      parse_argv H pre (State.init H) = .ok () sk → parse_str H str sk = .halt x s1 →
      main H (pre ++ str :: post) stdin = .halt x s1 ∧ s1.stdout = sk.stdout ∧
      sk.stdout.length = (pre.filter (fun u => !is_empty_unit H u)).length) ∧
    (∀ (argv : List (List Char)) (s1 : State R), argv ≠ [] →
      parse_argv H argv (State.init H) = .ok () s1 →
      main H argv stdin = .ok () s1 ∧
      s1.stdout.length = (argv.filter (fun u => !is_empty_unit H u)).length) ∧
    (∀ (str : List Char) (s s1 : State R), parse_str H str s = .ok () s1 →
      if is_empty_unit H str = true then s1.stdout = s.stdout
      else ∃ v, s1.stdout = s.stdout ++ [v]) := by
  refine ⟨?_, ?_, parse_str_ok_stdout H⟩
  · intro pre post str sk s1 x hpre hstr
    refine ⟨?_, parse_str_halt_stdout H str sk s1 x hstr, ?_⟩
    · have hlen : 0 < (pre ++ str :: post).length := by simp
      simp only [main, hlen, if_true]
      rw [parse_argv_append, hpre, bind_ok]
      simp only [parse_argv, hstr]
    · have := parse_argv_lines H pre _ _ hpre
      simpa [State.init] using this
  · intro argv s1 hne hok
    refine ⟨?_, ?_⟩
    · have hlen : 0 < argv.length := List.length_pos.mpr hne
      simp only [main, hlen, if_true, hok]
    · have := parse_argv_lines H argv _ _ hok
      simpa [State.init] using this

set_option maxRecDepth 100000 in
theorem fatal_error_abandons_rest_witness :
    (main rat_host ["1+1".toList, "".toList, "(2".toList, "3".toList] []).halted
        = some .exit_failure ∧
    (main rat_host ["1+1".toList, "".toList, "(2".toList, "3".toList] []).state.stdout = [2] ∧
    (main rat_host ["1+1".toList, "".toList, "(2".toList, "3".toList] []).state.stderr
        = ["ERROR: Expected token ')', got 'EOF'"] ∧
    (main rat_host ["1+1".toList, "".toList, "3".toList] []).returned = true ∧
    (main rat_host ["1+1".toList, "".toList, "3".toList] []).state.stdout = [2, 3] ∧
    (main rat_host (["1+1".toList, "".toList] ++ "(2".toList :: ["3".toList]) []
        = .halt .exit_failure (parse_str rat_host "(2".toList
          (parse_argv rat_host ["1+1".toList, "".toList] (State.init rat_host)).state).state ∧
      (parse_str rat_host "(2".toList
          (parse_argv rat_host ["1+1".toList, "".toList] (State.init rat_host)).state).state.stdout
        = (parse_argv rat_host ["1+1".toList, "".toList] (State.init rat_host)).state.stdout ∧
      (parse_argv rat_host ["1+1".toList, "".toList] (State.init rat_host)).state.stdout.length
        = (["1+1".toList, "".toList].filter (fun u => !is_empty_unit rat_host u)).length) :=
  ⟨by decide!, by decide!, by decide!, by decide!, by decide!,
    (fatal_error_abandons_rest rat_host []).1 ["1+1".toList, "".toList] ["3".toList] "(2".toList
      _ _ .exit_failure
      (ok_of_returned _ (by decide!)) (halt_of_halted _ _ (by decide!))⟩

set_option maxRecDepth 100000 in
/-- C3 at the input `max(1+1, sqrt(9))`: the arguments have the values 2 and 3,
    so the call should yield 3, but the inner call stores its argument 9 in
    the buffer that already holds the outer call's first argument, and the
    evaluator prints 9.  The call `max(3,7)`, without a nested call, prints
    7. -/
theorem nested_call_overwrites_argument :
    printed rat_host "max(1+1, sqrt(9))".toList = some [9] ∧
    printed rat_host "max(1+1,sqrt(9))".toList = some [9] ∧
    ex_max_nested.text = "max(1+1,sqrt(9))".toList ∧
    Args.values rat_host (.more (.add (lit "1").expr (lit "1").term)
      (.last (Unary.atom (.call "sqrt".toList (.last (lit "9").expr))).expr)) = [2, 3] ∧
    ex_max_nested.value rat_host = 3 ∧
    (ex_max_nested.eval rat_host (State.init rat_host).args).1 = 9 ∧
    printed rat_host "max(3,7)".toList = some [7] := by
  refine ⟨by decide!, by decide!, by decide!, by decide!, by decide!, by decide!, by decide!⟩

set_option maxRecDepth 100000 in
/-- C6 at the inputs `foo*3` and `foo`: after the unknown name the lexer returns
    with the token it had before the call (at the start of an expression the
    zeroed token, a number of value 0) instead of lexing on, so `foo*3` prints 0
    where `*3` is a fatal error, and `foo` prints 0 where the empty input
    prints nothing. -/
theorem unknown_name_yields_old_token :
    (next_token rat_host { State.init rat_host with stream := .to "foo*3".toList }).returned
        = true ∧
    (next_token rat_host { State.init rat_host with stream := .to "foo*3".toList }).state.token.kind
        = TOKEN_VAL ∧
    (next_token rat_host { State.init rat_host with stream := .to "foo*3".toList }).state.token.val?
        = some 0 ∧
    (next_token rat_host { State.init rat_host with stream := .to "foo*3".toList }).state.stream
        = .to "*3".toList ∧
    (next_token rat_host { State.init rat_host with stream := .to "foo*3".toList }).state.stderr
        = ["WARNING: Unknown name 'foo', skipping"] ∧
    (next_token rat_host { State.init rat_host with stream := .to "*3".toList }).state.token.kind
        = TOKEN_MUL ∧
    printed rat_host "foo*3".toList = some [0] ∧
    reported rat_host "*3".toList = (false, ["ERROR: Unexpected token"]) ∧
    printed rat_host "foo".toList = some [0] ∧
    printed rat_host "".toList = some [] := by
  refine ⟨by decide!, by decide!, by decide!, by decide!, by decide!, by decide!, by decide!,
    by decide!, by decide!, by decide!⟩

set_option maxRecDepth 100000 in
/-- C7 at the inputs `1e5` and `0x10`: the lexer consumes the digit `1` (the
    cursor stops at `e5`), but the value stored in the token is 100000, the
    number `sscanf` reads from the start of the token through the exponent; the
    decimal value of the consumed text is 1.  Likewise `0x10` yields 16 with
    only `0` consumed. -/
theorem number_token_reads_past_consumed_text :
    (next_token rat_host { State.init rat_host with stream := .to "1e5".toList }).state.token.kind
        = TOKEN_VAL ∧
    (next_token rat_host { State.init rat_host with stream := .to "1e5".toList }).state.stream
        = .to "e5".toList ∧
    (next_token rat_host { State.init rat_host with stream := .to "1e5".toList }).state.token.val?
        = some 100000 ∧
    num_value "1".toList none = 1 ∧
    (next_token rat_host { State.init rat_host with stream := .to "1".toList }).state.token.val?
        = some 1 ∧
    (next_token rat_host { State.init rat_host with stream := .to "0x10".toList }).state.stream
        = .to "x10".toList ∧
    (next_token rat_host { State.init rat_host with stream := .to "0x10".toList }).state.token.val?
        = some 16 ∧
    printed rat_host "1e5".toList = some [100000] ∧
    printed rat_host "0x10".toList = some [16] := by
  refine ⟨by decide!, by decide!, by decide!, by decide!, by decide!, by decide!, by decide!,
    by decide!, by decide!⟩

/-- C14. For every input made only of spaces, tabs, newlines, carriage
    returns and vertical tabs (the empty input included), `parse_str` returns
    without printing a value and without a warning or an error. -/
theorem blank_input_prints_nothing {R : Type} (H : Host R) (str : List Char) (s : State R)
    (hb : ∀ c ∈ str, is_blank_case c = true) :
    ∃ s1, parse_str H str s = .ok () s1 ∧ s1.stdout = s.stdout ∧ s1.stderr = s.stderr := by
  have h := next_token_blanks H (s := { s with token := nul H, stream := .to str }) str rfl hb
  refine ⟨State.at_eof { s with token := nul H, stream := .to str }, ?_, rfl, rfl⟩
  unfold parse_str
  rw [h]
  simp only [State.at_eof, is_token, beq_self_eq_true, Bool.not_true, Bool.false_eq_true,
    if_false]

set_option maxRecDepth 100000 in
theorem blank_input_prints_nothing_witness :
    (∀ c ∈ " \t\n\r\x0b ".toList, is_blank_case c = true) ∧
    reported rat_host " \t\n\r\x0b ".toList = (true, []) ∧
    printed rat_host " \t\n\r\x0b ".toList = some [] ∧
    printed rat_host "".toList = some [] ∧
    ∃ s1, parse_str rat_host " \t\n\r\x0b ".toList (State.init rat_host) = .ok () s1 ∧
      s1.stdout = (State.init rat_host).stdout ∧ s1.stderr = (State.init rat_host).stderr :=
  ⟨by decide, by decide!, by decide!, by decide!,
    blank_input_prints_nothing rat_host " \t\n\r\x0b ".toList (State.init rat_host) (by decide)⟩

/-- C11. No hidden state leaks between expressions.  With a regular table of
    functions, `parse_str` on a string does the same whatever the state before
    the call (token, cursor, contents of the argument buffer, output so far):
    it returns or halts in the same way, appends the same values to standard
    output and the same lines to the diagnostic stream.  In particular, when
    an evaluation returns, evaluating the same string again in the state it
    left appends the same output again. -/
theorem parse_str_ignores_prior_state {R : Type} (H : Host R) (hH : H.regular)
    (str : List Char) (s s' : State R) (hs : s.args.length = MAX_FUNC_ARGS)
    (hs' : s'.args.length = MAX_FUNC_ARGS) :
    SameRun s s' (parse_str H str s) (parse_str H str s') ∧
    ∀ t, parse_str H str s = .ok () t →
      ∃ t2 d e, parse_str H str t = .ok () t2 ∧
        t.stdout = s.stdout ++ d ∧ t2.stdout = t.stdout ++ d ∧
        t.stderr = s.stderr ++ e ∧ t2.stderr = t.stderr ++ e := by
  refine ⟨same_run_of_alike s s' _ _ _ _ _ (alike_parse_str H hH str s s' hs hs'), ?_⟩
  intro t ht
  have h1 := alike_parse_str H hH str s s hs hs
  rw [ht] at h1
  have hlen : t.args.length = MAX_FUNC_ARGS := h1.2.1.len
  have h2 := same_run_of_alike s t _ _ _ _ _ (alike_parse_str H hH str s t hs hlen)
  rw [ht] at h2
  cases h3 : parse_str H str t with
  | halt x t2 => rw [h3] at h2; exact h2.elim
  | ok u t2 =>
    rw [h3] at h2
    obtain ⟨⟨d, hd, hd'⟩, ⟨e, he, he'⟩⟩ := h2
    exact ⟨t2, d, e, rfl, hd, hd', he, he'⟩

set_option maxRecDepth 100000 in
theorem parse_str_ignores_prior_state_witness :
    rat_host.regular ∧
    (State.init rat_host).args.length = MAX_FUNC_ARGS ∧
    ({ State.init rat_host with
        args := List.replicate MAX_FUNC_ARGS 7, stdout := [5], stream := .to "1+".toList }
      : State ℚ).args.length = MAX_FUNC_ARGS ∧
    (main rat_host ["max(2,sqrt(9))".toList, "max(2,sqrt(9))".toList] []).state.stdout = [9, 9] ∧
    SameRun (State.init rat_host)
      { State.init rat_host with
        args := List.replicate MAX_FUNC_ARGS 7, stdout := [5], stream := .to "1+".toList }
      (parse_str rat_host "max(2,sqrt(9))".toList (State.init rat_host))
      (parse_str rat_host "max(2,sqrt(9))".toList
        { State.init rat_host with
          args := List.replicate MAX_FUNC_ARGS 7, stdout := [5], stream := .to "1+".toList }) ∧
    ∃ t2 d e,
      parse_str rat_host "max(2,sqrt(9))".toList
        (parse_str rat_host "max(2,sqrt(9))".toList (State.init rat_host)).state = .ok () t2 ∧
      (parse_str rat_host "max(2,sqrt(9))".toList (State.init rat_host)).state.stdout
        = (State.init rat_host).stdout ++ d ∧
      t2.stdout
        = (parse_str rat_host "max(2,sqrt(9))".toList (State.init rat_host)).state.stdout ++ d ∧
      (parse_str rat_host "max(2,sqrt(9))".toList (State.init rat_host)).state.stderr
        = (State.init rat_host).stderr ++ e ∧
      t2.stderr
        = (parse_str rat_host "max(2,sqrt(9))".toList (State.init rat_host)).state.stderr ++ e :=
  have h := parse_str_ignores_prior_state rat_host rat_host_regular "max(2,sqrt(9))".toList
    (State.init rat_host)
    { State.init rat_host with
      args := List.replicate MAX_FUNC_ARGS 7, stdout := [5], stream := .to "1+".toList }
    (by simp [State.init]) (by simp)
  ⟨rat_host_regular, by simp [State.init], by simp, by decide!, h.1,
    h.2 _ (ok_of_returned _ (by decide!))⟩

/-- C16. Lexing never aborts on garbage.  With the cursor anywhere in a text,
    `next_token` returns.  When the cursor is at a character that is not one
    of the blanks the lexer skips, a digit, a letter, an underscore, one of
    `+ - * / ^ ( ) ,` or the terminator, the call writes one warning for that
    character and then does what a call started at the following character
    does: it returns the same token at the same cursor, after the same
    further diagnostics. -/
theorem garbage_is_skipped_with_one_warning {R : Type} (H : Host R) (s : State R)
    (text : List Char) (hs : s.stream = .to text) :
    (∃ s1, next_token H s = .ok () s1) ∧
    ∀ c rest, text = c :: rest → is_garbage c = true →
      next_token H s = next_token H
        (warning ("Invalid \x27" ++ String.singleton c ++ "\x27 token, skipping")
          { s with stream := .to rest }) ∧
      ∃ s1 s2 w, next_token H s = .ok () s1 ∧
        next_token H { s with stream := .to rest } = .ok () s2 ∧
        s1.token.kind = s2.token.kind ∧ s1.token.as_ = s2.token.as_ ∧
        s1.token.start = s2.token.start ∧ s1.token.end_ = s2.token.end_ ∧
        s1.stream = s2.stream ∧ s1.args = s2.args ∧ s1.stdout = s2.stdout ∧
        s2.stderr = s.stderr ++ w ∧
        s1.stderr = s.stderr ++
          ("WARNING: " ++ ("Invalid \x27" ++ String.singleton c ++ "\x27 token, skipping")) :: w := by
  refine ⟨next_token_returns H s text hs, ?_⟩
  intro c rest htext hc
  subst htext
  refine ⟨next_token_garbage H c rest hs hc, ?_⟩
  obtain ⟨r, hr, hrun⟩ := next_token_scan H s (c :: rest) hs
  obtain ⟨r2, hr2, hrun2⟩ := next_token_scan H { s with stream := .to rest } rest rfl
  rw [List.length_cons, scan_garbage H _ c rest _ _ hc,
    show scan H (rest.length + 1) rest s.token.kind s.token.as_ = some r2 from hr2] at hr
  simp only [Option.map_some', Option.some.injEq] at hr
  subst hr
  exact ⟨_, _, r2.warns, hrun, hrun2, rfl, rfl, rfl, rfl, rfl, rfl, rfl, rfl, rfl⟩

set_option maxRecDepth 100000 in
theorem garbage_is_skipped_with_one_warning_witness :
    ({ State.init rat_host with stream := .to "$#1".toList } : State ℚ).stream
      = .to "$#1".toList ∧
    is_garbage '$' = true ∧
    (next_token rat_host { State.init rat_host with stream := .to "$#1".toList }).state.stderr
      = ["WARNING: Invalid '$' token, skipping", "WARNING: Invalid '#' token, skipping"] ∧
    (next_token rat_host { State.init rat_host with stream := .to "$#1".toList }).state.token.val?
      = some 1 ∧
    (∃ s1, next_token rat_host { State.init rat_host with stream := .to "$#1".toList }
      = .ok () s1) ∧
    next_token rat_host { State.init rat_host with stream := .to "$#1".toList }
      = next_token rat_host
          (warning ("Invalid \x27" ++ String.singleton '$' ++ "\x27 token, skipping")
            { ({ State.init rat_host with stream := .to "$#1".toList } : State ℚ) with
              stream := .to "#1".toList }) :=
  have h := garbage_is_skipped_with_one_warning rat_host
    { State.init rat_host with stream := .to "$#1".toList } "$#1".toList rfl
  ⟨rfl, by decide, by decide!, by decide!, h.1, (h.2 '$' "#1".toList rfl (by decide)).1⟩

/-- C17, as the code has it: at the end of the text `next_token` yields an
    end-of-input token and moves the cursor, from the terminator to the
    position after it. -/
theorem eof_moves_cursor_counterexample :
    ({ State.init rat_host with stream := .to [] } : State ℚ).stream = .to [] ∧
    (next_token rat_host { State.init rat_host with stream := .to [] }).returned = true ∧
    (next_token rat_host { State.init rat_host with stream := .to [] }).state.token.kind
      = TOKEN_EOF ∧
    (next_token rat_host { State.init rat_host with stream := .to [] }).state.stream = .off ∧
    (next_token rat_host { State.init rat_host with stream := .to [] }).state.stream
      ≠ ({ State.init rat_host with stream := .to [] } : State ℚ).stream := by
  refine ⟨rfl, by decide!, by decide!, by decide!, by decide!⟩

/-- C17, amended. At the end of the text `next_token` yields an end-of-input
    token and moves the cursor by one position: when the cursor is at the
    terminator, the cursor after the call is just past the terminator, so a
    repeated call would read outside the text. -/
theorem eof_moves_cursor_past_terminator {R : Type} (H : Host R) (s : State R)
    (hs : s.stream = .to []) :
    ∃ s1, next_token H s = .ok () s1 ∧ s1.token.kind = TOKEN_EOF ∧ s1.stream = .off ∧
      s1.stream ≠ s.stream ∧ s1.token.start = .to [] ∧ s1.token.end_ = .off ∧
      s1.token.as_ = s.token.as_ ∧ s1.stderr = s.stderr ∧
      next_token H s1 = .halt .undefined s1 := by
  refine ⟨s.at_eof, next_token_nil H hs, rfl, rfl, ?_, rfl, rfl, rfl, rfl, ?_⟩
  · rw [hs]; exact fun h => Ptr.noConfusion h
  · exact next_token_not_at H _ (fun text h => Ptr.noConfusion h)

theorem eof_moves_cursor_past_terminator_witness :
    ({ State.init rat_host with stream := .to [] } : State ℚ).stream = .to [] ∧
    ∃ s1, next_token rat_host { State.init rat_host with stream := .to [] } = .ok () s1 ∧
      s1.token.kind = TOKEN_EOF ∧ s1.stream = .off ∧
      s1.stream ≠ ({ State.init rat_host with stream := .to [] } : State ℚ).stream ∧
      s1.token.start = .to [] ∧ s1.token.end_ = .off ∧
      s1.token.as_ = ({ State.init rat_host with stream := .to [] } : State ℚ).token.as_ ∧
      s1.stderr = ({ State.init rat_host with stream := .to [] } : State ℚ).stderr ∧
      next_token rat_host s1 = .halt .undefined s1 :=
  ⟨rfl, eof_moves_cursor_past_terminator rat_host
    { State.init rat_host with stream := .to [] } rfl⟩

/-- C15. Evaluating `foo+1`, where `foo` is in neither registry, writes one
    warning, which names `foo`, raises no fatal error and prints the sum of
    the value 0 that the token holds from the start and 1, which is 1. -/
theorem unknown_name_plus_one {R : Type} (H : Host R) (s : State R)
    (hf : find_function H "foo".toList = none) :
    ∃ s1, parse_str H "foo+1".toList s = .ok () s1 ∧
      s1.stdout = s.stdout ++ [H.add (H.ofRat 0) (H.ofRat 1)] ∧
      s1.stderr = s.stderr ++ ["WARNING: Unknown name 'foo', skipping"] := by
  obtain ⟨t', h1, h2, h3, -⟩ := parse_str_value H (Expr.add (lit "0").expr (lit "1").term) s
    (by simp [lit, Unary.expr, Unary.term, Expr.wf, Term.wf, Power.wf, Unary.wf, Atom.wf, isdigit])
  obtain ⟨t, ht, hout, herr⟩ := unknown_name_prints H "foo".toList "+1".toList s t'
    ⟨⟨'f', "oo".toList, by decide, by decide⟩, by decide⟩ (by decide) hf
    (no_ext_cons _ (by decide) (by decide)) h1 h3
  refine ⟨t, ht, ?_, herr⟩
  rw [hout, h2]
  have e0 : num_value "0".toList none = 0 := by
    rw [show "0".toList = ['0'] from rfl, num_value_digit '0' (by decide)]; simp
  have e1 : num_value "1".toList none = 1 := by
    rw [show "1".toList = ['1'] from rfl, num_value_digit '1' (by decide)]; simp
  simp only [lit, Unary.expr, Unary.term, Expr.eval, Term.eval, Power.eval, Unary.eval,
    Atom.eval, e0, e1]

set_option maxRecDepth 100000 in
theorem unknown_name_plus_one_witness :
    find_function rat_host "foo".toList = none ∧ find_constant "foo".toList = none ∧
    rat_host.add (rat_host.ofRat 0) (rat_host.ofRat 1) = 1 ∧
    printed rat_host "foo+1".toList = some [1] ∧
    reported rat_host "foo+1".toList = (true, ["WARNING: Unknown name 'foo', skipping"]) ∧
    ∃ s1, parse_str rat_host "foo+1".toList (State.init rat_host) = .ok () s1 ∧
      s1.stdout = (State.init rat_host).stdout ++
        [rat_host.add (rat_host.ofRat 0) (rat_host.ofRat 1)] ∧
      s1.stderr = (State.init rat_host).stderr ++ ["WARNING: Unknown name 'foo', skipping"] :=
  ⟨rfl, by decide!, by decide!, by decide!, by decide!,
    unknown_name_plus_one rat_host (State.init rat_host) rfl⟩

/-- C19. When `next_token` meets a name that is in neither registry, it moves
    the cursor past the name, writes a warning and sets the span of the token;
    the kind and the payload of the token stay what they were before the
    call.  So after `parse_str` has reset the token to zeros, an unknown name
    at the start of an expression leaves a number token of value 0, and the
    name followed by `*3` (as in `foo*3`) evaluates to the product of 0 and 3
    without a fatal error. -/
theorem unknown_name_keeps_token {R : Type} (H : Host R) (s : State R) (name k : List Char)
    (hs : s.stream = .to (name ++ k)) (hid : is_identifier name)
    (hq : find_constant name = none) (hf : find_function H name = none) (hk : no_ext k) :
    (∃ s1, next_token H s = .ok () s1 ∧ s1.stream = .to k ∧
      s1.token.kind = s.token.kind ∧ s1.token.as_ = s.token.as_ ∧
      s1.token.start = .to (name ++ k) ∧ s1.token.end_ = .to k ∧
      s1.args = s.args ∧ s1.stdout = s.stdout ∧
      s1.stderr = s.stderr ++
        ["WARNING: " ++ ("Unknown name \x27" ++ String.mk name ++ "\x27, skipping")]) ∧
    (∃ u, next_token H { s with token := nul H } = .ok () u ∧
      u.token.kind = TOKEN_VAL ∧ u.token.as_ = .val (H.ofRat 0)) ∧
    ∃ s1, parse_str H (name ++ "*3".toList) s = .ok () s1 ∧
      s1.stdout = s.stdout ++ [H.mul (H.ofRat 0) (H.ofRat 3)] ∧
      s1.stderr = s.stderr ++
        ["WARNING: " ++ ("Unknown name \x27" ++ String.mk name ++ "\x27, skipping")] := by
  refine ⟨⟨_, next_token_unknown H name k hs hid hq hf hk, rfl, rfl, rfl, rfl, rfl, rfl, rfl, rfl⟩,
    ⟨_, next_token_unknown H (s := { s with token := nul H }) name k hs hid hq hf hk, rfl, rfl⟩,
    ?_⟩
  obtain ⟨t', h1, h2, h3, -⟩ := parse_str_value H
    (Expr.term (.mul (lit "0").term (lit "3").power)) s
    (by simp [lit, Unary.term, Unary.power, Expr.wf, Term.wf, Power.wf, Unary.wf, Atom.wf,
      isdigit])
  obtain ⟨t, ht, hout, herr⟩ := unknown_name_prints H name "*3".toList s t' hid hq hf
    (no_ext_cons _ (by decide) (by decide)) h1 h3
  refine ⟨t, ht, ?_, herr⟩
  rw [hout, h2]
  have e0 : num_value "0".toList none = 0 := by
    rw [show "0".toList = ['0'] from rfl, num_value_digit '0' (by decide)]; simp
  have e3 : num_value "3".toList none = 3 := by
    rw [show "3".toList = ['3'] from rfl, num_value_digit '3' (by decide)]; simp
  simp only [lit, Unary.term, Unary.power, Expr.eval, Term.eval, Power.eval, Unary.eval,
    Atom.eval, e0, e3]

set_option maxRecDepth 100000 in
theorem unknown_name_keeps_token_witness :
    ({ State.init rat_host with stream := .to "foo*3".toList } : State ℚ).stream
      = .to ("foo".toList ++ "*3".toList) ∧
    is_identifier "foo".toList ∧ find_constant "foo".toList = none ∧
    find_function rat_host "foo".toList = none ∧ no_ext "*3".toList ∧
    rat_host.mul (rat_host.ofRat 0) (rat_host.ofRat 3) = 0 ∧
    printed rat_host "foo*3".toList = some [0] ∧
    ∃ s1, parse_str rat_host ("foo".toList ++ "*3".toList)
        { State.init rat_host with stream := .to "foo*3".toList } = .ok () s1 ∧
      s1.stdout = ({ State.init rat_host with stream := .to "foo*3".toList } : State ℚ).stdout
        ++ [rat_host.mul (rat_host.ofRat 0) (rat_host.ofRat 3)] ∧
      s1.stderr = ({ State.init rat_host with stream := .to "foo*3".toList } : State ℚ).stderr
        ++ ["WARNING: " ++ ("Unknown name \x27" ++ String.mk "foo".toList ++ "\x27, skipping")] :=
  ⟨rfl, ⟨⟨'f', "oo".toList, by decide, by decide⟩, by decide⟩, by decide!, rfl,
    no_ext_cons _ (by decide) (by decide), by decide!, by decide!,
    (unknown_name_keeps_token rat_host { State.init rat_host with stream := .to "foo*3".toList }
      "foo".toList "*3".toList rfl ⟨⟨'f', "oo".toList, by decide, by decide⟩, by decide⟩
      (by decide!) rfl (no_ext_cons _ (by decide) (by decide))).2.2⟩

set_option maxRecDepth 100000 in
/-- C13 at the inputs `2e+1` and `2 e+1`: the tokens of `2e+1` are the number
    `2`, the constant `e`, `+` and the number `1`.  With the blank inserted
    between the first two the number token carries the value 2 and the input
    prints 2; without it the conversion reads `2e+1` from the start of the
    token, the number token carries 20 and the input prints 20.  A form feed
    before the first token is skipped silently after an inserted blank and
    with a warning without one. -/
theorem blank_changes_number_token :
    (next_token rat_host { State.init rat_host with stream := .to "2e+1".toList }).state.stream
        = .to "e+1".toList ∧
    (next_token rat_host { State.init rat_host with stream := .to "2e+1".toList }).state.token.val?
        = some 20 ∧
    (next_token rat_host { State.init rat_host with stream := .to "e+1".toList }).state.token.kind
        = TOKEN_CONST ∧
    (next_token rat_host { State.init rat_host with stream := .to "2 e+1".toList }).state.stream
        = .to " e+1".toList ∧
    (next_token rat_host { State.init rat_host with stream := .to "2 e+1".toList }).state.token.val?
        = some 2 ∧
    (next_token rat_host { State.init rat_host with stream := .to " e+1".toList }).state.token.kind
        = TOKEN_CONST ∧
    printed rat_host "2e+1".toList = some [20] ∧
    printed rat_host "2 e+1".toList = some [2] ∧
    reported rat_host "\x0c1".toList = (true, ["WARNING: Invalid '\x0c' token, skipping"]) ∧
    reported rat_host " \x0c1".toList = (true, []) := by
  refine ⟨by decide!, by decide!, by decide!, by decide!, by decide!, by decide!, by decide!,
    by decide!, by decide!, by decide!⟩

/-- The function `parse_str` does not require the input to be consumed: for
    every well-formed expression `e` and every remaining text `r` that begins
    with neither a letter, a digit, an underscore nor a point (so that the
    conversion of a number that ends `e` cannot read on into `r`) and whose
    first token is not a binary operator, evaluating `e` followed by `r`
    prints the value of `e` and raises no fatal error, whatever follows that
    token; the only diagnostics are the warnings of the one call of
    `next_token` made at `r`. -/
theorem trailing_tokens_are_ignored {R : Type} (H : Host R) (e : Expr) (r : List Char)
    (s : State R) (hwf : e.wf H) (hr : no_ext r) (hstop : stops H op_kinds r) :
    ∃ s1 w, parse_str H (e.text ++ r) s = .ok () s1 ∧
      s1.stdout = s.stdout ++ [(e.eval H s.args).1] ∧ s1.stderr = s.stderr ++ w := by
  obtain ⟨s2, hreach, hrun⟩ := parse_str_runs H e r s hwf hr hstop
  obtain ⟨sc, -, hnext⟩ := next_token_scan H s2 r hreach.stream
  refine ⟨{ s2.scanned sc with stdout := (s2.scanned sc).stdout ++ [(e.eval H s.args).1] },
    sc.warns, ?_, ?_, ?_⟩
  · rw [hrun, hnext, bind_ok]
  · simp [State.scanned, hreach.stdout]
  · simp [State.scanned, hreach.stderr]

set_option maxRecDepth 100000 in
theorem trailing_tokens_are_ignored_witness :
    (lit "1").expr.wf rat_host ∧ no_ext ")".toList ∧ stops rat_host op_kinds ")".toList ∧
    (lit "1").expr.text ++ ")".toList = "1)".toList ∧
    printed rat_host "1)".toList = some [1] ∧ printed rat_host "1 2".toList = some [1] ∧
    reported rat_host "1)".toList = (true, []) ∧ reported rat_host "1 2".toList = (true, []) ∧
    ∃ s1 w, parse_str rat_host ((lit "1").expr.text ++ ")".toList) (State.init rat_host)
        = .ok () s1 ∧
      s1.stdout = (State.init rat_host).stdout ++
        [((lit "1").expr.eval rat_host (State.init rat_host).args).1] ∧
      s1.stderr = (State.init rat_host).stderr ++ w :=
  ⟨by simp [lit, Unary.expr, Expr.wf, Term.wf, Power.wf, Unary.wf, Atom.wf, isdigit],
    no_ext_cons _ (by decide) (by decide),
    stops_simple rat_host TOKEN_RPARAM [] op_kinds (by decide) (by decide),
    by decide!, by decide!, by decide!, by decide!, by decide!,
    trailing_tokens_are_ignored rat_host (lit "1").expr ")".toList (State.init rat_host)
      (by simp [lit, Unary.expr, Expr.wf, Term.wf, Power.wf, Unary.wf, Atom.wf, isdigit])
      (no_ext_cons _ (by decide) (by decide))
      (stops_simple rat_host TOKEN_RPARAM [] op_kinds (by decide) (by decide))⟩

set_option maxRecDepth 100000 in
/-- C20 at the input `1e+1`, the expression `1` followed by the text `e+1`:
    the first token of `1e+1` is the number `1`, with the cursor left at
    `e+1`, and the first token of `e+1` is the constant `e`, not a binary
    operator.  The value of `1` is 1, but the conversion reads `1e+1` from
    the start of the token: the number token carries 10 and 10 is printed.
    The inputs `1 2` and `1)` print 1. -/
theorem trailing_constant_changes_number :
    (lit "1").expr.wf rat_host ∧ (lit "1").expr.text = "1".toList ∧
    (lit "1").expr.value rat_host = 1 ∧
    (lit "1").expr.text ++ "e+1".toList = "1e+1".toList ∧
    (next_token rat_host { State.init rat_host with stream := .to "1e+1".toList }).state.stream
      = .to "e+1".toList ∧
    (next_token rat_host
      { State.init rat_host with stream := .to "1e+1".toList }).state.token.kind = TOKEN_VAL ∧
    (next_token rat_host
      { State.init rat_host with stream := .to "1e+1".toList }).state.token.val? = some 10 ∧
    (next_token rat_host
      { State.init rat_host with stream := .to "e+1".toList }).state.token.kind = TOKEN_CONST ∧
    TOKEN_CONST ∉ op_kinds ∧
    kinds_of rat_host "1e+1".toList
      = [TOKEN_VAL, TOKEN_CONST, TOKEN_ADD, TOKEN_VAL, TOKEN_EOF] ∧
    printed rat_host ((lit "1").expr.text ++ "e+1".toList) = some [10] ∧
    reported rat_host ((lit "1").expr.text ++ "e+1".toList) = (true, []) ∧
    printed rat_host ((lit "1").expr.text ++ "e+1".toList)
      ≠ some [(lit "1").expr.value rat_host] ∧
    printed rat_host "1 2".toList = some [1] ∧ printed rat_host "1)".toList = some [1] := by
  refine ⟨by simp [lit, Unary.expr, Expr.wf, Term.wf, Power.wf, Unary.wf, Atom.wf, isdigit],
    by decide!, by decide!, by decide!, by decide!, by decide!, by decide!, by decide!,
    by decide, by decide!, by decide!, by decide!, by decide!, by decide!, by decide!⟩

/-- C18. The evaluator requests no token after the end of the input.  On a C
    string and with a regular table of functions, the states of a run of
    `parse_str` keep the cursor in the text as long as the token is not the
    end of the input and just past the terminator once it is; a request made
    while the token is the end of the input would read through that cursor,
    outside the text, and end the run there as an undefined operation.  No
    run ends so, whatever the values of the tokens: `parse_str` returns or
    exits with failure, every request on the way having been made in the
    text; so the cursor is never read beyond the position just past the
    terminator, unknown names and garbage characters notwithstanding. -/
theorem no_token_requested_after_eof {R : Type} (H : Host R) (hH : H.regular)
    (str : List Char) (hstr : nul_free str) (s : State R) :
    Sane { s with token := nul H, stream := .to str } ∧
    (∀ t : State R, Sane t → t.token.kind ≠ TOKEN_EOF →
      ∃ u, next_token H t = .ok () u ∧ Sane u) ∧
    (∀ t : State R, Sane t → t.token.kind = TOKEN_EOF →
      t.stream = .off ∧ next_token H t = .halt .undefined t) ∧
    (parse_str H str s).in_text ∧ Sane (parse_str H str s).state := by
  refine ⟨⟨fun _ => ⟨str, rfl, hstr⟩, fun hk => by simp [nul] at hk,
    fun hk => by simp [nul] at hk⟩, ?_, ?_, sane_parse_str H hH str hstr s⟩
  · intro t ht hk
    obtain ⟨x, hx, hnf⟩ := ht.cursor hk
    obtain ⟨r, hr, hrun⟩ := next_token_scan H t x hx
    exact ⟨_, hrun, sane_scanned H hH t x r ht hk hnf hr⟩
  · intro t ht hk
    refine ⟨ht.eof hk, next_token_not_at H t ?_⟩
    intro text h
    rw [ht.eof hk] at h
    cases h

set_option maxRecDepth 100000 in
theorem no_token_requested_after_eof_witness :
    rat_host.regular ∧ nul_free "-foo $ (1+".toList ∧
    (parse_str rat_host "-foo $ (1+".toList (State.init rat_host)).halted
      = some .exit_failure ∧
    (parse_str rat_host "-foo $ (1+".toList (State.init rat_host)).state.token.kind
      = TOKEN_EOF ∧
    (parse_str rat_host "-foo $ (1+".toList (State.init rat_host)).state.stream = .off ∧
    reported rat_host "sqrt(0x)+1".toList
      = (false, ["WARNING: Unknown name \x27x\x27, skipping",
          "ERROR: Expected token \x27)\x27, got \x27Val\x27"]) ∧
    reported rat_host "sqrt(1e)+1".toList
      = (false, ["ERROR: Expected token \x27)\x27, got \x27Const\x27"]) ∧
    Sane ({ State.init rat_host with token := nul rat_host, stream := .to "-foo $ (1+".toList }
      : State ℚ) ∧
    (∃ u, next_token rat_host
        { State.init rat_host with token := nul rat_host, stream := .to "-foo $ (1+".toList }
        = .ok () u ∧ Sane u) ∧
    (parse_str rat_host "-foo $ (1+".toList (State.init rat_host)).in_text ∧
    Sane (parse_str rat_host "-foo $ (1+".toList (State.init rat_host)).state ∧
    next_token rat_host (parse_str rat_host "-foo $ (1+".toList (State.init rat_host)).state
      = .halt .undefined (parse_str rat_host "-foo $ (1+".toList (State.init rat_host)).state :=
  have h := no_token_requested_after_eof rat_host rat_host_regular "-foo $ (1+".toList
    (by unfold nul_free; decide) (State.init rat_host)
  ⟨rat_host_regular, by unfold nul_free; decide, by decide!, by decide!, by decide!,
    by decide!, by decide!, h.1, h.2.1 _ h.1 (by decide), h.2.2.2.1, h.2.2.2.2,
    (h.2.2.1 _ h.2.2.2.2 (by decide!)).2⟩

set_option maxRecDepth 100000 in
/-- C12, as the code has it: the stars of a run are paired from the left, so
    a `^` that directly follows a star token cannot be respelled.  `2*^3` is
    read as number, star, power, number, but `2***3` as number, power, star,
    number; and `sqrt*^2` fails at the star, `sqrt***2` at the power
    token. -/
theorem power_spelling_counterexample :
    kinds_of rat_host "2*^3".toList
      = [TOKEN_VAL, TOKEN_MUL, TOKEN_POW, TOKEN_VAL, TOKEN_EOF] ∧
    kinds_of rat_host "2***3".toList
      = [TOKEN_VAL, TOKEN_POW, TOKEN_MUL, TOKEN_VAL, TOKEN_EOF] ∧
    kinds_of rat_host "2*^3".toList ≠ kinds_of rat_host "2***3".toList ∧
    reported rat_host "sqrt*^2".toList
      = (false, ["ERROR: Expected token \x27(\x27, got \x27*\x27"]) ∧
    reported rat_host "sqrt***2".toList
      = (false, ["ERROR: Expected token \x27(\x27, got \x27^\x27"]) ∧
    (parse_str rat_host "sqrt*^2".toList (State.init rat_host)).seen
      ≠ (parse_str rat_host "sqrt***2".toList (State.init rat_host)).seen := by
  refine ⟨by decide!, by decide!, by decide!, by decide!, by decide!, by decide!⟩

/-- C12, amended. `next_token` makes a power token of `^`, consuming one
    character, and of `**`, consuming two; and for every input, writing `**`
    for a `^`, or `^` for a `**`, leaves the sequence of token kinds and what
    `parse_str` prints, reports and returns unchanged, provided the text
    before the operator does not end in a star without a partner when its
    stars are paired from the left. -/
theorem power_spellings_interchange {R : Type} (H : Host R) (pre post : List Char)
    (s : State R) (h : lone_star pre = false) :
    (∃ u, next_token H { s with stream := .to ('^' :: post) } = .ok () u ∧
      u.token.kind = TOKEN_POW ∧ u.stream = .to post) ∧
    (∃ u, next_token H { s with stream := .to ('*' :: '*' :: post) } = .ok () u ∧
      u.token.kind = TOKEN_POW ∧ u.stream = .to post) ∧
    kinds_of H (pre ++ '^' :: post) = kinds_of H (pre ++ '*' :: '*' :: post) ∧
    (parse_str H (pre ++ '^' :: post) s).seen
      = (parse_str H (pre ++ '*' :: '*' :: post) s).seen := by
  refine ⟨⟨_, next_token_simple H rfl rfl, rfl, rfl⟩, ⟨_, next_token_stars H post rfl, rfl, rfl⟩,
    ?_, ?_⟩
  · rw [kinds_of_caret H (pre ++ '^' :: post), kinds_of_caret H (pre ++ '*' :: '*' :: post),
      caret_spellings pre post h]
  · rw [seen_caret H (pre ++ '^' :: post), seen_caret H (pre ++ '*' :: '*' :: post),
      caret_spellings pre post h]

set_option maxRecDepth 100000 in
theorem power_spellings_interchange_witness :
    lone_star "2*3".toList = false ∧
    kinds_of rat_host ("2*3".toList ++ '^' :: "2+foo".toList)
      = [TOKEN_VAL, TOKEN_MUL, TOKEN_VAL, TOKEN_POW, TOKEN_VAL, TOKEN_ADD, TOKEN_ADD, TOKEN_EOF] ∧
    (parse_str rat_host ("2*3".toList ++ '^' :: "2+foo".toList) (State.init rat_host)).seen
      = (some .exit_failure, [],
          ["WARNING: Unknown name \x27foo\x27, skipping", "ERROR: Unexpected token"]) ∧
    kinds_of rat_host ("2*3".toList ++ '^' :: "2+foo".toList)
      = kinds_of rat_host ("2*3".toList ++ '*' :: '*' :: "2+foo".toList) ∧
    (parse_str rat_host ("2*3".toList ++ '^' :: "2+foo".toList) (State.init rat_host)).seen
      = (parse_str rat_host ("2*3".toList ++ '*' :: '*' :: "2+foo".toList)
          (State.init rat_host)).seen :=
  ⟨by decide, by decide!, by decide!,
    (power_spellings_interchange rat_host "2*3".toList "2+foo".toList (State.init rat_host)
      (by decide)).2.2⟩

end Culator
